import Mathlib

/-!
# Spreadsheet cell engine: shallow embedding

The development embeds `Sheet` (sheet.cpp), `Cell` (cell.cpp) and the
`Formula` adapter (formula.cpp).  Cells live on a heap and are named by their
address; the storage grid `cells_` holds owning pointers, the reverse-dependency
sets `dependent_cells_` hold raw pointers.  Every operation returns the way it
ended together with the state it left behind, so that the state at the moment an
exception is thrown can be inspected.
-/

namespace Spreadsheet

/-! ## Basic data -/

/-- Contents of a `std::string`. -/
abbrev Str := List Char

/-- Heap address of a `Cell` object (a non-null `Cell*`). -/
abbrev Addr := Nat

/-- A `Position` is a pair of `int`s. -/
structure Position where
  row : Int
  col : Int
  deriving DecidableEq, Repr

/-- Modelled from the spec: the constant `Position::MAX_ROWS` of common.h, which is not
among the sources; the spec gives 16384. -/
def MAX_ROWS : Int := 16384

/-- Modelled from the spec: the constant `Position::MAX_COLS` of common.h, which is not
among the sources; the spec gives 16384. -/
def MAX_COLS : Int := 16384

/-- Modelled from the spec: `Position::IsValid` of common.h, which is not among the
sources; both components lie in `[0, MAX)`. -/
def Position.IsValid (p : Position) : Bool :=
  decide (0 ≤ p.row) && decide (0 ≤ p.col) && decide (p.row < MAX_ROWS) && decide (p.col < MAX_COLS)

/-- Modelled from the spec: `Position::operator<` of common.h, which is not among the
sources; positions are ordered lexicographically by `(row, col)`. -/
def Position.lt (p q : Position) : Bool :=
  decide (p.row < q.row) || (decide (p.row = q.row) && decide (p.col < q.col))

/-- The three categories of `FormulaError`. -/
inductive FormulaError where
  | Ref
  | Value
  | Div0
  deriving DecidableEq, Repr

/-- The type `FormulaInterface::Value`, a `double` or a `FormulaError`.  The `double` is
carried as an integer code: no statement below depends on its arithmetic. -/
inductive FValue where
  | number (x : Int)
  | error (e : FormulaError)
  deriving DecidableEq, Repr

/-- The type `CellInterface::Value`: a string, a `double` or a `FormulaError`. -/
inductive CellValue where
  | str (t : Str)
  | number (x : Int)
  | error (e : FormulaError)
  deriving DecidableEq, Repr

/-- What a formula sees when it resolves a reference through the sheet:
`GetCell` throws, returns a null handle, or returns a cell whose value is read. -/
inductive Lookup where
  | invalid
  | absent
  | value (v : CellValue)
  deriving DecidableEq, Repr

/-- The run of `FormulaAST::Execute` against a sheet, as the sequence of cell reads it
performs and the result it finally yields.  The syntax tree itself belongs to the
parser, which is outside the sources. -/
inductive Exec where
  | done (v : FValue)
  | read (p : Position) (k : Lookup → Exec)

/-- A parsed formula (`FormulaAST`): its printed form, the list returned by `GetCells`
and its execution. -/
structure Handle where
  expr : Str
  cells : List Position
  exec : Exec

/-- The external parser `ParseFormulaAST`; `none` stands for a rejected text. -/
abbrev Parser := Str → Option Handle

/-- The character `FORMULA_SIGN`. -/
def FORMULA_SIGN : Char := '='

/-- The character `ESCAPE_SIGN`. -/
def ESCAPE_SIGN : Char := '\''

/-- The content variants `EmptyImpl`, `TextImpl` and `FormulaImpl`; the latter carries
its `cache_`. -/
inductive Impl where
  | empty
  | text (t : Str)
  | formula (h : Handle) (cache : Option FValue)

/-- A `Cell` object: `impl_` (null after `Clear`) and `dependent_cells_`.  The unordered set
is kept as a list without repetition; its order stands for the unspecified iteration order
of the set. -/
structure Cell where
  impl : Option Impl
  deps : List Addr

/-- The field `printable_size_`; its two `int` components never become negative. -/
structure Size where
  rows : Nat
  cols : Nat
  deriving DecidableEq, Repr

/-- A `Sheet` together with the heap its cells live on.  A heap entry is `none` once the
cell object has been destroyed; addresses are not reused. -/
structure State where
  cells : List (List (Option Addr))
  printable : Size
  heap : List (Option Cell)

/-- How an operation ends: it returns, throws one of the three exceptions, touches a
destroyed or null object or an index out of range, or recurses without end. -/
inductive Outcome where
  | ok
  | invalidPosition
  | circularDependency
  | formulaException
  | undefinedBehaviour
  | noTermination
  deriving DecidableEq, Repr

/-- A freshly constructed `Sheet`. -/
def State.empty : State := ⟨[], ⟨0, 0⟩, []⟩

/-! ## Heap and storage access -/

/-- Dereference a cell pointer. -/
def State.deref (s : State) (a : Addr) : Option Cell :=
  (s.heap.get? a).join

/-- Overwrite the object at a live address. -/
def State.store (s : State) (a : Addr) (c : Cell) : State :=
  { s with heap := s.heap.set a (some c) }

/-- The call `std::vector::resize(n)`, new slots being filled with `d`. -/
def resize {α : Type} (l : List α) (n : Nat) (d : α) : List α :=
  l.take n ++ List.replicate (n - l.length) d

/-- The element `cells_[i][j]`; `none` when an index is out of range. -/
def slot (cells : List (List (Option Addr))) (i j : Nat) : Option (Option Addr) :=
  match cells.get? i with
  | none => none
  | some r => r.get? j

/-- Assignment to `cells_[i][j]`. -/
def setSlot (cells : List (List (Option Addr))) (i j : Nat) (v : Option Addr) :
    List (List (Option Addr)) :=
  cells.modify (fun r => r.set j v) i

/-! ## Formula adapter (formula.cpp) -/

/-- Insertion into a `std::set<Position>`, kept as its sorted sequence of elements. -/
def setInsert (p : Position) : List Position → List Position
  | [] => [p]
  | q :: r =>
    if p.lt q then p :: q :: r
    else if q.lt p then q :: setInsert p r
    else q :: r

/-- The method `Formula::GetReferencedCells`: the list of `ast_.GetCells()` is poured into a
`std::set`, whose elements are then copied out in order. -/
def Formula.GetReferencedCells (h : Handle) : List Position :=
  h.cells.foldl (fun acc p => setInsert p acc) []

/-- The conversion performed at the end of `FormulaImpl::GetValue`. -/
def FValue.toCellValue : FValue → CellValue
  | .number x => .number x
  | .error e => .error e

/-! ## Content variants (cell.cpp) -/

/-- The constructor `FormulaImpl::FormulaImpl`: `ParseFormula(expression.substr(1))`, the
cache starting empty; `none` when `FormulaException` is thrown. -/
def FormulaImpl.make (P : Parser) (expression : Str) : Option Impl :=
  match P expression.tail with
  | none => none
  | some h => some (.formula h none)

/-- The methods `EmptyImpl::GetText`, `TextImpl::GetText` and `FormulaImpl::GetText`. -/
def Impl.GetText : Impl → Str
  | .empty => []
  | .text t => t
  | .formula h _ => FORMULA_SIGN :: h.expr

/-- The method `Impl::GetReferencedCells` and its override in `FormulaImpl`. -/
def Impl.GetReferencedCells : Impl → List Position
  | .formula h _ => Formula.GetReferencedCells h
  | _ => []

/-- The method `Impl::CacheInvalidate` (a no-op) and its override in `FormulaImpl`
(`cache_.reset()`). -/
def Impl.CacheInvalidate : Impl → Impl
  | .formula h _ => .formula h none
  | i => i

/-- The method `Impl::IsReferenced`; no variant overrides it. -/
def Impl.IsReferenced : Impl → Bool
  | _ => false

/-- The cache slot of a content variant. -/
def Impl.cache : Impl → Option FValue
  | .formula _ c => c
  | _ => none

/-- The choice of variant at the start of `Cell::Set`; `none` when the formula constructor
throws `FormulaException`. -/
def makeImpl (P : Parser) (text : Str) : Option Impl :=
  if text.isEmpty then some .empty
  else if text.head? = some FORMULA_SIGN && decide (text.length > 1) then FormulaImpl.make P text
  else some (.text text)

/-! ## Sheet lookups (sheet.cpp) -/

/-- Result of a lookup: `InvalidPositionException`, or a possibly null handle. -/
inductive Found where
  | throwsInvalidPosition
  | handle (c : Option Addr)
  deriving DecidableEq, Repr

/-- The method `Sheet::GetConcreteCell`. -/
def Sheet.GetConcreteCell (pos : Position) (s : State) : Found :=
  if pos.IsValid then
    if pos.row < (s.cells.length : Int) ∧
        pos.col < (((s.cells.get? pos.row.toNat).getD []).length : Int) then
      .handle ((slot s.cells pos.row.toNat pos.col.toNat).join)
    else .handle none
  else .throwsInvalidPosition

/-- The method `Sheet::GetCell`, non-const overload. -/
def Sheet.GetCell (pos : Position) (s : State) : Found :=
  if pos.IsValid then
    if pos.row < (s.cells.length : Int) ∧
        pos.col < (((s.cells.get? pos.row.toNat).getD []).length : Int) then
      .handle ((slot s.cells pos.row.toNat pos.col.toNat).join)
    else .handle none
  else .throwsInvalidPosition

/-- The method `Sheet::GetCell`, const overload. -/
def Sheet.GetCellConst (pos : Position) (s : State) : Found :=
  if pos.IsValid then
    if pos.row < (s.cells.length : Int) ∧
        pos.col < (((s.cells.get? pos.row.toNat).getD []).length : Int) then
      .handle ((slot s.cells pos.row.toNat pos.col.toNat).join)
    else .handle none
  else .throwsInvalidPosition

/-- The method `Sheet::GetPrintableSize`. -/
def Sheet.GetPrintableSize (s : State) : Size := s.printable

/-! ## Cell accessors (cell.cpp) -/

/-- The method `Cell::GetText`; `none` when the cell or its `impl_` is gone. -/
def Cell.GetText (a : Addr) (s : State) : Option Str :=
  match s.deref a with
  | none => none
  | some c => c.impl.map Impl.GetText

/-- The method `Cell::GetReferencedCells`; `none` when the cell or its `impl_` is gone. -/
def Cell.GetReferencedCells (a : Addr) (s : State) : Option (List Position) :=
  match s.deref a with
  | none => none
  | some c => c.impl.map Impl.GetReferencedCells

/-- The method `Cell::IsReferenced`; `none` when the cell or its `impl_` is gone. -/
def Cell.IsReferenced (a : Addr) (s : State) : Option Bool :=
  match s.deref a with
  | none => none
  | some c => c.impl.map Impl.IsReferenced

/-- The member `dependent_cells_` of the cell at an address (empty for a destroyed cell). -/
def dependents (s : State) (a : Addr) : List Addr :=
  match s.deref a with
  | none => []
  | some c => c.deps

/-- The cache slot of the cell at an address. -/
def cacheOf (s : State) (a : Addr) : Option FValue :=
  match s.deref a with
  | none => none
  | some c => c.impl.bind Impl.cache

/-! ## Sequencing -/

/-- Sequencing of two parts of an operation: the second part runs only if the first one
returned normally; otherwise the operation ends where the first part ended. -/
def andThen (r : Outcome × State) (k : State → Outcome × State) : Outcome × State :=
  match r.1 with
  | .ok => k r.2
  | _ => r

/-! ## Cycle check (cell.cpp) -/

/-- First loop of `Cell::CheckCircularDependendency`: the handles returned by
`GetConcreteCell` for the referenced positions, null handles included; `none` when a
lookup throws `InvalidPositionException`. -/
def referencedCellsSet (s : State) : List Position → Option (List (Option Addr))
  | [] => some []
  | p :: ps =>
    match Sheet.GetConcreteCell p s with
    | .throwsInvalidPosition => none
    | .handle c =>
      match referencedCellsSet s ps with
      | none => none
      | some r => some (c :: r)

/-- The inner loop of the traversal: every dependent that is not yet visited is pushed. -/
def pushUnvisited (visited : List Addr) (deps : List Addr) (stack : List Addr) : List Addr :=
  deps.foldl (fun st c => if c ∈ visited then st else c :: st) stack

/-- The while loop of `Cell::CheckCircularDependendency`; the head of the list is the top
of `queue_to_visit`.  The first argument bounds the number of iterations. -/
def dfsLoop (s : State) (refs : List (Option Addr)) :
    Nat → List Addr → List Addr → Outcome
  | 0, _, _ => .noTermination
  | _ + 1, [], _ => .ok
  | n + 1, curr :: rest, visited =>
    if some curr ∈ refs then .circularDependency
    else
      match s.deref curr with
      | none => .undefinedBehaviour
      | some c =>
        dfsLoop s refs n (pushUnvisited (curr :: visited) c.deps rest) (curr :: visited)

/-- Number of stored reverse-dependency edges. -/
def edgeCount (s : State) : Nat :=
  (s.heap.map (fun e => match e with | some c => c.deps.length | none => 0)).sum

/-- The method `Cell::CheckCircularDependendency`, called on the cell at `self` with the
candidate content. -/
def Cell.CheckCircularDependendency (self : Addr) (impl : Impl) (s : State) : Outcome :=
  match referencedCellsSet s impl.GetReferencedCells with
  | none => .invalidPosition
  | some refs => dfsLoop s refs (edgeCount s + 2) [self] []

/-! ## Cache invalidation (cell.cpp) -/

/-- The method `Cell::CacheInvalidate`; the first argument bounds the recursion depth. -/
def Cell.CacheInvalidateDepth : Nat → Addr → State → Outcome × State
  | 0, _, s => (.noTermination, s)
  | n + 1, a, s =>
    match s.deref a with
    | none => (.undefinedBehaviour, s)
    | some c =>
      match c.impl with
      | none => (.undefinedBehaviour, s)
      | some i =>
        c.deps.foldl (fun r d => andThen r (Cell.CacheInvalidateDepth n d))
          (.ok, s.store a { c with impl := some i.CacheInvalidate })

/-- The method `Cell::CacheInvalidate`: a chain of nested calls longer than the number of
cells ever allocated revisits a cell and so never ends. -/
def Cell.CacheInvalidate (a : Addr) (s : State) : Outcome × State :=
  Cell.CacheInvalidateDepth (s.heap.length + 1) a s

/-! ## Printable size (sheet.cpp) -/

/-- What a scan of one line of the printable rectangle ends with. -/
inductive Scan where
  | found
  | corner
  | nothing
  | outOfRange
  deriving DecidableEq, Repr

/-- Inner loop of the row scan of `UpdatePrintableSize`: `j` runs from the argument minus
one down to zero along row `i`. -/
def scanRowInner (cells : List (List (Option Addr))) (i : Nat) : Nat → Scan
  | 0 => .nothing
  | j + 1 =>
    match slot cells i j with
    | none => .outOfRange
    | some (some _) => .found
    | some none => if i = 0 ∧ j = 0 then .corner else scanRowInner cells i j

/-- What the row scan decides. -/
inductive RowScan where
  | rows (n : Nat)
  | cleared
  | unchanged
  | outOfRange
  deriving DecidableEq, Repr

/-- Outer loop of the row scan: `i` runs from the argument minus one down to zero. -/
def scanRows (cells : List (List (Option Addr))) (cols : Nat) : Nat → RowScan
  | 0 => .unchanged
  | i + 1 =>
    match scanRowInner cells i cols with
    | .found => .rows (i + 1)
    | .corner => .cleared
    | .nothing => scanRows cells cols i
    | .outOfRange => .outOfRange

/-- Inner loop of the column scan: `i` runs from the argument minus one down to zero along
column `j`. -/
def scanColInner (cells : List (List (Option Addr))) (j : Nat) : Nat → Scan
  | 0 => .nothing
  | i + 1 =>
    match slot cells i j with
    | none => .outOfRange
    | some (some _) => .found
    | some none => scanColInner cells j i

/-- Outer loop of the column scan: `j` runs from the argument minus one down to zero; the
result is the new column count, if any. -/
def scanCols (cells : List (List (Option Addr))) (rows : Nat) : Nat → Option (Option Nat)
  | 0 => some none
  | j + 1 =>
    match scanColInner cells j rows with
    | .found => some (some (j + 1))
    | .outOfRange => none
    | _ => scanCols cells rows j

/-- Second half of the mode c branch of `UpdatePrintableSize`: the new vertical border. -/
def updateCols (pos : Position) (s : State) : Outcome × State :=
  if (s.printable.cols : Int) = pos.col + 1 then
    match scanCols s.cells s.printable.rows s.printable.cols with
    | none => (.undefinedBehaviour, s)
    | some none => (.ok, s)
    | some (some c) => (.ok, { s with printable := { s.printable with cols := c } })
  else (.ok, s)

/-- The method `Sheet::UpdatePrintableSize`. -/
def Sheet.UpdatePrintableSize (pos : Position) (mode : Char) (s : State) : Outcome × State :=
  if mode = 's' then
    let r := if (s.printable.rows : Int) < pos.row + 1 then (pos.row + 1).toNat
      else s.printable.rows
    let c := if (s.printable.cols : Int) < pos.col + 1 then (pos.col + 1).toNat
      else s.printable.cols
    (.ok, { s with printable := ⟨r, c⟩ })
  else if mode = 'c' then
    if (s.printable.rows : Int) = pos.row + 1 then
      match scanRows s.cells s.printable.cols s.printable.rows with
      | .outOfRange => (.undefinedBehaviour, s)
      | .cleared => (.ok, { s with printable := ⟨0, 0⟩ })
      | .unchanged => updateCols pos s
      | .rows n => updateCols pos { s with printable := { s.printable with rows := n } }
    else updateCols pos s
  else (.ok, s)

/-! ## Editing a cell (cell.cpp, sheet.cpp) -/

/-- The statement `cell->dependent_cells_.insert(this)`. -/
def addDependent (c self : Addr) (s : State) : Outcome × State :=
  match s.deref c with
  | none => (.undefinedBehaviour, s)
  | some obj => (.ok, s.store c { obj with deps := obj.deps.insert self })

/-- One pass through the body of the loop of `Cell::Set` over the referenced positions.
The argument `inner` is the call `sheet_.SetCell(pos, "")`. -/
def linkStep (inner : Position → State → Outcome × State) (self : Addr) (pos : Position)
    (s : State) : Outcome × State :=
  match Sheet.GetConcreteCell pos s with
  | .throwsInvalidPosition => (.invalidPosition, s)
  | .handle (some c) => addDependent c self s
  | .handle none =>
    andThen (inner pos s) (fun s1 =>
      match Sheet.GetConcreteCell pos s1 with
      | .throwsInvalidPosition => (.invalidPosition, s1)
      | .handle (some c) => addDependent c self s1
      | .handle none => (.undefinedBehaviour, s1))

/-- The loop of `Cell::Set` over the referenced positions of the new content. -/
def linkReferenced (inner : Position → State → Outcome × State) (self : Addr) :
    List Position → State → Outcome × State
  | [], s => (.ok, s)
  | pos :: rest, s =>
    andThen (linkStep inner self pos s) (linkReferenced inner self rest)

/-- The method `Cell::Set` on the cell at `self`; `inner` is the call
`sheet_.SetCell(pos, "")` made for a referenced position that holds no cell. -/
def cellSet (P : Parser) (inner : Position → State → Outcome × State) (self : Addr)
    (text : Str) (s : State) : Outcome × State :=
  match makeImpl P text with
  | none => (.formulaException, s)
  | some temp =>
    match Cell.CheckCircularDependendency self temp s with
    | .ok =>
      match s.deref self with
      | none => (.undefinedBehaviour, s)
      | some obj =>
        andThen
          (linkReferenced inner self temp.GetReferencedCells
            (s.store self { obj with impl := some temp }))
          (Cell.CacheInvalidate self)
    | o => (o, s)

/-- First growth step of `Sheet::SetCell`: more rows, each brought to the length of row
zero. -/
def growRows (cells : List (List (Option Addr))) (row : Nat) : List (List (Option Addr)) :=
  if row ≥ cells.length then
    let c1 := resize cells (if row = 0 then 2 else row * 2) []
    c1.map (fun r => resize r (c1.head?.getD []).length none)
  else cells

/-- Second growth step of `Sheet::SetCell`: longer rows. -/
def growCols (cells : List (List (Option Addr))) (col : Nat) : List (List (Option Addr)) :=
  if col ≥ (cells.head?.getD []).length then
    cells.map (fun r => resize r (if col = 0 then 2 else col * 2) none)
  else cells

/-- The statement `cells_[pos.row][pos.col] = std::make_unique<Cell>(*this)`: a new cell
with `EmptyImpl` content and no dependents is allocated. -/
def materialize (i j : Nat) (s : State) : State :=
  { s with
    cells := setSlot s.cells i j (some s.heap.length)
    heap := s.heap ++ [some ⟨some .empty, []⟩] }

/-- The method `Sheet::SetCell`, with `set` standing for `Cell::Set`. -/
def sheetSetCell (set : Addr → Str → State → Outcome × State) (pos : Position) (text : Str)
    (s : State) : Outcome × State :=
  if pos.IsValid then
    let s1 : State := { s with cells := growCols (growRows s.cells pos.row.toNat) pos.col.toNat }
    match slot s1.cells pos.row.toNat pos.col.toNat with
    | none => (.undefinedBehaviour, s1)
    | some none =>
      andThen (set s1.heap.length text (materialize pos.row.toNat pos.col.toNat s1))
        (Sheet.UpdatePrintableSize pos 's')
    | some (some a) => andThen (set a text s1) (Sheet.UpdatePrintableSize pos 's')
  else (.invalidPosition, s)

/-- The mutually recursive pair `Sheet::SetCell` and `Cell::Set`, unrolled to a given depth
of nested `SetCell` calls.  The nested call always passes the empty text. -/
def Sheet.SetCellDepth (P : Parser) : Nat → Position → Str → State → Outcome × State
  | 0, _, _, s => (.noTermination, s)
  | d + 1, pos, text, s =>
    sheetSetCell (cellSet P (fun p t => Sheet.SetCellDepth P d p [] t)) pos text s

/-- The method `Cell::Set` as the sheet calls it. -/
def Cell.Set (P : Parser) (self : Addr) (text : Str) (s : State) : Outcome × State :=
  cellSet P (fun p t => Sheet.SetCellDepth P 1 p [] t) self text s

/-- The method `Sheet::SetCell`.  Two levels suffice: the nested call sets the empty text,
whose content references nothing. -/
def Sheet.SetCell (P : Parser) (pos : Position) (text : Str) (s : State) : Outcome × State :=
  Sheet.SetCellDepth P 2 pos text s

/-! ## Clearing a cell (cell.cpp, sheet.cpp) -/

/-- The method `Cell::Clear`: `impl_.reset(nullptr)`. -/
def Cell.Clear (a : Addr) (s : State) : Outcome × State :=
  match s.deref a with
  | none => (.undefinedBehaviour, s)
  | some obj => (.ok, s.store a { obj with impl := none })

/-- The statement `cells_[pos.row][pos.col].reset(nullptr)`: the cell object is destroyed
and the slot becomes null. -/
def destroy (i j : Nat) (a : Addr) (s : State) : State :=
  { s with cells := setSlot s.cells i j none, heap := s.heap.set a none }

/-- The method `Sheet::ClearCell`. -/
def Sheet.ClearCell (pos : Position) (s : State) : Outcome × State :=
  if pos.IsValid then
    if pos.row < (s.cells.length : Int) ∧
        pos.col < (((s.cells.get? pos.row.toNat).getD []).length : Int) then
      match (slot s.cells pos.row.toNat pos.col.toNat).join with
      | some a =>
        andThen (Cell.Clear a s) (fun s1 =>
          Sheet.UpdatePrintableSize pos 'c' (destroy pos.row.toNat pos.col.toNat a s1))
      | none => Sheet.UpdatePrintableSize pos 'c' s
    else (.ok, s)
  else (.invalidPosition, s)

/-! ## Reading a value (cell.cpp, formula.cpp) -/

/-- The method `Formula::Evaluate`: the execution is run, every cell read going through
`getv`; `none` when a read does not return. -/
def runExec (getv : Position → State → Option (Lookup × State)) :
    Exec → State → Option (FValue × State)
  | .done v, s => some (v, s)
  | .read p k, s =>
    match getv p s with
    | none => none
    | some (l, s1) => runExec getv (k l) s1

/-- The method `TextImpl::GetValue`; `none` when `text_.at(0)` is out of range. -/
def TextImpl.GetValue (t : Str) : Option CellValue :=
  match t with
  | [] => none
  | c :: rest => if c = ESCAPE_SIGN then some (.str rest) else some (.str t)

/-- A cell read made by a running formula: `sheet.GetCell(pos)` and, for a cell, its
`GetValue()` given as `getValue`. -/
def readCell (getValue : Addr → State → Option (CellValue × State)) (p : Position)
    (s : State) : Option (Lookup × State) :=
  match Sheet.GetCellConst p s with
  | .throwsInvalidPosition => some (.invalid, s)
  | .handle none => some (.absent, s)
  | .handle (some a) =>
    match getValue a s with
    | none => none
    | some (v, s1) => some (.value v, s1)

/-- The method `Cell::GetValue`, dispatching to `EmptyImpl::GetValue`, `TextImpl::GetValue`
or `FormulaImpl::GetValue`; the first argument bounds the depth of nested evaluations and
`none` means that no value is returned. -/
def Cell.GetValueDepth : Nat → Addr → State → Option (CellValue × State)
  | 0, _, _ => none
  | n + 1, a, s =>
    match s.deref a with
    | none => none
    | some c =>
      match c.impl with
      | none => none
      | some .empty => some (.str [], s)
      | some (.text t) => (TextImpl.GetValue t).map (fun v => (v, s))
      | some (.formula _ (some v)) => some (v.toCellValue, s)
      | some (.formula h none) =>
        match runExec (readCell (Cell.GetValueDepth n)) h.exec s with
        | none => none
        | some (v, s1) =>
          match s1.deref a with
          | none => none
          | some c1 => some (v.toCellValue, s1.store a { c1 with impl := some (.formula h (some v)) })

/-- The method `Cell::GetValue`: a chain of nested evaluations longer than the number of
cells ever allocated re-enters a cell whose cache is still empty and so never ends. -/
def Cell.GetValue (a : Addr) (s : State) : Option (CellValue × State) :=
  Cell.GetValueDepth (s.heap.length + 1) a s

/-! ## A concrete parser

The parser is outside the sources.  Where a concrete one is needed, formulas that are sums
of cell references with a one-letter column and a one-digit row are used. -/

/-- Reads a reference such as B3, in the way of `Position::FromString`: zero-based row and
column. -/
def sampleCell (c d : Char) : Option Position :=
  if 65 ≤ c.toNat ∧ c.toNat ≤ 90 ∧ 49 ≤ d.toNat ∧ d.toNat ≤ 57 then
    some ⟨((d.toNat - 49 : Nat) : Int), ((c.toNat - 65 : Nat) : Int)⟩
  else none

/-- The references of a sum such as A1+B2+A1, in order of appearance. -/
def sampleRefs : Str → Option (List Position)
  | [c, d] => (sampleCell c d).map (fun p => [p])
  | c :: d :: '+' :: more =>
    match sampleCell c d, sampleRefs more with
    | some p, some ps => some (p :: ps)
    | _, _ => none
  | _ => none

/-- The number a cell read contributes to a sum, following the evaluation contract: an
invalid position gives Ref, an absent cell or an empty text counts as zero, a text of
digits as its number, any other text gives Value. -/
def sampleNumber : Lookup → FValue
  | .invalid => .error .Ref
  | .absent => .number 0
  | .value (.number x) => .number x
  | .value (.error e) => .error e
  | .value (.str t) =>
    if t.all Char.isDigit then
      .number (t.foldl (fun acc ch => acc * 10 + ((ch.toNat - 48 : Nat) : Int)) 0)
    else .error .Value

/-- Execution of a sum: the cells are read from left to right, the first error ends the
run. -/
def sampleExec : List Position → Int → Exec
  | [], acc => .done (.number acc)
  | p :: ps, acc =>
    .read p (fun l =>
      match sampleNumber l with
      | .number x => sampleExec ps (acc + x)
      | .error e => .done (.error e))

/-- The sample parser: sums of cell references are accepted, every other text is
rejected. -/
def sampleParser : Parser := fun t =>
  match sampleRefs t with
  | none => none
  | some ps => some ⟨t, ps, sampleExec ps 0⟩

/-- The position A1. -/
def A1 : Position := ⟨0, 0⟩

/-- The position B1. -/
def B1 : Position := ⟨0, 1⟩

/-- The position C1. -/
def C1 : Position := ⟨0, 2⟩

/-- The position A2. -/
def A2 : Position := ⟨1, 0⟩

/-- What a user reads at a position: `sheet.GetCell(pos)->GetValue()`, the handle being
non-null. -/
def Sheet.readValue (pos : Position) (s : State) : Option (CellValue × State) :=
  match Sheet.GetCell pos s with
  | .handle (some a) => Cell.GetValue a s
  | _ => none

/-- What a user reads at a position: `sheet.GetCell(pos)->GetText()`, the handle being
non-null. -/
def Sheet.readText (pos : Position) (s : State) : Option Str :=
  match Sheet.GetCell pos s with
  | .handle (some a) => Cell.GetText a s
  | _ => none

/-! ## Calls and reachable states -/

/-- A call a user of the sheet can make. -/
inductive Op where
  | setCell (pos : Position) (text : Str)
  | clearCell (pos : Position)
  | getValue (pos : Position)

/-- The effect of a call.  A read that yields no value (null handle dereferenced, or no
return) is undefined behaviour. -/
def Op.run (P : Parser) : Op → State → Outcome × State
  | .setCell pos text, s => Sheet.SetCell P pos text s
  | .clearCell pos, s => Sheet.ClearCell pos s
  | .getValue pos, s =>
    match Sheet.readValue pos s with
    | some (_, s1) => (.ok, s1)
    | none => (.undefinedBehaviour, s)

/-- Control comes back to the caller: the operation returned or threw one of the three
exceptions. -/
def Outcome.returns : Outcome → Bool
  | .ok => true
  | .invalidPosition => true
  | .circularDependency => true
  | .formulaException => true
  | .undefinedBehaviour => false
  | .noTermination => false

/-- The operation threw one of the three exceptions. -/
def Outcome.throws : Outcome → Bool
  | .invalidPosition => true
  | .circularDependency => true
  | .formulaException => true
  | _ => false

/-- Whether a call is a `ClearCell`. -/
def Op.isClear : Op → Bool
  | .clearCell _ => true
  | _ => false

/-- States reached from the empty sheet by calls satisfying `allowed`, each of which came
back to the caller (the state after an exception is the state the exception left). -/
inductive ReachableVia (P : Parser) (allowed : Op → Bool) : State → Prop where
  | empty : ReachableVia P allowed State.empty
  | step {s : State} (op : Op) : ReachableVia P allowed s → allowed op = true →
      (op.run P s).1.returns = true → ReachableVia P allowed (op.run P s).2

/-- States reachable from the empty sheet by `SetCell`, `ClearCell` and value reads. -/
def Reachable (P : Parser) (s : State) : Prop := ReachableVia P (fun _ => true) s

/-- States reachable from the empty sheet without any `ClearCell`. -/
def ReachableNoClear (P : Parser) (s : State) : Prop := ReachableVia P (fun op => !op.isClear) s

/-- The state after a sequence of calls. -/
def runOps (P : Parser) : List Op → State → State
  | [], s => s
  | op :: rest, s => runOps P rest (op.run P s).2

/-- Every call of the sequence comes back to the caller. -/
def allReturn (P : Parser) : List Op → State → Bool
  | [], _ => true
  | op :: rest, s => (op.run P s).1.returns && allReturn P rest (op.run P s).2

/-- Position `p` holds a cell whose content references position `q`: an edge of the
forward-reference graph. -/
def references (s : State) (p q : Position) : Prop :=
  ∃ a refs, Sheet.GetCell p s = .handle (some a) ∧
    Cell.GetReferencedCells a s = some refs ∧ q ∈ refs

/-- The forward-reference graph has no cycle. -/
def forwardAcyclic (s : State) : Prop :=
  ∀ p, ¬ Relation.TransGen (references s) p p

/-- Cell `b` is in the reverse-dependency set of cell `a`: an edge of the stored
reverse-dependency graph, followed by the traversals. -/
def depEdge (s : State) (a b : Addr) : Prop := b ∈ dependents s a


/-! ## Concrete sheets -/

/-- The sheet after `SetCell(A1, "=B1")` on the empty sheet. -/
def sheetA1refB1 : State := (Sheet.SetCell sampleParser A1 "=B1".toList State.empty).2

/-- The calls `SetCell(A1, "=B1")`, `ClearCell(B1)`, `SetCell(B1, "=A1")`. -/
def callsClosingCycle : List Op :=
  [.setCell A1 "=B1".toList, .clearCell B1, .setCell B1 "=A1".toList]

/-- The calls `SetCell(B1, "5")`, `SetCell(A1, "=B1")`, a read of the value at A1, and
`ClearCell(B1)`. -/
def callsClearUnderCache : List Op :=
  [.setCell B1 "5".toList, .setCell A1 "=B1".toList, .getValue A1, .clearCell B1]

/-- The calls `SetCell(A1, "=B1")`, `ClearCell(B1)`, a read of the value at A1, and
`SetCell(B1, "5")`. -/
def callsSetUnderCache : List Op :=
  [.setCell A1 "=B1".toList, .clearCell B1, .getValue A1, .setCell B1 "5".toList]

/-- Every call of the sequence returns normally. -/
def allOk (P : Parser) : List Op → State → Bool
  | [], _ => true
  | op :: rest, s => decide ((op.run P s).1 = .ok) && allOk P rest (op.run P s).2

/-! ## Well-formed states -/

/-- The length of row zero, `cells_[0].size()` (zero for an empty storage). -/
def width (cells : List (List (Option Addr))) : Nat := (cells.head?.getD []).length

/-- The storage is rectangular: every row is as long as row zero. -/
def Rect (cells : List (List (Option Addr))) : Prop := ∀ r ∈ cells, r.length = width cells

/-- The pointer stored at `cells_[i][j]`, null when the indices are out of range. -/
def ptrAt (cells : List (List (Option Addr))) (i j : Nat) : Option Addr := (slot cells i j).join

/-- Well-formed states: the storage is rectangular, every pointer in the storage leads to a
live cell with a content, no cell is owned by two slots, and every live cell is owned by a
slot. -/
structure WF (s : State) : Prop where
  rect : Rect s.cells
  live : ∀ i j a, ptrAt s.cells i j = some a → ∃ c, s.deref a = some c ∧ c.impl ≠ none
  inj : ∀ i j i' j' a, ptrAt s.cells i j = some a → ptrAt s.cells i' j' = some a →
    i = i' ∧ j = j'
  owned : ∀ a c, s.deref a = some c → ∃ i j, ptrAt s.cells i j = some a

/-- The state `s'` extends `s`: every cell stays where it was, with the same content up to
its cache and with a reverse-dependency set that only grew; a cell that appeared is a
newly allocated empty cell. -/
structure Ext (s s' : State) : Prop where
  keep : ∀ i j a, ptrAt s.cells i j = some a → ptrAt s'.cells i j = some a
  cell : ∀ a c, s.deref a = some c → ∃ c', s'.deref a = some c' ∧
    c'.impl.map Impl.CacheInvalidate = c.impl.map Impl.CacheInvalidate ∧ c.deps ⊆ c'.deps
  fresh : ∀ i j a, ptrAt s'.cells i j = some a → ptrAt s.cells i j = some a ∨
    (s.deref a = none ∧ ∃ c', s'.deref a = some c' ∧ c'.impl = some .empty)

/-- The state `s'` differs from `s` in cache slots only. -/
structure CacheOnly (s s' : State) : Prop where
  cells : s'.cells = s.cells
  printable : s'.printable = s.printable
  length : s'.heap.length = s.heap.length
  cell : ∀ a, (s'.deref a).map (fun c => (c.impl.map Impl.CacheInvalidate, c.deps)) =
    (s.deref a).map (fun c => (c.impl.map Impl.CacheInvalidate, c.deps))

/-- What is required of the nested call `sheet_.SetCell(pos, "")`, made at a valid position
that holds no cell: it keeps the state well-formed and only extends it. -/
def InnerSpec (inner : Position → State → Outcome × State) : Prop :=
  ∀ q t, WF t → q.IsValid = true → ptrAt t.cells q.row.toNat q.col.toNat = none →
    WF (inner q t).2 ∧ Ext t (inner q t).2

/-- The state `s2` in which `Sheet::SetCell` calls `Cell::Set` on the cell `x`, after
the storage has grown and the cell at the position has been created if it was absent. -/
structure Prelude (s : State) (pos : Position) (x : Addr) (s2 : State) : Prop where
  wf : WF s2
  ext : Ext s s2
  here : ptrAt s2.cells pos.row.toNat pos.col.toNat = some x
  printable : s2.printable = s.printable
  others : ∀ i j, ¬ (pos.row.toNat = i ∧ pos.col.toNat = j) →
    ptrAt s2.cells i j = ptrAt s.cells i j
  deref : ∀ b cb, s.deref b = some cb → s2.deref b = some cb
  old : ∀ a, ptrAt s.cells pos.row.toNat pos.col.toNat = some a → x = a
  new : ptrAt s.cells pos.row.toNat pos.col.toNat = none →
    s.deref x = none ∧ s2.deref x = some ⟨some .empty, []⟩
  only : ∀ b cb, s2.deref b = some cb → s.deref b = some cb ∨ cb = ⟨some .empty, []⟩
  rows : s.cells.length ≤ s2.cells.length
  cols : width s.cells ≤ width s2.cells
  inRange : pos.row.toNat < s2.cells.length ∧ pos.col.toNat < width s2.cells

/-- Every position referenced by the content of a cell in the storage is valid and holds a
cell whose reverse-dependency set contains the referencing cell. -/
def BackLinked (s : State) : Prop :=
  ∀ i j a c impl, ptrAt s.cells i j = some a → s.deref a = some c → c.impl = some impl →
    ∀ q ∈ impl.GetReferencedCells, q.IsValid = true ∧
      ∃ b, ptrAt s.cells q.row.toNat q.col.toNat = some b ∧ a ∈ dependents s b

/-- The calls `SetCell(A1, "=B1")`, `SetCell(A1, "")`. -/
def callsReplacingFormula : List Op :=
  [.setCell A1 "=B1".toList, .setCell A1 []]

/-- The calls `SetCell(A1, "=B1")`, `ClearCell(B1)`, `SetCell(B1, "")`. -/
def callsRecreatingTarget : List Op :=
  [.setCell A1 "=B1".toList, .clearCell B1, .setCell B1 []]

/-- The calls `SetCell(A1, "=B1")`, `SetCell(A1, "1")`. -/
def callsLeavingStaleEdge : List Op :=
  [.setCell A1 "=B1".toList, .setCell A1 "1".toList]

/-- No call of the sequence is a `ClearCell`. -/
def noClear (ops : List Op) : Bool := ops.all (fun op => !op.isClear)

/-! ## Measures and invariants of the traversals -/

/-- Number of dependents recorded in a heap entry. -/
def degree : Option Cell → Nat
  | some c => c.deps.length
  | none => 0

/-- Number of stored reverse-dependency edges that leave a cell not in `visited`; the heap
is scanned from address `i` on. -/
def unvisitedEdges (visited : List Addr) : List (Option Cell) → Nat → Nat
  | [], _ => 0
  | e :: es, i => (if i ∈ visited then 0 else degree e) + unvisitedEdges visited es (i + 1)

/-- Invariant of the traversal stack: a visited cell that is still on the stack has each of
its dependents visited or above it on the stack. -/
def StackInv (s : State) (stack visited : List Addr) : Prop :=
  ∀ pre v post, stack = pre ++ v :: post → v ∈ visited →
    ∀ u ∈ dependents s v, u ∈ visited ∨ u ∈ pre

/-- No reverse-dependency set holds a pointer to a destroyed cell. -/
def NoDangling (s : State) : Prop :=
  ∀ a c, s.deref a = some c → ∀ d ∈ c.deps, ∃ cd, s.deref d = some cd

/-- The stored reverse-dependency graph has no cycle. -/
def depAcyclic (s : State) : Prop := ∀ a, ¬ Relation.TransGen (depEdge s) a a

/-- Sound states: well-formed, without dangling pointers, and with an acyclic stored
reverse-dependency graph. -/
structure Sound (s : State) : Prop where
  wf : WF s
  noDangling : NoDangling s
  acyclic : depAcyclic s

/-- Every stored edge of `t` is an edge of `s` or leads to the cell `x` from a cell that
`t` holds at one of the positions `R`. -/
def EdgesTracked (x : Addr) (R : List Position) (s t : State) : Prop :=
  ∀ a d, d ∈ dependents t a → d ∈ dependents s a ∨
    (d = x ∧ ∃ q ∈ R, ptrAt t.cells q.row.toNat q.col.toNat = some a)

/-! ## Printing (sheet.cpp) -/

/-- Result of a printing loop: what was printed and the state reached, or an index of
`cells_` out of range, or a cell that produced nothing to print. -/
inductive Printed (α : Type) where
  | done (out : α) (s : State)
  | outOfRange
  | noValue

/-- What a printing loop wrote, if it came to its end. -/
def Printed.output {α : Type} : Printed α → Option α
  | .done out _ => some out
  | _ => none

/-- Inner loop of `PrintValues` and `PrintTexts` over the columns `js` of row `i`: the
element `cells_[i][j]` is read and, when it is not null, `get` is called on the cell;
a null element prints as `blank`. -/
def printRow {α : Type} (get : Addr → State → Option (α × State)) (blank : α) (i : Nat) :
    List Nat → State → Printed (List α)
  | [], s => .done [] s
  | j :: js, s =>
    match slot s.cells i j with
    | none => .outOfRange
    | some none =>
      match printRow get blank i js s with
      | .done out s1 => .done (blank :: out) s1
      | r => r
    | some (some a) =>
      match get a s with
      | none => .noValue
      | some (v, s1) =>
        match printRow get blank i js s1 with
        | .done out s2 => .done (v :: out) s2
        | r => r

/-- Outer loop of `PrintValues` and `PrintTexts` over the rows `is`; the columns run from
zero to `printable_size_.cols`. -/
def printRows {α : Type} (get : Addr → State → Option (α × State)) (blank : α) :
    List Nat → State → Printed (List (List α))
  | [], s => .done [] s
  | i :: is, s =>
    match printRow get blank i (List.range s.printable.cols) s with
    | .done row s1 =>
      match printRows get blank is s1 with
      | .done out s2 => .done (row :: out) s2
      | r => r
    | .outOfRange => .outOfRange
    | .noValue => .noValue

/-- The method `Sheet::PrintValues`: the values of the printable area, row by row.  The
characters the stream operator writes for a value are not part of the embedding. -/
def Sheet.PrintValues (s : State) : Printed (List (List CellValue)) :=
  printRows Cell.GetValue (.str []) (List.range s.printable.rows) s

/-- The characters `PrintTexts` writes for one row: the fields separated by tabs, then a
newline. -/
def renderRow : List Str → Str
  | [] => ['\n']
  | [x] => x ++ ['\n']
  | x :: y :: rest => x ++ '\t' :: renderRow (y :: rest)

/-- The method `Sheet::PrintTexts`: the characters written to the stream. -/
def Sheet.PrintTexts (s : State) : Printed Str :=
  match printRows (fun a t => (Cell.GetText a t).map (fun x => (x, t))) []
      (List.range s.printable.rows) s with
  | .done rows s1 => .done (rows.map renderRow).flatten s1
  | .outOfRange => .outOfRange
  | .noValue => .noValue

/-! ## The printable area and the storage -/

/-- The printable area lies inside the storage. -/
def Bounded (s : State) : Prop :=
  s.printable.rows ≤ s.cells.length ∧ s.printable.cols ≤ width s.cells

/-- The last of the rows counted by `sz` holds a cell. -/
def LastRow (cells : List (List (Option Addr))) (sz : Size) : Prop :=
  0 < sz.rows → ∃ j a, ptrAt cells (sz.rows - 1) j = some a

/-- The last of the columns counted by `sz` holds a cell. -/
def LastCol (cells : List (List (Option Addr))) (sz : Size) : Prop :=
  0 < sz.cols → ∃ i a, ptrAt cells i (sz.cols - 1) = some a

/-- The size `sz` is the tight bounding box of the cells of the storage: every cell lies in
one of the first `sz.rows` rows and `sz.cols` columns, and the last of these rows and the
last of these columns each hold a cell.  So `sz.rows` is one more than the largest row
holding a cell, `sz.cols` one more than the largest such column, and both are zero when
there is no cell. -/
structure IsBoundingBox (cells : List (List (Option Addr))) (sz : Size) : Prop where
  covers : ∀ i j a, ptrAt cells i j = some a → i < sz.rows ∧ j < sz.cols
  lastRow : LastRow cells sz
  lastCol : LastCol cells sz

/-- The printable size of the state is the tight bounding box of its cells. -/
def Tight (s : State) : Prop := IsBoundingBox s.cells s.printable

/-- Every cell whose text is not empty lies inside the printable area. -/
def NonEmptyCovered (s : State) : Prop :=
  ∀ i j a t, ptrAt s.cells i j = some a → Cell.GetText a s = some t → t ≠ [] →
    i < s.printable.rows ∧ j < s.printable.cols

/-- How the storage and the printable area of `s'` relate to those of an earlier state `s`
when nothing was removed in between: neither shrank, every cell stayed in its slot, and
every cell that appeared lies inside the printable area. -/
structure Shape (s s' : State) : Prop where
  rows : s.cells.length ≤ s'.cells.length
  cols : width s.cells ≤ width s'.cells
  prows : s.printable.rows ≤ s'.printable.rows
  pcols : s.printable.cols ≤ s'.printable.cols
  keep : ∀ i j a, ptrAt s.cells i j = some a → ptrAt s'.cells i j = some a
  bounded : Bounded s → Bounded s'
  lastRow : LastRow s.cells s.printable → LastRow s'.cells s'.printable
  lastCol : LastCol s.cells s.printable → LastCol s'.cells s'.printable
  covers : ∀ i j a, ptrAt s'.cells i j = some a → ptrAt s.cells i j = none →
    i < s'.printable.rows ∧ j < s'.printable.cols

/-- What is required of the nested call `sheet_.SetCell(pos, "")` about the storage and the
printable area. -/
def InnerShape (inner : Position → State → Outcome × State) : Prop :=
  ∀ q t, WF t → q.IsValid = true → ptrAt t.cells q.row.toNat q.col.toNat = none →
    Shape t (inner q t).2

/-- States reached from the empty sheet by calls each of which returned normally. -/
inductive ReachableOk (P : Parser) : State → Prop where
  | empty : ReachableOk P State.empty
  | step {s : State} (op : Op) : ReachableOk P s → (op.run P s).1 = .ok →
      ReachableOk P (op.run P s).2

/-- The calls `SetCell(A1, "=B1")`, `ClearCell(A1)`. -/
def callsClearingFormula : List Op := [.setCell A1 "=B1".toList, .clearCell A1]

/-! # Theorems -/

/-! ## Sequencing and outcomes -/

@[simp] theorem andThen_ok (t : State) (k : State → Outcome × State) :
    andThen (.ok, t) k = k t := rfl

theorem andThen_of_ok {r : Outcome × State} (k : State → Outcome × State) (h : r.1 = .ok) :
    andThen r k = k r.2 := by
  unfold andThen; rw [h]

theorem andThen_of_ne {r : Outcome × State} (k : State → Outcome × State) (h : r.1 ≠ .ok) :
    andThen r k = r := by
  unfold andThen
  split
  · next h1 => exact absurd h1 h
  · rfl

theorem andThen_cases (r : Outcome × State) (k : State → Outcome × State) :
    (r.1 = .ok ∧ andThen r k = k r.2) ∨ (r.1 ≠ .ok ∧ andThen r k = r) := by
  by_cases h : r.1 = .ok
  · exact Or.inl ⟨h, andThen_of_ok k h⟩
  · exact Or.inr ⟨h, andThen_of_ne k h⟩

theorem andThen_throws {r : Outcome × State} {k : State → Outcome × State}
    (hr : r.1.throws = false) (hk : ∀ t, (k t).1.throws = false) :
    (andThen r k).1.throws = false := by
  rcases andThen_cases r k with ⟨_, h⟩ | ⟨_, h⟩ <;> rw [h]
  · exact hk _
  · exact hr

/-- Induction along a loop whose body runs only while everything returned normally. -/
theorem foldl_andThen_ind {α : Type} (g : α → State → Outcome × State)
    (Q : Outcome × State → Prop) (l : List α) (r0 : Outcome × State) (h0 : Q r0)
    (hg : ∀ d t, d ∈ l → Q (.ok, t) → Q (g d t)) :
    Q (l.foldl (fun r d => andThen r (g d)) r0) := by
  induction l generalizing r0 with
  | nil => exact h0
  | cons d l ih =>
    simp only [List.foldl_cons]
    apply ih
    · rcases andThen_cases r0 (g d) with ⟨h1, h2⟩ | ⟨_, h2⟩ <;> rw [h2]
      · apply hg d r0.2 (List.mem_cons_self _ _)
        have : r0 = (.ok, r0.2) := by rw [← h1]
        rw [← this]; exact h0
      · exact h0
    · intro d' t hd' hq
      exact hg d' t (List.mem_cons_of_mem _ hd') hq

theorem cacheInvalidateDepth_throws (n : Nat) (a : Addr) (s : State) :
    (Cell.CacheInvalidateDepth n a s).1.throws = false := by
  induction n generalizing a s with
  | zero => rfl
  | succ n ih =>
    unfold Cell.CacheInvalidateDepth
    split
    · rfl
    · split
      · rfl
      · apply foldl_andThen_ind (fun d t => Cell.CacheInvalidateDepth n d t)
          (fun r => r.1.throws = false)
        · rfl
        · intro d t _ _; exact ih d t

theorem cacheInvalidate_throws (a : Addr) (s : State) :
    (Cell.CacheInvalidate a s).1.throws = false :=
  cacheInvalidateDepth_throws _ a s

theorem updateCols_throws (pos : Position) (s : State) :
    (updateCols pos s).1.throws = false := by
  unfold updateCols
  split
  · split <;> rfl
  · rfl

theorem updatePrintableSize_throws (pos : Position) (mode : Char) (s : State) :
    (Sheet.UpdatePrintableSize pos mode s).1.throws = false := by
  unfold Sheet.UpdatePrintableSize
  split
  · rfl
  · split
    · split
      · split
        · rfl
        · rfl
        · exact updateCols_throws _ _
        · exact updateCols_throws _ _
      · exact updateCols_throws _ _
    · rfl

theorem addDependent_throws (c self : Addr) (s : State) :
    (addDependent c self s).1.throws = false := by
  unfold addDependent
  split <;> rfl

theorem getConcreteCell_throws_iff (pos : Position) (s : State) :
    Sheet.GetConcreteCell pos s = .throwsInvalidPosition ↔ pos.IsValid = false := by
  unfold Sheet.GetConcreteCell
  cases h : pos.IsValid
  · simp
  · simp only [if_true]
    split <;> simp

theorem referencedCellsSet_valid {s : State} {l : List Position} {refs : List (Option Addr)}
    (h : referencedCellsSet s l = some refs) : ∀ q ∈ l, q.IsValid = true := by
  induction l generalizing refs with
  | nil => intro q hq; cases hq
  | cons p ps ih =>
    intro q hq
    unfold referencedCellsSet at h
    split at h
    · cases h
    · next c hc =>
      split at h
      · cases h
      · next r hr =>
        rcases List.mem_cons.1 hq with rfl | hq
        · cases hv : q.IsValid
          · rw [(getConcreteCell_throws_iff q s).2 hv] at hc; cases hc
          · rfl
        · exact ih hr q hq

theorem dfsLoop_nil (s : State) (n : Nat) (stack visited : List Addr) :
    dfsLoop s [] n stack visited ≠ .circularDependency ∧
    (dfsLoop s [] n stack visited).throws = false := by
  induction n generalizing stack visited with
  | zero => exact ⟨by simp [dfsLoop], rfl⟩
  | succ n ih =>
    cases stack with
    | nil => exact ⟨by simp [dfsLoop], rfl⟩
    | cons curr rest =>
      unfold dfsLoop
      simp only [List.not_mem_nil, if_false]
      split
      · exact ⟨by simp, rfl⟩
      · exact ih _ _

theorem dfsLoop_throws (s : State) (refs : List (Option Addr)) (n : Nat)
    (stack visited : List Addr) :
    (dfsLoop s refs n stack visited).throws = true →
      dfsLoop s refs n stack visited = .circularDependency := by
  induction n generalizing stack visited with
  | zero => intro h; simp [dfsLoop, Outcome.throws] at h
  | succ n ih =>
    cases stack with
    | nil => intro h; simp [dfsLoop, Outcome.throws] at h
    | cons curr rest =>
      unfold dfsLoop
      split
      · intro _; rfl
      · split
        · intro h; simp [Outcome.throws] at h
        · exact ih _ _


/-! ## Where an edit can throw -/

theorem linkStep_throws {inner : Position → State → Outcome × State}
    (hinner : ∀ p t, p.IsValid = true → (inner p t).1.throws = false)
    (self : Addr) (pos : Position) (s : State) (hv : pos.IsValid = true) :
    (linkStep inner self pos s).1.throws = false := by
  unfold linkStep
  split
  · next h => rw [getConcreteCell_throws_iff] at h; rw [hv] at h; cases h
  · exact addDependent_throws _ _ _
  · apply andThen_throws (hinner _ _ hv)
    intro t
    split
    · next h => rw [getConcreteCell_throws_iff] at h; rw [hv] at h; cases h
    · exact addDependent_throws _ _ _
    · rfl

theorem linkReferenced_throws {inner : Position → State → Outcome × State}
    (hinner : ∀ p t, p.IsValid = true → (inner p t).1.throws = false)
    (self : Addr) (l : List Position) (s : State) (hv : ∀ q ∈ l, q.IsValid = true) :
    (linkReferenced inner self l s).1.throws = false := by
  induction l generalizing s with
  | nil => rfl
  | cons p ps ih =>
    unfold linkReferenced
    apply andThen_throws (linkStep_throws hinner self p s (hv p (List.mem_cons_self _ _)))
    intro t
    exact ih t (fun q hq => hv q (List.mem_cons_of_mem _ hq))

theorem checkCircular_ok_valid {self : Addr} {impl : Impl} {s : State}
    (h : Cell.CheckCircularDependendency self impl s = .ok) :
    ∀ q ∈ impl.GetReferencedCells, q.IsValid = true := by
  unfold Cell.CheckCircularDependendency at h
  split at h
  · cases h
  · next refs hr => exact referencedCellsSet_valid hr

/-- An exception leaves `Cell::Set` before anything has been written. -/
theorem cellSet_throws_state {P : Parser} {inner : Position → State → Outcome × State}
    (hinner : ∀ p t, p.IsValid = true → (inner p t).1.throws = false)
    (self : Addr) (text : Str) (s : State)
    (h : (cellSet P inner self text s).1.throws = true) :
    (cellSet P inner self text s).2 = s := by
  unfold cellSet at h ⊢
  cases hm : makeImpl P text with
  | none => rfl
  | some temp =>
    simp only [hm] at h ⊢
    cases hc : Cell.CheckCircularDependendency self temp s <;> simp only [hc] at h ⊢
    cases hd : s.deref self with
    | none => rfl
    | some obj =>
      exfalso
      simp only [hd] at h
      have := andThen_throws
        (linkReferenced_throws hinner self temp.GetReferencedCells
          (s.store self { obj with impl := some temp }) (checkCircular_ok_valid hc))
        (fun t => cacheInvalidate_throws self t)
      rw [this] at h; cases h

theorem makeImpl_nil (P : Parser) : makeImpl P [] = some .empty := rfl

theorem cellSet_nil_throws (P : Parser) (inner : Position → State → Outcome × State)
    (self : Addr) (s : State) : (cellSet P inner self [] s).1.throws = false := by
  unfold cellSet
  simp only [makeImpl_nil]
  have hc : Cell.CheckCircularDependendency self .empty s =
      dfsLoop s [] (edgeCount s + 2) [self] [] := rfl
  rw [hc]
  split
  · split
    · rfl
    · exact andThen_throws rfl (fun t => cacheInvalidate_throws self t)
  · next o _ => exact (dfsLoop_nil s _ _ _).2

theorem sheetSetCell_throws {set : Addr → Str → State → Outcome × State} {text : Str}
    (hset : ∀ a t, (set a text t).1.throws = false) (pos : Position) (s : State)
    (hv : pos.IsValid = true) : (sheetSetCell set pos text s).1.throws = false := by
  unfold sheetSetCell
  simp only [hv, if_true]
  split
  · rfl
  · exact andThen_throws (hset _ _) (fun t => updatePrintableSize_throws _ _ t)
  · exact andThen_throws (hset _ _) (fun t => updatePrintableSize_throws _ _ t)

theorem setCellDepth_nil_throws (P : Parser) (d : Nat) (pos : Position) (s : State)
    (hv : pos.IsValid = true) : (Sheet.SetCellDepth P d pos [] s).1.throws = false := by
  cases d with
  | zero => rfl
  | succ d =>
    unfold Sheet.SetCellDepth
    exact sheetSetCell_throws (fun a t => cellSet_nil_throws P _ a t) pos s hv

theorem cellSet_call_throws_state (P : Parser) (self : Addr) (text : Str) (s : State)
    (h : (Cell.Set P self text s).1.throws = true) : (Cell.Set P self text s).2 = s :=
  cellSet_throws_state (fun p t hv => setCellDepth_nil_throws P 1 p t hv) self text s h


/-! ## Exceptions of `Cell::Set` and invalid positions -/

/-- C3: if `Cell::Set` on a cell throws `CircularDependencyException`, the state it leaves
is the state before the call; hence the text, the referenced cells, the cache and the
reverse-dependency set of every cell, the edited one included, are what they were. -/
theorem C3_set_circular_leaves_state (P : Parser) (self : Addr) (text : Str) (s : State)
    (h : (Cell.Set P self text s).1 = .circularDependency) :
    (Cell.Set P self text s).2 = s ∧
    ∀ a, Cell.GetText a (Cell.Set P self text s).2 = Cell.GetText a s ∧
      Cell.GetReferencedCells a (Cell.Set P self text s).2 = Cell.GetReferencedCells a s ∧
      cacheOf (Cell.Set P self text s).2 a = cacheOf s a ∧
      dependents (Cell.Set P self text s).2 a = dependents s a := by
  have hs : (Cell.Set P self text s).2 = s :=
    cellSet_call_throws_state P self text s (by rw [h]; rfl)
  refine ⟨hs, fun a => ?_⟩
  rw [hs]
  exact ⟨rfl, rfl, rfl, rfl⟩

/-- C3, scenario of the claim: after `Set(A1, "=B1")` the cell at B1 has address 1; `Set`
with "=A1" on it throws `CircularDependencyException` and the text at B1 is still empty. -/
theorem C3_set_circular_leaves_state_witness :
    Sheet.GetCell B1 sheetA1refB1 = .handle (some 1) ∧
    (Cell.Set sampleParser 1 "=A1".toList sheetA1refB1).1 = .circularDependency ∧
    (Cell.Set sampleParser 1 "=A1".toList sheetA1refB1).2 = sheetA1refB1 ∧
    Sheet.readText B1 (Cell.Set sampleParser 1 "=A1".toList sheetA1refB1).2 = some [] :=
  ⟨by decide, by decide,
    (C3_set_circular_leaves_state sampleParser 1 "=A1".toList sheetA1refB1 (by decide)).1,
    by decide⟩

theorem cellClear_throws (a : Addr) (s : State) : (Cell.Clear a s).1.throws = false := by
  unfold Cell.Clear
  split <;> rfl

theorem clearCell_throws (pos : Position) (s : State) (hv : pos.IsValid = true) :
    (Sheet.ClearCell pos s).1.throws = false := by
  unfold Sheet.ClearCell
  simp only [hv, if_true]
  split
  · split
    · exact andThen_throws (cellClear_throws _ _) (fun t => updatePrintableSize_throws _ _ _)
    · exact updatePrintableSize_throws _ _ _
  · rfl

/-- C5: at a position that is not valid, `SetCell`, both overloads of `GetCell`,
`ClearCell` and `GetConcreteCell` throw `InvalidPositionException` and the state
(storage, cells, printable size) is what it was; at a valid position none of `GetCell`,
`ClearCell` and `GetConcreteCell` throws `InvalidPositionException`. -/
theorem C5_invalid_position_rejected (P : Parser) (s : State) (pos : Position) (text : Str) :
    if pos.IsValid = true then
      Sheet.GetCell pos s ≠ .throwsInvalidPosition ∧
      Sheet.GetCellConst pos s ≠ .throwsInvalidPosition ∧
      Sheet.GetConcreteCell pos s ≠ .throwsInvalidPosition ∧
      (Sheet.ClearCell pos s).1 ≠ .invalidPosition
    else
      Sheet.SetCell P pos text s = (.invalidPosition, s) ∧
      Sheet.GetCell pos s = .throwsInvalidPosition ∧
      Sheet.GetCellConst pos s = .throwsInvalidPosition ∧
      Sheet.GetConcreteCell pos s = .throwsInvalidPosition ∧
      Sheet.ClearCell pos s = (.invalidPosition, s) := by
  cases hv : pos.IsValid
  · simp only [Bool.false_eq_true, if_false]
    refine ⟨?_, ?_, ?_, ?_, ?_⟩
    · simp [Sheet.SetCell, Sheet.SetCellDepth, sheetSetCell, hv]
    · simp [Sheet.GetCell, hv]
    · simp [Sheet.GetCellConst, hv]
    · simp [Sheet.GetConcreteCell, hv]
    · simp [Sheet.ClearCell, hv]
  · simp only [if_true]
    refine ⟨?_, ?_, ?_, ?_⟩
    · unfold Sheet.GetCell; rw [hv]; simp only [if_true]; split <;> simp
    · unfold Sheet.GetCellConst; rw [hv]; simp only [if_true]; split <;> simp
    · unfold Sheet.GetConcreteCell; rw [hv]; simp only [if_true]; split <;> simp
    · intro h
      have := clearCell_throws pos s hv
      rw [h] at this; cases this


/-! ## Reachability -/

theorem reachableVia_mono {P : Parser} {f g : Op → Bool} (hfg : ∀ op, f op = true → g op = true)
    {s : State} (h : ReachableVia P f s) : ReachableVia P g s := by
  induction h with
  | empty => exact .empty
  | step op _ ha hr ih => exact .step op ih (hfg op ha) hr

theorem reachableNoClear_reachable {P : Parser} {s : State} (h : ReachableNoClear P s) :
    Reachable P s :=
  reachableVia_mono (fun _ _ => rfl) h

theorem reachable_runOps {P : Parser} (ops : List Op) {s : State} (h : Reachable P s)
    (hr : allReturn P ops s = true) : Reachable P (runOps P ops s) := by
  induction ops generalizing s with
  | nil => exact h
  | cons op rest ih =>
    simp only [allReturn, Bool.and_eq_true] at hr
    exact ih (.step op h rfl hr.1) hr.2

/-! ## Defects shown on concrete call sequences -/

/-- C1: the calls `SetCell(A1, "=B1")`, `ClearCell(B1)`, `SetCell(B1, "=A1")` all return
normally from the empty sheet, and in the state they reach A1 references B1 and B1
references A1: the forward-reference graph has a cycle. -/
theorem C1_cycle_after_clearCell :
    allOk sampleParser callsClosingCycle State.empty = true ∧
    Reachable sampleParser (runOps sampleParser callsClosingCycle State.empty) ∧
    references (runOps sampleParser callsClosingCycle State.empty) A1 B1 ∧
    references (runOps sampleParser callsClosingCycle State.empty) B1 A1 ∧
    ¬ forwardAcyclic (runOps sampleParser callsClosingCycle State.empty) := by
  have h1 : references (runOps sampleParser callsClosingCycle State.empty) A1 B1 :=
    ⟨0, [B1], by decide, by decide, by decide⟩
  have h2 : references (runOps sampleParser callsClosingCycle State.empty) B1 A1 :=
    ⟨2, [A1], by decide, by decide, by decide⟩
  refine ⟨by decide, reachable_runOps _ .empty (by decide), h1, h2, ?_⟩
  intro hac
  exact hac A1 (Relation.TransGen.tail (Relation.TransGen.single h1) h2)

/-- C2: first, after `SetCell(B1, "5")`, `SetCell(A1, "=B1")` and a read of A1, the call
`ClearCell(B1)` returns normally, yet the cell at A1, which references B1, still holds the
cached value and the next read returns it.  Second, after `SetCell(A1, "=B1")`,
`ClearCell(B1)` and a read of A1, the call `SetCell(B1, "5")` returns normally, yet the
cell at A1 still holds the value cached before that edit and the next read returns it. -/
theorem C2_stale_cache_after_clearCell :
    (allOk sampleParser callsClearUnderCache State.empty = true ∧
      Reachable sampleParser (runOps sampleParser callsClearUnderCache State.empty) ∧
      references (runOps sampleParser callsClearUnderCache State.empty) A1 B1 ∧
      Sheet.GetCell A1 (runOps sampleParser callsClearUnderCache State.empty)
        = .handle (some 1) ∧
      Sheet.GetCell B1 (runOps sampleParser callsClearUnderCache State.empty)
        = .handle none ∧
      cacheOf (runOps sampleParser callsClearUnderCache State.empty) 1
        = some (.number 5) ∧
      (Sheet.readValue A1 (runOps sampleParser callsClearUnderCache State.empty)).map Prod.fst
        = some (.number 5)) ∧
    (allOk sampleParser callsSetUnderCache State.empty = true ∧
      Reachable sampleParser (runOps sampleParser callsSetUnderCache State.empty) ∧
      references (runOps sampleParser callsSetUnderCache State.empty) A1 B1 ∧
      Sheet.GetCell A1 (runOps sampleParser callsSetUnderCache State.empty)
        = .handle (some 0) ∧
      Sheet.readText B1 (runOps sampleParser callsSetUnderCache State.empty)
        = some "5".toList ∧
      cacheOf (runOps sampleParser callsSetUnderCache State.empty) 0
        = some (.number 0) ∧
      (Sheet.readValue A1 (runOps sampleParser callsSetUnderCache State.empty)).map Prod.fst
        = some (.number 0)) := by
  refine ⟨⟨by decide, reachable_runOps _ .empty (by decide), ⟨1, [B1], by decide, by decide,
    by decide⟩, by decide, by decide, by decide, by decide⟩,
    ⟨by decide, reachable_runOps _ .empty (by decide), ⟨0, [B1], by decide, by decide,
    by decide⟩, by decide, by decide, by decide, by decide⟩⟩

/-- C10: `Cell::IsReferenced` never returns true; after `SetCell(A1, "=B1")` on the empty
sheet the cell at B1 has the cell at A1 in its reverse-dependency set and still reports
false. -/
theorem C10_isReferenced_always_false :
    (∀ (a : Addr) (s : State), Cell.IsReferenced a s ≠ some true) ∧
    (Sheet.SetCell sampleParser A1 "=B1".toList State.empty).1 = .ok ∧
    Sheet.GetCell A1 sheetA1refB1 = .handle (some 0) ∧
    Sheet.GetCell B1 sheetA1refB1 = .handle (some 1) ∧
    dependents sheetA1refB1 1 = [0] ∧
    Cell.IsReferenced 1 sheetA1refB1 = some false := by
  refine ⟨?_, by decide, by decide, by decide, by decide, by decide⟩
  intro a s
  unfold Cell.IsReferenced
  cases s.deref a with
  | none => simp
  | some c => rcases c with ⟨_ | i, d⟩ <;> simp [Impl.IsReferenced]


/-! ## Storage -/

theorem getElem?_resize {α : Type} (l : List α) (n : Nat) (d : α) (i : Nat) :
    (resize l n d)[i]? = if i < n then some (l[i]?.getD d) else none := by
  unfold resize
  by_cases hi : i < n
  · simp only [hi, if_true]
    by_cases hl : i < l.length
    · rw [List.getElem?_append_left (by simp; omega)]
      rw [List.getElem?_take_of_lt hi]
      simp [List.getElem?_eq_getElem hl]
    · rw [List.getElem?_append_right (by simp; omega)]
      have h1 : l[i]? = none := List.getElem?_eq_none (by omega)
      rw [h1]
      simp only [Option.getD_none]
      rw [List.getElem?_replicate]
      simp
      omega
  · simp only [hi, if_false]
    apply List.getElem?_eq_none
    simp
    omega

theorem length_resize {α : Type} (l : List α) (n : Nat) (d : α) : (resize l n d).length = n := by
  unfold resize
  simp
  omega

theorem resize_of_length {α : Type} (l : List α) (d : α) : resize l l.length d = l := by
  unfold resize
  simp

theorem slot_eq (cells : List (List (Option Addr))) (i j : Nat) :
    slot cells i j = (cells[i]?).bind (fun r => r[j]?) := by
  unfold slot
  cases h : cells[i]? <;> simp [h]


theorem ptrAt_eq (cells : List (List (Option Addr))) (i j : Nat) :
    ptrAt cells i j = ((cells[i]?).bind (fun r => r[j]?)).join := by
  unfold ptrAt
  rw [slot_eq]

theorem join_getElem?_resize (r : List (Option Addr)) (m j : Nat) (h : r.length ≤ m) :
    ((resize r m none)[j]?).join = (r[j]?).join := by
  rw [getElem?_resize]
  by_cases hj : j < m
  · simp only [hj, if_true]
    cases r[j]? <;> rfl
  · simp only [hj, if_false]
    have : r[j]? = none := List.getElem?_eq_none (by omega)
    rw [this]

theorem ptrAt_map_resize (cells : List (List (Option Addr))) (m : Nat)
    (h : ∀ r ∈ cells, r.length ≤ m) (i j : Nat) :
    ptrAt (cells.map (fun r => resize r m none)) i j = ptrAt cells i j := by
  rw [ptrAt_eq, ptrAt_eq, List.getElem?_map]
  cases hi : cells[i]? with
  | none => rfl
  | some r =>
    simp only [Option.map_some', Option.some_bind]
    exact join_getElem?_resize r m j (h r (List.getElem?_mem hi))

theorem ptrAt_resize_rows (cells : List (List (Option Addr))) (n : Nat)
    (h : cells.length ≤ n) (i j : Nat) :
    ptrAt (resize cells n []) i j = ptrAt cells i j := by
  rw [ptrAt_eq, ptrAt_eq, getElem?_resize]
  by_cases hi : i < n
  · simp only [hi, if_true]
    cases cells[i]? <;> simp
  · simp only [hi, if_false]
    have : cells[i]? = none := List.getElem?_eq_none (by omega)
    rw [this]

theorem width_eq (cells : List (List (Option Addr))) :
    width cells = (cells[0]?.getD []).length := by
  unfold width
  cases cells <;> simp

theorem rect_getElem? {cells : List (List (Option Addr))} (h : Rect cells) {i : Nat}
    {r : List (Option Addr)} (hi : cells[i]? = some r) : r.length = width cells :=
  h r (List.getElem?_mem hi)

theorem mem_resize_rows {cells : List (List (Option Addr))} {n : Nat}
    {r : List (Option Addr)} (h : r ∈ resize cells n []) : r ∈ cells ∨ r = [] := by
  unfold resize at h
  rcases List.mem_append.1 h with h | h
  · exact Or.inl (List.mem_of_mem_take h)
  · exact Or.inr (List.eq_of_mem_replicate h)

theorem width_resize_rows (cells : List (List (Option Addr))) (n : Nat) (hn : 0 < n) :
    width (resize cells n []) = width cells := by
  rw [width_eq, width_eq, getElem?_resize]
  simp only [hn, if_true]
  cases cells[0]? <;> rfl

/-- The number of rows the first growth step asks for. -/
theorem growRows_eq (cells : List (List (Option Addr))) (row : Nat) :
    growRows cells row =
      if row ≥ cells.length then
        (resize cells (if row = 0 then 2 else row * 2) []).map
          (fun r => resize r (width (resize cells (if row = 0 then 2 else row * 2) [])) none)
      else cells := rfl

theorem ptrAt_growRows {cells : List (List (Option Addr))} (h : Rect cells) (row i j : Nat) :
    ptrAt (growRows cells row) i j = ptrAt cells i j := by
  rw [growRows_eq]
  split
  · next hr =>
    have hn : 0 < (if row = 0 then 2 else row * 2) := by split <;> omega
    rw [ptrAt_map_resize, ptrAt_resize_rows]
    · split <;> omega
    · intro r hr'
      rw [width_resize_rows _ _ hn]
      rcases mem_resize_rows hr' with h1 | h1
      · rw [h r h1]
      · rw [h1]; simp
  · rfl

theorem length_growRows (cells : List (List (Option Addr))) (row : Nat) :
    row < (growRows cells row).length := by
  rw [growRows_eq]
  split
  · rw [List.length_map, length_resize]; split <;> omega
  · omega

theorem rect_map_resize (cells : List (List (Option Addr))) (m : Nat) :
    Rect (cells.map (fun r => resize r m none)) := by
  intro r hr
  rw [width_eq, List.getElem?_map]
  rcases List.mem_map.1 hr with ⟨r0, hr0, rfl⟩
  rw [length_resize]
  cases cells with
  | nil => cases hr0
  | cons x xs => simp [length_resize]

theorem width_map_resize (cells : List (List (Option Addr))) (m : Nat) (h : cells ≠ []) :
    width (cells.map (fun r => resize r m none)) = m := by
  rw [width_eq, List.getElem?_map]
  cases cells with
  | nil => exact absurd rfl h
  | cons x xs => simp [length_resize]

theorem rect_growRows {cells : List (List (Option Addr))} (h : Rect cells) (row : Nat) :
    Rect (growRows cells row) := by
  rw [growRows_eq]
  split
  · exact rect_map_resize _ _
  · exact h

theorem growCols_eq (cells : List (List (Option Addr))) (col : Nat) :
    growCols cells col =
      if col ≥ width cells then cells.map (fun r => resize r (if col = 0 then 2 else col * 2) none)
      else cells := rfl

theorem ptrAt_growCols {cells : List (List (Option Addr))} (h : Rect cells) (col i j : Nat) :
    ptrAt (growCols cells col) i j = ptrAt cells i j := by
  rw [growCols_eq]
  split
  · next hc =>
    apply ptrAt_map_resize
    intro r hr
    rw [h r hr]
    split <;> omega
  · rfl

theorem rect_growCols {cells : List (List (Option Addr))} (h : Rect cells) (col : Nat) :
    Rect (growCols cells col) := by
  rw [growCols_eq]
  split
  · exact rect_map_resize _ _
  · exact h

theorem length_growCols (cells : List (List (Option Addr))) (col : Nat) :
    (growCols cells col).length = cells.length := by
  rw [growCols_eq]
  split
  · simp
  · rfl

theorem width_growCols (cells : List (List (Option Addr))) (col : Nat) (h : cells ≠ []) :
    col < width (growCols cells col) := by
  rw [growCols_eq]
  split
  · rw [width_map_resize _ _ h]; split <;> omega
  · omega

/-- After the two growth steps the slot of the position exists. -/
theorem slot_grow_isSome {cells : List (List (Option Addr))} (h : Rect cells) (row col : Nat) :
    ∃ v, slot (growCols (growRows cells row) col) row col = some v := by
  have hlen : row < (growCols (growRows cells row) col).length := by
    rw [length_growCols]; exact length_growRows cells row
  have hne : growRows cells row ≠ [] := by
    intro h0
    have := length_growRows cells row
    rw [h0] at this
    simp at this
  have hw := width_growCols (growRows cells row) col hne
  have hrect := rect_growCols (rect_growRows h row) col
  rw [slot_eq]
  have hr : (growCols (growRows cells row) col)[row]? =
      some ((growCols (growRows cells row) col)[row]) := List.getElem?_eq_getElem hlen
  rw [hr]
  simp only [Option.some_bind]
  have hl := rect_getElem? hrect hr
  have hc : col < ((growCols (growRows cells row) col)[row]).length := by omega
  exact ⟨_, List.getElem?_eq_getElem hc⟩

theorem ptrAt_grow {cells : List (List (Option Addr))} (h : Rect cells) (row col i j : Nat) :
    ptrAt (growCols (growRows cells row) col) i j = ptrAt cells i j := by
  rw [ptrAt_growCols (rect_growRows h row), ptrAt_growRows h]

theorem rect_grow {cells : List (List (Option Addr))} (h : Rect cells) (row col : Nat) :
    Rect (growCols (growRows cells row) col) :=
  rect_growCols (rect_growRows h row) col


theorem slot_setSlot (cells : List (List (Option Addr))) (i j : Nat) (v : Option Addr)
    (i' j' : Nat) :
    slot (setSlot cells i j v) i' j' =
      if i = i' ∧ j = j' then (slot cells i j).map (fun _ => v) else slot cells i' j' := by
  rw [slot_eq, slot_eq, slot_eq]
  unfold setSlot
  rw [List.getElem?_modify]
  by_cases hi : i = i'
  · subst hi
    cases hc : cells[i]? with
    | none => simp
    | some r =>
      simp only [if_true, Option.map_eq_map, Option.map_some', Option.some_bind, true_and]
      rw [List.getElem?_set']
      by_cases hj : j = j'
      · subst hj; simp only [if_true]; rfl
      · simp [hj]
  · cases hc : cells[i']? with
    | none => simp [hi]
    | some r => simp [hi]

theorem ptrAt_setSlot_self {cells : List (List (Option Addr))} {i j : Nat}
    {x : Option Addr} (h : slot cells i j = some x) (v : Option Addr) :
    ptrAt (setSlot cells i j v) i j = v := by
  unfold ptrAt
  rw [slot_setSlot, h]
  simp

theorem ptrAt_setSlot_ne (cells : List (List (Option Addr))) (i j : Nat) (v : Option Addr)
    {i' j' : Nat} (h : ¬ (i = i' ∧ j = j')) :
    ptrAt (setSlot cells i j v) i' j' = ptrAt cells i' j' := by
  unfold ptrAt
  rw [slot_setSlot, if_neg h]

theorem ptrAt_setSlot_none (cells : List (List (Option Addr))) (i j i' j' : Nat) :
    ptrAt (setSlot cells i j none) i' j' =
      if i = i' ∧ j = j' then none else ptrAt cells i' j' := by
  unfold ptrAt
  rw [slot_setSlot]
  split
  · cases slot cells i j <;> rfl
  · rfl

theorem getElem?_length_setSlot (cells : List (List (Option Addr))) (i j : Nat)
    (v : Option Addr) (k : Nat) :
    ((setSlot cells i j v)[k]?).map List.length = (cells[k]?).map List.length := by
  unfold setSlot
  rw [List.getElem?_modify]
  cases cells[k]? with
  | none => rfl
  | some r => by_cases h : i = k <;> simp [h]

theorem rect_of_lengths {cells cells' : List (List (Option Addr))}
    (h : ∀ k : Nat, (cells'[k]?).map List.length = (cells[k]?).map List.length) (hr : Rect cells) :
    Rect cells' := by
  have hw : width cells' = width cells := by
    rw [width_eq, width_eq]
    have h0 := h 0
    cases h1 : cells'[0]? <;> cases h2 : cells[0]? <;> simp [h1, h2] at h0 ⊢
    exact h0
  intro r hr'
  rcases List.mem_iff_getElem?.1 hr' with ⟨k, hk⟩
  have hk' := h k
  rw [hk] at hk'
  cases h2 : cells[k]? with
  | none => rw [h2] at hk'; cases hk'
  | some r0 =>
    rw [h2] at hk'
    simp only [Option.map_some', Option.some.injEq] at hk'
    rw [hw, hk', rect_getElem? hr h2]

theorem rect_setSlot {cells : List (List (Option Addr))} (h : Rect cells) (i j : Nat)
    (v : Option Addr) : Rect (setSlot cells i j v) :=
  rect_of_lengths (getElem?_length_setSlot cells i j v) h

theorem length_le_growRows (cells : List (List (Option Addr))) (row : Nat) :
    cells.length ≤ (growRows cells row).length := by
  rw [growRows_eq]
  split
  · rw [List.length_map, length_resize]; split <;> omega
  · exact Nat.le_refl _

theorem width_growRows (cells : List (List (Option Addr))) (row : Nat) :
    width (growRows cells row) = width cells := by
  rw [growRows_eq]
  split
  · have hn : 0 < (if row = 0 then 2 else row * 2) := by split <;> omega
    rw [width_map_resize, width_resize_rows _ _ hn]
    intro h0
    have h1 := length_resize cells (if row = 0 then 2 else row * 2) []
    rw [h0] at h1
    simp only [List.length_nil] at h1
    omega
  · rfl

theorem width_le_growCols (cells : List (List (Option Addr))) (col : Nat) :
    width cells ≤ width (growCols cells col) := by
  rw [growCols_eq]
  split
  · next hc =>
    cases cells with
    | nil => simp [width]
    | cons x xs =>
      rw [width_map_resize _ _ (by simp)]
      split <;> omega
  · exact Nat.le_refl _

theorem length_setSlot (cells : List (List (Option Addr))) (i j : Nat) (v : Option Addr) :
    (setSlot cells i j v).length = cells.length := by
  unfold setSlot
  simp

theorem width_setSlot (cells : List (List (Option Addr))) (i j : Nat) (v : Option Addr) :
    width (setSlot cells i j v) = width cells := by
  rw [width_eq, width_eq]
  have h0 := getElem?_length_setSlot cells i j v 0
  cases h1 : (setSlot cells i j v)[0]? <;> cases h2 : cells[0]? <;> simp [h1, h2] at h0 ⊢
  exact h0

theorem slot_lt {cells : List (List (Option Addr))} (h : Rect cells) {i j : Nat}
    {v : Option Addr} (hs : slot cells i j = some v) : i < cells.length ∧ j < width cells := by
  rw [slot_eq] at hs
  cases hc : cells[i]? with
  | none => rw [hc] at hs; cases hs
  | some r =>
    rw [hc] at hs
    simp only [Option.some_bind] at hs
    have hi : i < cells.length := by
      by_contra hlt
      rw [List.getElem?_eq_none (by omega)] at hc
      cases hc
    have hj : j < r.length := by
      by_contra hlt
      rw [List.getElem?_eq_none (by omega)] at hs
      cases hs
    rw [rect_getElem? h hc] at hj
    exact ⟨hi, hj⟩

theorem slot_of_lt {cells : List (List (Option Addr))} (h : Rect cells) {i j : Nat}
    (hi : i < cells.length) (hj : j < width cells) : ∃ v, slot cells i j = some v := by
  rw [slot_eq]
  have hr : cells[i]? = some (cells[i]) := List.getElem?_eq_getElem hi
  rw [hr]
  simp only [Option.some_bind]
  have hl := rect_getElem? h hr
  have hc : j < (cells[i]).length := by omega
  exact ⟨_, List.getElem?_eq_getElem hc⟩

theorem ptrAt_lt {cells : List (List (Option Addr))} (h : Rect cells) {i j : Nat} {a : Addr}
    (hp : ptrAt cells i j = some a) : i < cells.length ∧ j < width cells := by
  unfold ptrAt at hp
  cases hs : slot cells i j with
  | none => rw [hs] at hp; cases hp
  | some v => exact slot_lt h hs

/-! ## Heap -/

theorem deref_eq (s : State) (a : Addr) : s.deref a = (s.heap[a]?).join := by
  unfold State.deref
  simp

theorem deref_lt {s : State} {a : Nat} {c : Cell} (h : s.deref a = some c) :
    a < s.heap.length := by
  rw [deref_eq] at h
  by_contra hlt
  rw [List.getElem?_eq_none (by omega)] at h
  cases h

theorem deref_store_ne (s : State) {a b : Addr} (c : Cell) (h : a ≠ b) :
    (s.store a c).deref b = s.deref b := by
  rw [deref_eq, deref_eq]
  unfold State.store
  simp only
  rw [List.getElem?_set_ne h]

theorem deref_store_self {s : State} {a : Nat} {c0 : Cell} (h : s.deref a = some c0)
    (c : Cell) : (s.store a c).deref a = some c := by
  rw [deref_eq]
  unfold State.store
  simp only
  rw [List.getElem?_set, if_pos rfl, if_pos (deref_lt h)]
  rfl

theorem deref_materialize (i j : Nat) (s : State) (b : Nat) :
    (materialize i j s).deref b =
      if b = s.heap.length then some ⟨some .empty, []⟩ else s.deref b := by
  rw [deref_eq, deref_eq]
  unfold materialize
  simp only
  rw [List.getElem?_append]
  by_cases h1 : b < s.heap.length
  · rw [if_pos h1, if_neg (by omega)]
  · rw [if_neg h1]
    by_cases h2 : b = s.heap.length
    · subst h2; simp
    · rw [if_neg h2, List.getElem?_eq_none (by simp; omega),
        List.getElem?_eq_none (by omega)]

theorem deref_destroy (i j : Nat) (a : Addr) (s : State) (b : Addr) :
    (destroy i j a s).deref b = if a = b then none else s.deref b := by
  rw [deref_eq, deref_eq]
  unfold destroy
  simp only
  rw [List.getElem?_set]
  by_cases h : a = b
  · subst h
    simp only [if_true]
    split <;> rfl
  · simp [h]


/-! ## Extension of states -/

theorem cacheInvalidate_eq_empty {o : Option Impl}
    (h : o.map Impl.CacheInvalidate = some .empty) : o = some .empty := by
  cases o with
  | none => cases h
  | some i => cases i <;> simp [Impl.CacheInvalidate] at h ⊢

theorem cacheInvalidate_idem (i : Impl) : i.CacheInvalidate.CacheInvalidate = i.CacheInvalidate := by
  cases i <;> rfl

theorem getText_cacheInvalidate (i : Impl) : i.CacheInvalidate.GetText = i.GetText := by
  cases i <;> rfl

theorem getReferencedCells_cacheInvalidate (i : Impl) :
    i.CacheInvalidate.GetReferencedCells = i.GetReferencedCells := by
  cases i <;> rfl

theorem getText_of_erased {o o' : Option Impl}
    (h : o'.map Impl.CacheInvalidate = o.map Impl.CacheInvalidate) :
    o'.map Impl.GetText = o.map Impl.GetText := by
  have := congrArg (Option.map Impl.GetText) h
  simpa [Option.map_map, Function.comp_def, getText_cacheInvalidate] using this

theorem getReferencedCells_of_erased {o o' : Option Impl}
    (h : o'.map Impl.CacheInvalidate = o.map Impl.CacheInvalidate) :
    o'.map Impl.GetReferencedCells = o.map Impl.GetReferencedCells := by
  have := congrArg (Option.map Impl.GetReferencedCells) h
  simpa [Option.map_map, Function.comp_def, getReferencedCells_cacheInvalidate] using this

theorem ext_refl (s : State) : Ext s s :=
  ⟨fun _ _ _ h => h, fun _ c h => ⟨c, h, rfl, fun _ hx => hx⟩, fun _ _ _ h => Or.inl h⟩

theorem ext_trans {s s' s'' : State} (h1 : Ext s s') (h2 : Ext s' s'') : Ext s s'' := by
  refine ⟨fun i j a h => h2.keep i j a (h1.keep i j a h), ?_, ?_⟩
  · intro a c hc
    obtain ⟨c', hc', hi', hd'⟩ := h1.cell a c hc
    obtain ⟨c'', hc'', hi'', hd''⟩ := h2.cell a c' hc'
    exact ⟨c'', hc'', hi''.trans hi', fun x hx => hd'' (hd' hx)⟩
  · intro i j a ha
    rcases h2.fresh i j a ha with h | ⟨hn, c'', hc'', he⟩
    · rcases h1.fresh i j a h with h' | ⟨hn, c', hc', he⟩
      · exact Or.inl h'
      · obtain ⟨c'', hc'', hi'', _⟩ := h2.cell a c' hc'
        refine Or.inr ⟨hn, c'', hc'', cacheInvalidate_eq_empty ?_⟩
        rw [hi'', he]; rfl
    · refine Or.inr ⟨?_, c'', hc'', he⟩
      cases hs : s.deref a with
      | none => rfl
      | some c =>
        obtain ⟨c', hc', _, _⟩ := h1.cell a c hs
        rw [hc'] at hn; cases hn

theorem cacheOnly_refl (s : State) : CacheOnly s s := ⟨rfl, rfl, rfl, fun _ => rfl⟩

theorem cacheOnly_trans {s s' s'' : State} (h1 : CacheOnly s s') (h2 : CacheOnly s' s'') :
    CacheOnly s s'' :=
  ⟨h2.cells.trans h1.cells, h2.printable.trans h1.printable, h2.length.trans h1.length,
    fun a => (h2.cell a).trans (h1.cell a)⟩

theorem cacheOnly_deref {s s' : State} (h : CacheOnly s s') {a : Addr} {c : Cell}
    (hc : s.deref a = some c) : ∃ c', s'.deref a = some c' ∧
      c'.impl.map Impl.CacheInvalidate = c.impl.map Impl.CacheInvalidate ∧ c'.deps = c.deps := by
  have := h.cell a
  rw [hc] at this
  cases hs : s'.deref a with
  | none => rw [hs] at this; cases this
  | some c' =>
    rw [hs] at this
    simp only [Option.map_some', Option.some.injEq, Prod.mk.injEq] at this
    exact ⟨c', rfl, this.1, this.2⟩

theorem cacheOnly_symm {s s' : State} (h : CacheOnly s s') : CacheOnly s' s :=
  ⟨h.cells.symm, h.printable.symm, h.length.symm, fun a => (h.cell a).symm⟩

theorem cacheOnly_ext {s s' : State} (h : CacheOnly s s') : Ext s s' := by
  refine ⟨fun i j a ha => by rw [h.cells]; exact ha, ?_, fun i j a ha => Or.inl (by
    rw [← h.cells]; exact ha)⟩
  intro a c hc
  obtain ⟨c', hc', hi, hd⟩ := cacheOnly_deref h hc
  exact ⟨c', hc', hi, by rw [hd]; exact fun _ hx => hx⟩

theorem cacheOnly_wf {s s' : State} (h : CacheOnly s s') (hwf : WF s) : WF s' := by
  refine ⟨by rw [h.cells]; exact hwf.rect, ?_, ?_, ?_⟩
  · intro i j a ha
    rw [h.cells] at ha
    obtain ⟨c, hc, hne⟩ := hwf.live i j a ha
    obtain ⟨c', hc', hi, _⟩ := cacheOnly_deref h hc
    refine ⟨c', hc', ?_⟩
    intro h0
    rw [h0] at hi
    cases hci : c.impl with
    | none => exact hne hci
    | some x => rw [hci] at hi; cases hi
  · intro i j i' j' a h1 h2
    rw [h.cells] at h1 h2
    exact hwf.inj i j i' j' a h1 h2
  · intro a c' hc'
    rw [h.cells]
    obtain ⟨c, hc, _⟩ := cacheOnly_deref (cacheOnly_symm h) hc'
    exact hwf.owned a c hc

theorem dependents_eq {s : State} {a : Addr} {c : Cell} (h : s.deref a = some c) :
    dependents s a = c.deps := by
  unfold dependents; rw [h]

theorem cacheOnly_dependents {s s' : State} (h : CacheOnly s s') (a : Addr) :
    dependents s' a = dependents s a := by
  cases hc : s.deref a with
  | none =>
    have := h.cell a
    rw [hc] at this
    cases hs : s'.deref a with
    | none => unfold Spreadsheet.dependents; rw [hc, hs]
    | some c' => rw [hs] at this; cases this
  | some c =>
    obtain ⟨c', hc', _, hd⟩ := cacheOnly_deref h hc
    rw [dependents_eq hc, dependents_eq hc', hd]

theorem ext_dependents {s s' : State} (h : Ext s s') (a : Addr) :
    dependents s a ⊆ dependents s' a := by
  cases hc : s.deref a with
  | none => unfold Spreadsheet.dependents; rw [hc]; exact fun _ hx => by cases hx
  | some c =>
    obtain ⟨c', hc', _, hd⟩ := h.cell a c hc
    rw [dependents_eq hc, dependents_eq hc']; exact hd


/-! ## Elementary state changes -/

theorem store_cells (s : State) (a : Addr) (c : Cell) : (s.store a c).cells = s.cells := rfl

theorem store_printable (s : State) (a : Addr) (c : Cell) :
    (s.store a c).printable = s.printable := rfl

theorem store_length (s : State) (a : Addr) (c : Cell) :
    (s.store a c).heap.length = s.heap.length := by
  unfold State.store; simp

theorem deref_store (s : State) {a : Nat} {c0 : Cell} (h : s.deref a = some c0) (c : Cell)
    (b : Nat) : (s.store a c).deref b = if a = b then some c else s.deref b := by
  by_cases hab : a = b
  · subst hab; rw [if_pos rfl]; exact deref_store_self h c
  · rw [if_neg hab]; exact deref_store_ne s c hab

/-- Overwriting a cell without touching its content (up to the cache) or its dependents. -/
theorem cacheOnly_store {s : State} {a : Nat} {c0 c : Cell} (h : s.deref a = some c0)
    (hi : c.impl.map Impl.CacheInvalidate = c0.impl.map Impl.CacheInvalidate)
    (hd : c.deps = c0.deps) : CacheOnly s (s.store a c) := by
  refine ⟨rfl, rfl, store_length s a c, fun b => ?_⟩
  rw [deref_store s h]
  split
  · next hab => subst hab; rw [h]; simp [hi, hd]
  · rfl

theorem ext_store {s : State} {a : Nat} {c0 c : Cell} (h : s.deref a = some c0)
    (hi : c.impl.map Impl.CacheInvalidate = c0.impl.map Impl.CacheInvalidate)
    (hd : c0.deps ⊆ c.deps) : Ext s (s.store a c) := by
  refine ⟨fun _ _ _ hp => hp, ?_, fun _ _ _ hp => Or.inl hp⟩
  intro b cb hb
  rw [deref_store s h]
  split
  · next hab =>
    subst hab
    rw [h] at hb
    cases hb
    exact ⟨c, rfl, hi, hd⟩
  · exact ⟨cb, hb, rfl, fun _ hx => hx⟩

theorem wf_store {s : State} {a : Nat} {c0 c : Cell} (hwf : WF s) (h : s.deref a = some c0)
    (hi : c.impl ≠ none) : WF (s.store a c) := by
  refine ⟨hwf.rect, ?_, hwf.inj, ?_⟩
  · intro i j b hb
    obtain ⟨cb, hcb, hne⟩ := hwf.live i j b hb
    rw [deref_store s h]
    split
    · exact ⟨c, rfl, hi⟩
    · exact ⟨cb, hcb, hne⟩
  · intro b cb hb
    rw [deref_store s h] at hb
    split at hb
    · next hab => subst hab; exact hwf.owned a c0 h
    · exact hwf.owned b cb hb

theorem wf_printable {s : State} (hwf : WF s) (p : Size) : WF { s with printable := p } :=
  ⟨hwf.rect, hwf.live, hwf.inj, hwf.owned⟩

theorem cacheOnly_printable_ext (s : State) (p : Size) : Ext s { s with printable := p } :=
  ⟨fun _ _ _ h => h, fun _ c h => ⟨c, h, rfl, fun _ hx => hx⟩, fun _ _ _ h => Or.inl h⟩

/-- What `UpdatePrintableSize` can change: the printable size only. -/
theorem updateCols_frame (pos : Position) (s : State) :
    (updateCols pos s).2.cells = s.cells ∧ (updateCols pos s).2.heap = s.heap := by
  unfold updateCols
  split
  · split <;> exact ⟨rfl, rfl⟩
  · exact ⟨rfl, rfl⟩

theorem updatePrintableSize_frame (pos : Position) (mode : Char) (s : State) :
    (Sheet.UpdatePrintableSize pos mode s).2.cells = s.cells ∧
    (Sheet.UpdatePrintableSize pos mode s).2.heap = s.heap := by
  unfold Sheet.UpdatePrintableSize
  split
  · exact ⟨rfl, rfl⟩
  · split
    · split
      · split
        · exact ⟨rfl, rfl⟩
        · exact ⟨rfl, rfl⟩
        · exact updateCols_frame _ _
        · exact updateCols_frame _ _
      · exact updateCols_frame _ _
    · exact ⟨rfl, rfl⟩

theorem wf_of_frame {s s' : State} (hc : s'.cells = s.cells) (hh : s'.heap = s.heap)
    (hwf : WF s) : WF s' := by
  have hd : ∀ a, s'.deref a = s.deref a := fun a => by unfold State.deref; rw [hh]
  refine ⟨by rw [hc]; exact hwf.rect, ?_, ?_, ?_⟩
  · intro i j a ha
    rw [hc] at ha
    rw [hd]
    exact hwf.live i j a ha
  · intro i j i' j' a h1 h2
    rw [hc] at h1 h2
    exact hwf.inj i j i' j' a h1 h2
  · intro a c hac
    rw [hd] at hac
    rw [hc]
    exact hwf.owned a c hac

theorem ext_of_frame {s s' : State} (hc : s'.cells = s.cells) (hh : s'.heap = s.heap) :
    Ext s s' := by
  have hd : ∀ a, s'.deref a = s.deref a := fun a => by unfold State.deref; rw [hh]
  refine ⟨fun _ _ _ h => by rw [hc]; exact h, fun a c h => ⟨c, by rw [hd]; exact h, rfl,
    fun _ hx => hx⟩, fun _ _ _ h => Or.inl (by rw [← hc]; exact h)⟩

theorem updatePrintableSize_wf (pos : Position) (mode : Char) {s : State} (hwf : WF s) :
    WF (Sheet.UpdatePrintableSize pos mode s).2 :=
  wf_of_frame (updatePrintableSize_frame pos mode s).1 (updatePrintableSize_frame pos mode s).2 hwf

theorem updatePrintableSize_ext (pos : Position) (mode : Char) (s : State) :
    Ext s (Sheet.UpdatePrintableSize pos mode s).2 :=
  ext_of_frame (updatePrintableSize_frame pos mode s).1 (updatePrintableSize_frame pos mode s).2

/-- Invalidation touches cache slots only. -/
theorem cacheInvalidateDepth_cacheOnly (n : Nat) (a : Addr) (s : State) :
    CacheOnly s (Cell.CacheInvalidateDepth n a s).2 := by
  induction n generalizing a s with
  | zero => exact cacheOnly_refl s
  | succ n ih =>
    unfold Cell.CacheInvalidateDepth
    cases hc : s.deref a with
    | none => exact cacheOnly_refl s
    | some c =>
      simp only
      cases hi : c.impl with
      | none => exact cacheOnly_refl s
      | some i =>
        simp only
        apply foldl_andThen_ind (fun d t => Cell.CacheInvalidateDepth n d t)
          (fun r => CacheOnly s r.2)
        · apply cacheOnly_store hc
          · simp [hi, cacheInvalidate_idem]
          · rfl
        · intro d t _ ht
          exact cacheOnly_trans ht (ih d t)

theorem cacheInvalidate_cacheOnly (a : Addr) (s : State) :
    CacheOnly s (Cell.CacheInvalidate a s).2 :=
  cacheInvalidateDepth_cacheOnly _ a s

theorem addDependent_ext (c self : Addr) (s : State) : Ext s (addDependent c self s).2 := by
  unfold addDependent
  cases hc : s.deref c with
  | none => exact ext_refl s
  | some obj =>
    exact ext_store hc rfl (fun x hx => List.mem_insert_of_mem hx)

theorem addDependent_wf (c self : Addr) {s : State} (hwf : WF s)
    (hlive : ∃ i j, ptrAt s.cells i j = some c) : WF (addDependent c self s).2 := by
  unfold addDependent
  cases hc : s.deref c with
  | none => exact hwf
  | some obj =>
    obtain ⟨i, j, hp⟩ := hlive
    obtain ⟨c', hc', hne⟩ := hwf.live i j c hp
    rw [hc] at hc'
    cases hc'
    exact wf_store hwf hc hne

theorem addDependent_mem (c self : Addr) {s : State}
    (h : (addDependent c self s).1 = .ok) : self ∈ dependents (addDependent c self s).2 c := by
  unfold addDependent at h ⊢
  cases hc : s.deref c with
  | none => rw [hc] at h; cases h
  | some obj =>
    simp only
    rw [dependents_eq (deref_store_self hc _)]
    exact List.mem_insert_self _ _


/-! ## Lookups and materialization -/

theorem isValid_iff (p : Position) :
    p.IsValid = true ↔ 0 ≤ p.row ∧ 0 ≤ p.col ∧ p.row < MAX_ROWS ∧ p.col < MAX_COLS := by
  unfold Position.IsValid
  simp [and_assoc]

theorem position_eq_of_toNat {p q : Position} (hp : p.IsValid = true) (hq : q.IsValid = true)
    (hr : p.row.toNat = q.row.toNat) (hc : p.col.toNat = q.col.toNat) : p = q := by
  rw [isValid_iff] at hp hq
  cases p with
  | mk pr pc =>
    cases q with
    | mk qr qc =>
      simp only at hp hq hr hc
      have h1 : pr = qr := by omega
      have h2 : pc = qc := by omega
      rw [h1, h2]

theorem ptrAt_none_of_not_inRange (cells : List (List (Option Addr))) (i j : Nat)
    (h : ¬ (i < cells.length ∧ j < ((cells.get? i).getD []).length)) : ptrAt cells i j = none := by
  rw [ptrAt_eq]
  simp only [List.get?_eq_getElem?] at h
  by_cases hi : i < cells.length
  · have hr : cells[i]? = some cells[i] := List.getElem?_eq_getElem hi
    rw [hr] at h ⊢
    simp only [Option.getD_some, hi, true_and, not_lt] at h
    simp only [Option.some_bind]
    rw [List.getElem?_eq_none h]
    rfl
  · rw [List.getElem?_eq_none (by omega)]
    rfl

theorem inRange_iff (pos : Position) (hv : pos.IsValid = true) (cells : List (List (Option Addr))) :
    (pos.row < (cells.length : Int) ∧
      pos.col < (((cells.get? pos.row.toNat).getD []).length : Int)) ↔
    (pos.row.toNat < cells.length ∧
      pos.col.toNat < ((cells.get? pos.row.toNat).getD []).length) := by
  rw [isValid_iff] at hv
  constructor <;> intro h <;> constructor <;> omega

theorem getConcreteCell_eq {pos : Position} (hv : pos.IsValid = true) (s : State) :
    Sheet.GetConcreteCell pos s = .handle (ptrAt s.cells pos.row.toNat pos.col.toNat) := by
  unfold Sheet.GetConcreteCell
  simp only [hv, if_true]
  split
  · rfl
  · next h =>
    rw [inRange_iff pos hv] at h
    rw [ptrAt_none_of_not_inRange _ _ _ h]

theorem getCell_eq_getConcreteCell (pos : Position) (s : State) :
    Sheet.GetCell pos s = Sheet.GetConcreteCell pos s := rfl

theorem getCellConst_eq_getConcreteCell (pos : Position) (s : State) :
    Sheet.GetCellConst pos s = Sheet.GetConcreteCell pos s := rfl

theorem getCell_eq {pos : Position} (hv : pos.IsValid = true) (s : State) :
    Sheet.GetCell pos s = .handle (ptrAt s.cells pos.row.toNat pos.col.toNat) :=
  getConcreteCell_eq hv s

theorem materialize_wf {s : State} {i j : Nat} (hwf : WF s) (h : slot s.cells i j = some none) :
    WF (materialize i j s) := by
  have hcells : (materialize i j s).cells = setSlot s.cells i j (some s.heap.length) := rfl
  refine ⟨by rw [hcells]; exact rect_setSlot hwf.rect _ _ _, ?_, ?_, ?_⟩
  · intro i' j' a ha
    rw [hcells] at ha
    rw [deref_materialize]
    by_cases hij : i = i' ∧ j = j'
    · obtain ⟨rfl, rfl⟩ := hij
      rw [ptrAt_setSlot_self h] at ha
      cases ha
      rw [if_pos rfl]
      exact ⟨_, rfl, by simp⟩
    · rw [ptrAt_setSlot_ne _ _ _ _ hij] at ha
      obtain ⟨c, hc, hne⟩ := hwf.live i' j' a ha
      have := deref_lt hc
      rw [if_neg (by omega)]
      exact ⟨c, hc, hne⟩
  · intro i1 j1 i2 j2 a h1 h2
    rw [hcells] at h1 h2
    by_cases e1 : i = i1 ∧ j = j1
    · by_cases e2 : i = i2 ∧ j = j2
      · omega
      · exfalso
        obtain ⟨rfl, rfl⟩ := e1
        rw [ptrAt_setSlot_self h] at h1
        cases h1
        rw [ptrAt_setSlot_ne _ _ _ _ e2] at h2
        obtain ⟨c, hc, _⟩ := hwf.live i2 j2 _ h2
        have := deref_lt hc
        omega
    · rw [ptrAt_setSlot_ne _ _ _ _ e1] at h1
      by_cases e2 : i = i2 ∧ j = j2
      · exfalso
        obtain ⟨rfl, rfl⟩ := e2
        rw [ptrAt_setSlot_self h] at h2
        cases h2
        obtain ⟨c, hc, _⟩ := hwf.live i1 j1 _ h1
        have := deref_lt hc
        omega
      · rw [ptrAt_setSlot_ne _ _ _ _ e2] at h2
        exact hwf.inj i1 j1 i2 j2 a h1 h2
  · intro a c hac
    rw [deref_materialize] at hac
    rw [hcells]
    have hnone : ptrAt s.cells i j = none := by unfold ptrAt; rw [h]; rfl
    split at hac
    · next heq => exact ⟨i, j, by rw [heq]; exact ptrAt_setSlot_self h _⟩
    · obtain ⟨i', j', hij⟩ := hwf.owned a c hac
      refine ⟨i', j', ?_⟩
      rw [ptrAt_setSlot_ne]
      · exact hij
      · rintro ⟨rfl, rfl⟩
        rw [hnone] at hij; cases hij

theorem deref_length_none (s : State) : s.deref s.heap.length = none := by
  rw [deref_eq, List.getElem?_eq_none (Nat.le_refl _)]
  rfl

theorem materialize_ext {s : State} {i j : Nat} (h : slot s.cells i j = some none) :
    Ext s (materialize i j s) := by
  have hcells : (materialize i j s).cells = setSlot s.cells i j (some s.heap.length) := rfl
  have hnone : ptrAt s.cells i j = none := by unfold ptrAt; rw [h]; rfl
  refine ⟨?_, ?_, ?_⟩
  · intro i' j' a ha
    rw [hcells, ptrAt_setSlot_ne]
    · exact ha
    · rintro ⟨rfl, rfl⟩
      rw [hnone] at ha; cases ha
  · intro a c hc
    refine ⟨c, ?_, rfl, fun _ hx => hx⟩
    rw [deref_materialize]
    have := deref_lt hc
    rw [if_neg (by omega)]
    exact hc
  · intro i' j' a ha
    rw [hcells] at ha
    by_cases hij : i = i' ∧ j = j'
    · obtain ⟨rfl, rfl⟩ := hij
      rw [ptrAt_setSlot_self h] at ha
      cases ha
      refine Or.inr ⟨deref_length_none s, ⟨some .empty, []⟩, ?_, rfl⟩
      rw [deref_materialize, if_pos rfl]
    · rw [ptrAt_setSlot_ne _ _ _ _ hij] at ha
      exact Or.inl ha


theorem wf_of_ptrAt {s s' : State} (hr : Rect s'.cells)
    (hp : ∀ i j, ptrAt s'.cells i j = ptrAt s.cells i j) (hh : s'.heap = s.heap)
    (hwf : WF s) : WF s' := by
  have hd : ∀ a, s'.deref a = s.deref a := fun a => by unfold State.deref; rw [hh]
  refine ⟨hr, ?_, ?_, ?_⟩
  · intro i j a ha
    rw [hp] at ha
    rw [hd]
    exact hwf.live i j a ha
  · intro i j i' j' a h1 h2
    rw [hp] at h1 h2
    exact hwf.inj i j i' j' a h1 h2
  · intro a c hac
    rw [hd] at hac
    obtain ⟨i, j, hij⟩ := hwf.owned a c hac
    exact ⟨i, j, by rw [hp]; exact hij⟩

theorem ext_of_ptrAt {s s' : State} (hp : ∀ i j, ptrAt s'.cells i j = ptrAt s.cells i j)
    (hh : s'.heap = s.heap) : Ext s s' := by
  have hd : ∀ a, s'.deref a = s.deref a := fun a => by unfold State.deref; rw [hh]
  exact ⟨fun _ _ _ h => by rw [hp]; exact h, fun a c h => ⟨c, by rw [hd]; exact h, rfl,
    fun _ hx => hx⟩, fun _ _ _ h => Or.inl (by rw [← hp]; exact h)⟩

/-- The part of `Sheet::SetCell` that precedes the call of `Cell::Set`: the storage grows and
the cell at the position is created if the slot is null.  Nothing else changes. -/
theorem sheetSetCell_prelude {s : State} (hwf : WF s) {pos : Position}
    (hv : pos.IsValid = true) :
    ∃ (self : Addr) (s2 : State),
      WF s2 ∧ Ext s s2 ∧
      ptrAt s2.cells pos.row.toNat pos.col.toNat = some self ∧
      s2.printable = s.printable ∧
      (∀ i j, ¬ (pos.row.toNat = i ∧ pos.col.toNat = j) →
        ptrAt s2.cells i j = ptrAt s.cells i j) ∧
      (∀ b cb, s.deref b = some cb → s2.deref b = some cb) ∧
      (∀ a, ptrAt s.cells pos.row.toNat pos.col.toNat = some a → self = a) ∧
      (ptrAt s.cells pos.row.toNat pos.col.toNat = none →
        s.deref self = none ∧ s2.deref self = some ⟨some .empty, []⟩) ∧
      (∀ b cb, s2.deref b = some cb → s.deref b = some cb ∨ cb = ⟨some .empty, []⟩) ∧
      s.cells.length ≤ s2.cells.length ∧ width s.cells ≤ width s2.cells ∧
      (pos.row.toNat < s2.cells.length ∧ pos.col.toNat < width s2.cells) ∧
      ∀ (set : Addr → Str → State → Outcome × State) (text : Str),
        sheetSetCell set pos text s =
          andThen (set self text s2) (Sheet.UpdatePrintableSize pos 's') := by
  obtain ⟨v, hslot⟩ := slot_grow_isSome hwf.rect pos.row.toNat pos.col.toNat
  have hp1 : ∀ i j, ptrAt (growCols (growRows s.cells pos.row.toNat) pos.col.toNat) i j =
      ptrAt s.cells i j := fun i j => ptrAt_grow hwf.rect _ _ i j
  have hwf1 : WF { s with cells := growCols (growRows s.cells pos.row.toNat) pos.col.toNat } :=
    wf_of_ptrAt (rect_grow hwf.rect _ _) hp1 rfl hwf
  have hext1 : Ext s { s with cells := growCols (growRows s.cells pos.row.toNat) pos.col.toNat } :=
    ext_of_ptrAt hp1 rfl
  have hrows : s.cells.length ≤
      (growCols (growRows s.cells pos.row.toNat) pos.col.toNat).length := by
    rw [length_growCols]; exact length_le_growRows _ _
  have hcols : width s.cells ≤
      width (growCols (growRows s.cells pos.row.toNat) pos.col.toNat) := by
    have := width_le_growCols (growRows s.cells pos.row.toNat) pos.col.toNat
    rw [width_growRows] at this
    exact this
  have hin := slot_lt (rect_grow hwf.rect pos.row.toNat pos.col.toNat) hslot
  cases v with
  | none =>
    have hnone : ptrAt s.cells pos.row.toNat pos.col.toNat = none := by
      rw [← hp1]; unfold ptrAt; rw [hslot]; rfl
    refine ⟨s.heap.length, materialize pos.row.toNat pos.col.toNat
      { s with cells := growCols (growRows s.cells pos.row.toNat) pos.col.toNat },
      materialize_wf hwf1 hslot, ext_trans hext1 (materialize_ext hslot), ?_, rfl, ?_, ?_, ?_, ?_,
      ?_, ?_, ?_, ?_, ?_⟩
    · exact ptrAt_setSlot_self hslot _
    · intro i j hij
      have : (materialize pos.row.toNat pos.col.toNat
          { s with cells := growCols (growRows s.cells pos.row.toNat) pos.col.toNat }).cells =
          setSlot (growCols (growRows s.cells pos.row.toNat) pos.col.toNat)
            pos.row.toNat pos.col.toNat (some s.heap.length) := rfl
      rw [this, ptrAt_setSlot_ne _ _ _ _ hij, hp1]
    · intro b cb hb
      rw [deref_materialize]
      have := deref_lt hb
      have hl : ({ s with cells := growCols (growRows s.cells pos.row.toNat) pos.col.toNat } : State).heap.length = s.heap.length := rfl
      rw [hl, if_neg (by omega)]
      exact hb
    · intro a ha
      rw [hnone] at ha; cases ha
    · intro _
      refine ⟨deref_length_none s, ?_⟩
      rw [deref_materialize]
      exact if_pos rfl
    · intro b cb hb
      rw [deref_materialize] at hb
      split at hb
      · right; cases hb; rfl
      · left; exact hb
    · exact Nat.le_trans hrows (Nat.le_of_eq (length_setSlot _ _ _ _).symm)
    · exact Nat.le_trans hcols (Nat.le_of_eq (width_setSlot _ _ _ _).symm)
    · exact ⟨Nat.lt_of_lt_of_eq hin.1 (length_setSlot _ _ _ _).symm,
        Nat.lt_of_lt_of_eq hin.2 (width_setSlot _ _ _ _).symm⟩
    · intro set text
      unfold sheetSetCell
      simp only [hv, if_true, hslot]
  | some a =>
    have hsome : ptrAt s.cells pos.row.toNat pos.col.toNat = some a := by
      rw [← hp1]; unfold ptrAt; rw [hslot]; rfl
    refine ⟨a, { s with cells := growCols (growRows s.cells pos.row.toNat) pos.col.toNat },
      hwf1, hext1, ?_, rfl, fun i j _ => hp1 i j, fun b cb hb => hb, ?_, ?_,
      fun b cb hb => Or.inl hb, hrows, hcols, hin, ?_⟩
    · rw [hp1]; exact hsome
    · intro a' ha'
      rw [hsome] at ha'
      cases ha'; rfl
    · intro h0
      rw [hsome] at h0; cases h0
    · intro set text
      unfold sheetSetCell
      simp only [hv, if_true, hslot]


/-! ## Anatomy of `Cell::Set` -/

theorem linkStep_spec {inner : Position → State → Outcome × State} (hin : InnerSpec inner)
    (self : Addr) (q : Position) {t : State} (hwf : WF t) :
    WF (linkStep inner self q t).2 ∧ Ext t (linkStep inner self q t).2 ∧
    ((linkStep inner self q t).1 = .ok →
      ∃ b, ptrAt (linkStep inner self q t).2.cells q.row.toNat q.col.toNat = some b ∧
        self ∈ dependents (linkStep inner self q t).2 b) := by
  unfold linkStep
  cases hv : q.IsValid with
  | false =>
    rw [(getConcreteCell_throws_iff q t).2 hv]
    exact ⟨hwf, ext_refl t, fun h => by cases h⟩
  | true =>
    rw [getConcreteCell_eq hv t]
    cases hp : ptrAt t.cells q.row.toNat q.col.toNat with
    | some c =>
      refine ⟨addDependent_wf c self hwf ⟨_, _, hp⟩, addDependent_ext c self t, fun hok => ?_⟩
      exact ⟨c, (addDependent_ext c self t).keep _ _ _ hp, addDependent_mem c self hok⟩
    | none =>
      obtain ⟨hwf1, hext1⟩ := hin q t hwf hv hp
      rcases andThen_cases (inner q t) (fun s1 =>
          match Sheet.GetConcreteCell q s1 with
          | .throwsInvalidPosition => (.invalidPosition, s1)
          | .handle (some c) => addDependent c self s1
          | .handle none => (.undefinedBehaviour, s1)) with ⟨_, h2⟩ | ⟨h1, h2⟩
      · rw [h2]
        simp only
        rw [getConcreteCell_eq hv]
        cases hp1 : ptrAt (inner q t).2.cells q.row.toNat q.col.toNat with
        | some c =>
          simp only
          refine ⟨addDependent_wf c self hwf1 ⟨_, _, hp1⟩,
            ext_trans hext1 (addDependent_ext c self _), fun hok => ?_⟩
          exact ⟨c, (addDependent_ext c self _).keep _ _ _ hp1, addDependent_mem c self hok⟩
        | none =>
          simp only
          exact ⟨hwf1, hext1, fun h => by cases h⟩
      · rw [h2]
        exact ⟨hwf1, hext1, fun h => absurd h h1⟩

theorem linkReferenced_spec {inner : Position → State → Outcome × State} (hin : InnerSpec inner)
    (self : Addr) (l : List Position) {t : State} (hwf : WF t) :
    WF (linkReferenced inner self l t).2 ∧ Ext t (linkReferenced inner self l t).2 ∧
    ((linkReferenced inner self l t).1 = .ok →
      ∀ q ∈ l, ∃ b,
        ptrAt (linkReferenced inner self l t).2.cells q.row.toNat q.col.toNat = some b ∧
        self ∈ dependents (linkReferenced inner self l t).2 b) := by
  induction l generalizing t with
  | nil => exact ⟨hwf, ext_refl t, fun _ q hq => by cases hq⟩
  | cons p ps ih =>
    unfold linkReferenced
    obtain ⟨hwf1, hext1, hmem1⟩ := linkStep_spec hin self p hwf
    rcases andThen_cases (linkStep inner self p t) (linkReferenced inner self ps) with
      ⟨h1, h2⟩ | ⟨h1, h2⟩
    · rw [h2]
      obtain ⟨hwf2, hext2, hmem2⟩ := ih hwf1
      refine ⟨hwf2, ext_trans hext1 hext2, fun hok q hq => ?_⟩
      rcases List.mem_cons.1 hq with rfl | hq
      · obtain ⟨b, hb, hs⟩ := hmem1 h1
        exact ⟨b, hext2.keep _ _ _ hb, ext_dependents hext2 b hs⟩
      · exact hmem2 hok q hq
    · rw [h2]
      exact ⟨hwf1, hext1, fun h => absurd h h1⟩

/-- Either `Cell::Set` leaves the state as it found it, or the candidate passed the cycle
check and was committed; from the committed state on, the state is only extended, and on
normal return every referenced position holds a cell that has the edited cell among its
dependents. -/
theorem cellSet_spec {P : Parser} {inner : Position → State → Outcome × State}
    (hin : InnerSpec inner) {s : State} (hwf : WF s) (self : Addr) (text : Str) :
    ((cellSet P inner self text s).1 ≠ .ok ∧ (cellSet P inner self text s).2 = s) ∨
    ∃ temp obj, makeImpl P text = some temp ∧
      Cell.CheckCircularDependendency self temp s = .ok ∧ s.deref self = some obj ∧
      WF (cellSet P inner self text s).2 ∧
      Ext (s.store self { obj with impl := some temp }) (cellSet P inner self text s).2 ∧
      ((cellSet P inner self text s).1 = .ok →
        ∀ q ∈ temp.GetReferencedCells, ∃ b,
          ptrAt (cellSet P inner self text s).2.cells q.row.toNat q.col.toNat = some b ∧
          self ∈ dependents (cellSet P inner self text s).2 b) := by
  unfold cellSet
  cases hm : makeImpl P text with
  | none => exact Or.inl ⟨by simp, rfl⟩
  | some temp =>
    dsimp only
    cases hc : Cell.CheckCircularDependendency self temp s <;> dsimp only <;>
      try exact Or.inl ⟨by simp, rfl⟩
    cases hd : s.deref self with
    | none => exact Or.inl ⟨by simp, rfl⟩
    | some obj =>
      dsimp only
      right
      refine ⟨temp, obj, rfl, hc, rfl, ?_⟩
      have hwf3 : WF (s.store self { obj with impl := some temp }) :=
        wf_store hwf hd (by simp)
      obtain ⟨hwfL, hextL, hmemL⟩ :=
        linkReferenced_spec hin self temp.GetReferencedCells hwf3
      rcases andThen_cases
          (linkReferenced inner self temp.GetReferencedCells
            (s.store self { obj with impl := some temp }))
          (Cell.CacheInvalidate self) with ⟨h1, h2⟩ | ⟨h1, h2⟩
      · rw [h2]
        have hco := cacheInvalidate_cacheOnly self
          (linkReferenced inner self temp.GetReferencedCells
            (s.store self { obj with impl := some temp })).2
        refine ⟨cacheOnly_wf hco hwfL, ext_trans hextL (cacheOnly_ext hco), fun _ q hq => ?_⟩
        obtain ⟨b, hb, hs⟩ := hmemL h1 q hq
        refine ⟨b, ?_, ?_⟩
        · rw [hco.cells]; exact hb
        · rw [cacheOnly_dependents hco]; exact hs
      · rw [h2]
        exact ⟨hwfL, hextL, fun h => absurd h h1⟩


theorem cellSet_wf {P : Parser} {inner : Position → State → Outcome × State}
    (hin : InnerSpec inner) {s : State} (hwf : WF s) (self : Addr) (text : Str) :
    WF (cellSet P inner self text s).2 := by
  rcases cellSet_spec (P := P) hin hwf self text with ⟨_, h⟩ | ⟨_, _, _, _, _, h, _⟩
  · rw [h]; exact hwf
  · exact h

theorem sheetSetCell_invalid (set : Addr → Str → State → Outcome × State) {pos : Position}
    (hv : pos.IsValid = false) (text : Str) (s : State) :
    sheetSetCell set pos text s = (.invalidPosition, s) := by
  unfold sheetSetCell
  simp [hv]

theorem andThen_update_wf {r : Outcome × State} (pos : Position) (h : WF r.2) :
    WF (andThen r (Sheet.UpdatePrintableSize pos 's')).2 := by
  rcases andThen_cases r (Sheet.UpdatePrintableSize pos 's') with ⟨_, h2⟩ | ⟨_, h2⟩ <;> rw [h2]
  · exact updatePrintableSize_wf pos 's' h
  · exact h

theorem andThen_update_ext {s : State} {r : Outcome × State} (pos : Position) (h : Ext s r.2) :
    Ext s (andThen r (Sheet.UpdatePrintableSize pos 's')).2 := by
  rcases andThen_cases r (Sheet.UpdatePrintableSize pos 's') with ⟨_, h2⟩ | ⟨_, h2⟩ <;> rw [h2]
  · exact ext_trans h (updatePrintableSize_ext pos 's' r.2)
  · exact h

theorem sheetSetCell_wf {P : Parser} {inner : Position → State → Outcome × State}
    (hin : InnerSpec inner) {s : State} (hwf : WF s) (pos : Position) (text : Str) :
    WF (sheetSetCell (cellSet P inner) pos text s).2 := by
  cases hv : pos.IsValid with
  | false => rw [sheetSetCell_invalid _ hv]; exact hwf
  | true =>
    obtain ⟨self, s2, hwf2, _, _, _, _, _, _, _, _, _, _, _, heq⟩ := sheetSetCell_prelude hwf hv
    rw [heq]
    exact andThen_update_wf pos (cellSet_wf hin hwf2 self text)

theorem sheetSetCell_nil_ext {P : Parser} {inner : Position → State → Outcome × State}
    (hin : InnerSpec inner) {t : State} (hwf : WF t) {q : Position} (hv : q.IsValid = true)
    (hnone : ptrAt t.cells q.row.toNat q.col.toNat = none) :
    Ext t (sheetSetCell (cellSet P inner) q [] t).2 := by
  obtain ⟨self, s2, hwf2, hext2, _, _, _, _, _, hfresh, _, _, _, _, heq⟩ := sheetSetCell_prelude hwf hv
  rw [heq]
  apply andThen_update_ext
  obtain ⟨_, hself⟩ := hfresh hnone
  rcases cellSet_spec (P := P) hin hwf2 self [] with ⟨_, h⟩ | ⟨temp, obj, hm, _, hd, _, hext, _⟩
  · rw [h]; exact hext2
  · rw [makeImpl_nil] at hm
    cases hm
    rw [hself] at hd
    cases hd
    exact ext_trans (ext_trans hext2 (ext_store hself rfl (fun _ hx => hx))) hext

theorem setCellDepth_innerSpec (P : Parser) (d : Nat) :
    InnerSpec (fun p t => Sheet.SetCellDepth P d p [] t) := by
  induction d with
  | zero => intro q t hwf _ _; exact ⟨hwf, ext_refl t⟩
  | succ d ih =>
    intro q t hwf hv hnone
    simp only [Sheet.SetCellDepth]
    exact ⟨sheetSetCell_wf ih hwf q [], sheetSetCell_nil_ext ih hwf hv hnone⟩

theorem setCellDepth_wf (P : Parser) (d : Nat) (pos : Position) (text : Str) {s : State}
    (hwf : WF s) : WF (Sheet.SetCellDepth P d pos text s).2 := by
  cases d with
  | zero => exact hwf
  | succ d =>
    simp only [Sheet.SetCellDepth]
    exact sheetSetCell_wf (setCellDepth_innerSpec P d) hwf pos text

theorem setCell_wf (P : Parser) (pos : Position) (text : Str) {s : State} (hwf : WF s) :
    WF (Sheet.SetCell P pos text s).2 :=
  setCellDepth_wf P 2 pos text hwf

/-! ## `ClearCell` and value reads keep states well-formed -/

theorem destroy_wf {s : State} (hwf : WF s) {i j : Nat} {a : Nat}
    (hp : ptrAt s.cells i j = some a) (c : Cell) :
    WF (destroy i j a (s.store a c)) := by
  have hcells : (destroy i j a (s.store a c)).cells = setSlot s.cells i j none := rfl
  have hlook : ∀ i' j' b, ptrAt (setSlot s.cells i j none) i' j' = some b →
      ptrAt s.cells i' j' = some b ∧ a ≠ b := by
    intro i' j' b hb
    rw [ptrAt_setSlot_none] at hb
    split at hb
    · cases hb
    · next hne =>
      refine ⟨hb, ?_⟩
      rintro rfl
      exact hne (hwf.inj i j i' j' a hp hb)
  refine ⟨by rw [hcells]; exact rect_setSlot hwf.rect _ _ _, ?_, ?_, ?_⟩
  · intro i' j' b hb
    rw [hcells] at hb
    obtain ⟨hb', hne⟩ := hlook i' j' b hb
    rw [deref_destroy, if_neg hne, deref_store_ne s c hne]
    exact hwf.live i' j' b hb'
  · intro i1 j1 i2 j2 b h1 h2
    rw [hcells] at h1 h2
    exact hwf.inj i1 j1 i2 j2 b (hlook _ _ _ h1).1 (hlook _ _ _ h2).1
  · intro b cb hb
    rw [deref_destroy] at hb
    split at hb
    · cases hb
    · next hne =>
      rw [deref_store_ne s c hne] at hb
      obtain ⟨i', j', hij⟩ := hwf.owned b cb hb
      refine ⟨i', j', ?_⟩
      rw [hcells, ptrAt_setSlot_none, if_neg]
      · exact hij
      · rintro ⟨rfl, rfl⟩
        rw [hp] at hij
        cases hij
        exact hne rfl

theorem clearCell_wf (pos : Position) {s : State} (hwf : WF s) :
    WF (Sheet.ClearCell pos s).2 := by
  unfold Sheet.ClearCell
  split
  · split
    · split
      · next a ha =>
        obtain ⟨obj, hobj, _⟩ := hwf.live _ _ a ha
        have hclear : Cell.Clear a s = (.ok, s.store a { obj with impl := none }) := by
          unfold Cell.Clear; rw [hobj]
        rw [hclear, andThen_ok]
        exact updatePrintableSize_wf pos 'c' (destroy_wf hwf ha _)
      · exact updatePrintableSize_wf pos 'c' hwf
    · exact hwf
  · exact hwf

theorem runExec_cacheOnly {getv : Position → State → Option (Lookup × State)}
    (hg : ∀ p t r, getv p t = some r → CacheOnly t r.2) (e : Exec) (s : State)
    (r : FValue × State) (h : runExec getv e s = some r) : CacheOnly s r.2 := by
  induction e generalizing s with
  | done v =>
    simp only [runExec, Option.some.injEq] at h
    rw [← h]; exact cacheOnly_refl s
  | read p k ih =>
    simp only [runExec] at h
    cases hp : getv p s with
    | none => rw [hp] at h; cases h
    | some x =>
      rw [hp] at h
      exact cacheOnly_trans (hg p s x hp) (ih _ _ h)

theorem readCell_cacheOnly {getValue : Addr → State → Option (CellValue × State)}
    (hg : ∀ a t r, getValue a t = some r → CacheOnly t r.2) (p : Position) (s : State)
    (r : Lookup × State) (h : readCell getValue p s = some r) : CacheOnly s r.2 := by
  unfold readCell at h
  split at h
  · cases h; exact cacheOnly_refl s
  · cases h; exact cacheOnly_refl s
  · next a _ =>
    cases ha : getValue a s with
    | none => rw [ha] at h; cases h
    | some x =>
      rw [ha] at h
      cases h
      exact hg a s x ha

/-- Reading a value touches cache slots only. -/
theorem getValueDepth_cacheOnly (n : Nat) (a : Addr) (s : State) (r : CellValue × State)
    (h : Cell.GetValueDepth n a s = some r) : CacheOnly s r.2 := by
  induction n generalizing a s r with
  | zero => cases h
  | succ n ih =>
    unfold Cell.GetValueDepth at h
    cases hc : s.deref a with
    | none => rw [hc] at h; cases h
    | some c =>
      rw [hc] at h
      dsimp only at h
      cases hi : c.impl with
      | none => rw [hi] at h; cases h
      | some i =>
        rw [hi] at h
        cases i with
        | empty => cases h; exact cacheOnly_refl s
        | text t =>
          dsimp only at h
          cases ht : TextImpl.GetValue t with
          | none => rw [ht] at h; cases h
          | some v => rw [ht] at h; cases h; exact cacheOnly_refl s
        | formula hdl cache =>
          cases cache with
          | some v => cases h; exact cacheOnly_refl s
          | none =>
            dsimp only at h
            cases hr : runExec (readCell (Cell.GetValueDepth n)) hdl.exec s with
            | none => rw [hr] at h; cases h
            | some x =>
              rw [hr] at h
              dsimp only at h
              have hco : CacheOnly s x.2 :=
                runExec_cacheOnly (fun p t r' hr' => readCell_cacheOnly ih p t r' hr') _ _ _ hr
              cases hd : x.2.deref a with
              | none => rw [hd] at h; cases h
              | some c1 =>
                rw [hd] at h
                cases h
                refine cacheOnly_trans hco (cacheOnly_store hd ?_ rfl)
                obtain ⟨c1', hc1', himpl, _⟩ := cacheOnly_deref hco hc
                rw [hd] at hc1'
                cases hc1'
                rw [himpl, hi]
                rfl

theorem readValue_cacheOnly (pos : Position) (s : State) (r : CellValue × State)
    (h : Sheet.readValue pos s = some r) : CacheOnly s r.2 := by
  unfold Sheet.readValue at h
  split at h
  · exact getValueDepth_cacheOnly _ _ _ _ h
  · cases h

theorem getValue_run_cacheOnly (P : Parser) (pos : Position) (s : State) :
    CacheOnly s ((Op.getValue pos).run P s).2 := by
  simp only [Op.run]
  cases h : Sheet.readValue pos s with
  | none => exact cacheOnly_refl s
  | some r => exact readValue_cacheOnly pos s r h

theorem wf_empty : WF State.empty := by
  refine ⟨fun r hr => (by cases hr), ?_, ?_, ?_⟩
  · intro i j a h
    simp [ptrAt, slot, State.empty] at h
  · intro i j i' j' a h
    simp [ptrAt, slot, State.empty] at h
  · intro a c h
    simp [State.deref, State.empty] at h

theorem op_run_wf (P : Parser) (op : Op) {s : State} (hwf : WF s) : WF (op.run P s).2 := by
  cases op with
  | setCell pos text => exact setCell_wf P pos text hwf
  | clearCell pos => exact clearCell_wf pos hwf
  | getValue pos => exact cacheOnly_wf (getValue_run_cacheOnly P pos s) hwf

theorem reachableVia_wf {P : Parser} {f : Op → Bool} {s : State} (h : ReachableVia P f s) :
    WF s := by
  induction h with
  | empty => exact wf_empty
  | step op _ _ _ ih => exact op_run_wf P op ih


/-! ## Anatomy of `Sheet::SetCell` -/

theorem andThen_fst_ok {r : Outcome × State} {k : State → Outcome × State}
    (h : (andThen r k).1 = .ok) : r.1 = .ok ∧ andThen r k = k r.2 := by
  rcases andThen_cases r k with ⟨h1, h2⟩ | ⟨h1, h2⟩
  · exact ⟨h1, h2⟩
  · rw [h2] at h; exact absurd h h1

theorem andThen_throws_inv {r : Outcome × State} {k : State → Outcome × State}
    (hk : ∀ t, (k t).1.throws = false) (h : (andThen r k).1.throws = true) :
    r.1.throws = true ∧ andThen r k = r := by
  rcases andThen_cases r k with ⟨_, h2⟩ | ⟨_, h2⟩
  · rw [h2, hk] at h; cases h
  · rw [h2] at h; exact ⟨h, h2⟩

theorem setCell_eq (P : Parser) (pos : Position) (text : Str) (s : State) :
    Sheet.SetCell P pos text s = sheetSetCell (Cell.Set P) pos text s := rfl

theorem cellSet_innerSpec (P : Parser) :
    InnerSpec (fun p t => Sheet.SetCellDepth P 1 p [] t) :=
  setCellDepth_innerSpec P 1

theorem dependents_of_heap {s s' : State} (h : s'.heap = s.heap) (a : Addr) :
    dependents s' a = dependents s a := by
  unfold dependents State.deref; rw [h]

theorem sheetSetCell_prelude' {s : State} (hwf : WF s) {pos : Position}
    (hv : pos.IsValid = true) :
    ∃ (self : Addr) (s2 : State), Prelude s pos self s2 ∧
      ∀ (set : Addr → Str → State → Outcome × State) (text : Str),
        sheetSetCell set pos text s =
          andThen (set self text s2) (Sheet.UpdatePrintableSize pos 's') := by
  obtain ⟨self, s2, h1, h2, h3, h4, h5, h6, h7, h8, h9, h11, h12, h13, h10⟩ :=
    sheetSetCell_prelude hwf hv
  exact ⟨self, s2, ⟨h1, h2, h3, h4, h5, h6, h7, h8, h9, h11, h12, h13⟩, h10⟩

/-- A `SetCell` that throws leaves the state it started from, or that state with the storage
grown and the cell at the position created. -/
theorem setCell_throws_spec (P : Parser) {s : State} (hwf : WF s) (pos : Position) (text : Str)
    (h : (Sheet.SetCell P pos text s).1.throws = true) :
    (pos.IsValid = false ∧ (Sheet.SetCell P pos text s).2 = s) ∨
    (pos.IsValid = true ∧ ∃ self, Prelude s pos self (Sheet.SetCell P pos text s).2) := by
  rw [setCell_eq] at h ⊢
  cases hv : pos.IsValid with
  | false => left; rw [sheetSetCell_invalid _ hv]; exact ⟨rfl, rfl⟩
  | true =>
    right
    obtain ⟨self, s2, hpre, heq⟩ := sheetSetCell_prelude' hwf hv
    rw [heq] at h ⊢
    obtain ⟨h1, h2⟩ := andThen_throws_inv (fun t => updatePrintableSize_throws pos 's' t) h
    rw [h2, cellSet_call_throws_state P self text s2 h1]
    exact ⟨rfl, self, hpre⟩

/-- A `SetCell` that returns normally went through the prelude, passed the cycle check in
the state the prelude left, committed the candidate and from there only extended the state;
every referenced position holds a cell that has the edited cell among its dependents. -/
theorem setCell_ok_spec (P : Parser) {s : State} (hwf : WF s) {pos : Position} {text : Str}
    (hok : (Sheet.SetCell P pos text s).1 = .ok) :
    pos.IsValid = true ∧ ∃ self s2 temp obj, Prelude s pos self s2 ∧
      makeImpl P text = some temp ∧
      Cell.CheckCircularDependendency self temp s2 = .ok ∧ s2.deref self = some obj ∧
      WF (Sheet.SetCell P pos text s).2 ∧
      Ext (s2.store self { obj with impl := some temp }) (Sheet.SetCell P pos text s).2 ∧
      ∀ q ∈ temp.GetReferencedCells, ∃ b,
        ptrAt (Sheet.SetCell P pos text s).2.cells q.row.toNat q.col.toNat = some b ∧
        self ∈ dependents (Sheet.SetCell P pos text s).2 b := by
  rw [setCell_eq] at hok ⊢
  cases hv : pos.IsValid with
  | false => rw [sheetSetCell_invalid _ hv] at hok; cases hok
  | true =>
    refine ⟨rfl, ?_⟩
    obtain ⟨self, s2, hpre, heq⟩ := sheetSetCell_prelude' hwf hv
    rw [heq] at hok ⊢
    obtain ⟨h1, h2⟩ := andThen_fst_ok hok
    rw [h2]
    have hfr := updatePrintableSize_frame pos 's' (Cell.Set P self text s2).2
    rcases cellSet_spec (P := P) (cellSet_innerSpec P) hpre.wf self text with
      ⟨hne, _⟩ | ⟨temp, obj, hm, hc, hd, hwf', hext, hmem⟩
    · exact absurd h1 hne
    · refine ⟨self, s2, temp, obj, hpre, hm, hc, hd, updatePrintableSize_wf pos 's' hwf',
        ext_trans hext (updatePrintableSize_ext pos 's' _), fun q hq => ?_⟩
      obtain ⟨b, hb, hs⟩ := hmem h1 q hq
      refine ⟨b, ?_, ?_⟩
      · rw [hfr.1]; exact hb
      · rw [dependents_of_heap hfr.2]; exact hs


/-! ## A `SetCell` that throws -/

theorem getCell_invalid {pos : Position} (hv : pos.IsValid = false) (s : State) :
    Sheet.GetCell pos s = .throwsInvalidPosition :=
  (getConcreteCell_throws_iff pos s).2 hv

theorem toNat_ne_of_ne {p q : Position} (hp : p.IsValid = true) (hq : q.IsValid = true)
    (h : q ≠ p) : ¬ (p.row.toNat = q.row.toNat ∧ p.col.toNat = q.col.toNat) := by
  rintro ⟨h1, h2⟩
  exact h (position_eq_of_toNat hq hp h1.symm h2.symm)

theorem getText_of_deref {s s' : State} {a : Addr} (h : s'.deref a = s.deref a) :
    Cell.GetText a s' = Cell.GetText a s := by
  unfold Cell.GetText; rw [h]

theorem cacheInvalidate_eq_text {o : Option Impl} {t : Str}
    (h : o.map Impl.CacheInvalidate = some (.text t)) : o = some (.text t) := by
  cases o with
  | none => cases h
  | some i => cases i <;> simp [Impl.CacheInvalidate] at h ⊢; exact h

/-- After a `SetCell` that returned, the position holds the edited cell and its content is
the candidate, up to the cache. -/
theorem setCell_ok_self {s : State} {pos : Position} {self : Addr} {s2 s' : State}
    {temp : Impl} {obj : Cell} (hpre : Prelude s pos self s2) (hd : s2.deref self = some obj)
    (hext : Ext (s2.store self { obj with impl := some temp }) s') :
    ptrAt s'.cells pos.row.toNat pos.col.toNat = some self ∧
    ∃ c', s'.deref self = some c' ∧
      c'.impl.map Impl.CacheInvalidate = some temp.CacheInvalidate ∧ obj.deps ⊆ c'.deps := by
  refine ⟨hext.keep _ _ _ hpre.here, ?_⟩
  obtain ⟨c', hc', hi, hdeps⟩ := hext.cell self _ (deref_store_self hd _)
  exact ⟨c', hc', hi, hdeps⟩

theorem makeImpl_plain (P : Parser) (t : Str)
    (h : t = [] ∨ t.head? ≠ some FORMULA_SIGN ∨ t = [FORMULA_SIGN]) :
    makeImpl P t = some (if t = [] then .empty else .text t) := by
  unfold makeImpl
  cases t with
  | nil => rfl
  | cons c r =>
    rcases h with h | h | h
    · cases h
    · have hc : c ≠ FORMULA_SIGN := by simpa using h
      simp [hc]
    · cases h; rfl

theorem getValue_text {s : State} {a : Addr} {c : Cell} {t : Str} (hc : s.deref a = some c)
    (hi : c.impl = some (.text t)) (ht : t ≠ []) :
    (Cell.GetValue a s).map Prod.fst =
      some (.str (if t.head? = some ESCAPE_SIGN then t.tail else t)) := by
  unfold Cell.GetValue Cell.GetValueDepth
  rw [hc]
  dsimp only
  rw [hi]
  dsimp only
  cases t with
  | nil => exact absurd rfl ht
  | cons ch rest =>
    unfold TextImpl.GetValue
    by_cases he : ch = ESCAPE_SIGN <;> simp [he]

theorem getValue_empty {s : State} {a : Addr} {c : Cell} (hc : s.deref a = some c)
    (hi : c.impl = some .empty) :
    (Cell.GetValue a s).map Prod.fst = some (.str []) := by
  unfold Cell.GetValue Cell.GetValueDepth
  rw [hc]
  dsimp only
  rw [hi]
  rfl

theorem getText_eq {s : State} {a : Addr} {c : Cell} (hc : s.deref a = some c) :
    Cell.GetText a s = c.impl.map Impl.GetText := by
  unfold Cell.GetText; rw [hc]

theorem getReferencedCells_eq {s : State} {a : Addr} {c : Cell} (hc : s.deref a = some c) :
    Cell.GetReferencedCells a s = c.impl.map Impl.GetReferencedCells := by
  unfold Cell.GetReferencedCells; rw [hc]

theorem referencedCellsSet_mem {s : State} {l : List Position} {refs : List (Option Addr)}
    (h : referencedCellsSet s l = some refs) {q : Position} (hq : q ∈ l) :
    ptrAt s.cells q.row.toNat q.col.toNat ∈ refs := by
  induction l generalizing refs with
  | nil => cases hq
  | cons p ps ih =>
    have hv := referencedCellsSet_valid h
    unfold referencedCellsSet at h
    rw [getConcreteCell_eq (hv p (List.mem_cons_self _ _))] at h
    dsimp only at h
    cases hr : referencedCellsSet s ps with
    | none => rw [hr] at h; cases h
    | some r =>
      rw [hr] at h
      cases h
      rcases List.mem_cons.1 hq with rfl | hq
      · exact List.mem_cons_self _ _
      · exact List.mem_cons_of_mem _ (ih hr hq)

theorem referencedCellsSet_mem_inv {s : State} {l : List Position} {refs : List (Option Addr)}
    (h : referencedCellsSet s l = some refs) {c : Option Addr} (hc : c ∈ refs) :
    ∃ q ∈ l, Sheet.GetConcreteCell q s = .handle c := by
  induction l generalizing refs with
  | nil =>
    simp only [referencedCellsSet, Option.some.injEq] at h
    rw [← h] at hc; cases hc
  | cons p ps ih =>
    unfold referencedCellsSet at h
    cases hp : Sheet.GetConcreteCell p s with
    | throwsInvalidPosition => rw [hp] at h; cases h
    | handle c0 =>
      rw [hp] at h
      dsimp only at h
      cases hr : referencedCellsSet s ps with
      | none => rw [hr] at h; cases h
      | some r =>
        rw [hr] at h
        cases h
        rcases List.mem_cons.1 hc with rfl | hc
        · exact ⟨p, List.mem_cons_self _ _, hp⟩
        · obtain ⟨q, hq, hq'⟩ := ih hr hc
          exact ⟨q, List.mem_cons_of_mem _ hq, hq'⟩

/-- A candidate that references the position of the edited cell does not pass the check. -/
theorem checkCircular_ok_not_self {self : Addr} {temp : Impl} {s : State} {pos : Position}
    (h : Cell.CheckCircularDependendency self temp s = .ok)
    (hat : ptrAt s.cells pos.row.toNat pos.col.toNat = some self) :
    pos ∉ temp.GetReferencedCells := by
  intro hmem
  unfold Cell.CheckCircularDependendency at h
  cases hr : referencedCellsSet s temp.GetReferencedCells with
  | none => rw [hr] at h; cases h
  | some refs =>
    rw [hr] at h
    dsimp only at h
    have hin := referencedCellsSet_mem hr hmem
    rw [hat] at hin
    have : edgeCount s + 2 = (edgeCount s + 1) + 1 := rfl
    rw [this] at h
    unfold dfsLoop at h
    rw [if_pos hin] at h
    cases h

theorem makeImpl_formula (P : Parser) {text : Str} {h : Handle}
    (h1 : text.head? = some FORMULA_SIGN) (h2 : 1 < text.length) (h3 : P text.tail = some h) :
    makeImpl P text = some (.formula h none) := by
  unfold makeImpl FormulaImpl.make
  cases text with
  | nil => simp at h2
  | cons c r =>
    simp only [List.head?_cons, Option.some.injEq] at h1
    simp only [List.tail_cons] at h3
    simp [h1, h3]
    intro hr
    subst hr
    simp at h2

/-- C7: in a reachable state, let `SetCell(pos, text)` return normally for a formula text.
Then `pos` holds a cell whose referenced cells are those of the parsed formula, and every
referenced position is valid, differs from `pos`, and holds a cell whose reverse-dependency
set contains the cell at `pos`; that cell is a newly created empty cell if the position held
none before, and the cell that was there, with the same text, otherwise. -/
theorem C7_referenced_cells_materialized (P : Parser) {s : State} (hr : Reachable P s)
    (pos : Position) (text : Str) (h : Handle)
    (h1 : text.head? = some FORMULA_SIGN) (h2 : 1 < text.length) (h3 : P text.tail = some h)
    (hok : (Sheet.SetCell P pos text s).1 = .ok) :
    ∃ self, Sheet.GetCell pos (Sheet.SetCell P pos text s).2 = .handle (some self) ∧
      Cell.GetReferencedCells self (Sheet.SetCell P pos text s).2
        = some (Formula.GetReferencedCells h) ∧
      ∀ q ∈ Formula.GetReferencedCells h, q.IsValid = true ∧ q ≠ pos ∧
        ∃ b, Sheet.GetCell q (Sheet.SetCell P pos text s).2 = .handle (some b) ∧
          self ∈ dependents (Sheet.SetCell P pos text s).2 b ∧
          (Sheet.GetCell q s = .handle none →
            s.deref b = none ∧
            (∃ c, (Sheet.SetCell P pos text s).2.deref b = some c ∧ c.impl = some .empty) ∧
            Cell.GetText b (Sheet.SetCell P pos text s).2 = some []) ∧
          (∀ b0, Sheet.GetCell q s = .handle (some b0) →
            b = b0 ∧ Cell.GetText b (Sheet.SetCell P pos text s).2 = Cell.GetText b0 s) := by
  have hwf : WF s := reachableVia_wf hr
  obtain ⟨hv, self, s2, temp, obj, hpre, hm, hc, hd, _, hext, hmem⟩ :=
    setCell_ok_spec P hwf hok
  rw [makeImpl_formula P h1 h2 h3] at hm
  cases hm
  obtain ⟨hat, c', hc', hi, _⟩ := setCell_ok_self hpre hd hext
  refine ⟨self, by rw [getCell_eq hv, hat], ?_, fun q hq => ?_⟩
  · rw [getReferencedCells_eq hc']
    have := @getReferencedCells_of_erased (some (Impl.formula h none)) c'.impl
      (by rw [hi]; rfl)
    rw [this]; rfl
  · have hqv : q.IsValid = true := checkCircular_ok_valid hc q hq
    have hne : q ≠ pos := by
      rintro rfl
      exact checkCircular_ok_not_self hc hpre.here hq
    have hidx := toNat_ne_of_ne hv hqv hne
    obtain ⟨b, hb, hs⟩ := hmem q hq
    refine ⟨hqv, hne, b, by rw [getCell_eq hqv, hb], hs, fun h0 => ?_, fun b0 h0 => ?_⟩
    · rw [getCell_eq hqv] at h0
      simp only [Found.handle.injEq] at h0
      have h2' : ptrAt s2.cells q.row.toNat q.col.toNat = none := by
        rw [hpre.others _ _ hidx]; exact h0
      rcases hext.fresh _ _ b hb with h | ⟨hn, c, hc0, he⟩
      · rw [store_cells, h2'] at h; cases h
      · refine ⟨?_, ⟨c, hc0, he⟩, by rw [getText_eq hc0, he]; rfl⟩
        cases hsb : s.deref b with
        | none => rfl
        | some cb =>
          exfalso
          have h2b := hpre.deref b cb hsb
          rw [deref_store s2 hd] at hn
          split at hn
          · cases hn
          · rw [h2b] at hn; cases hn
    · rw [getCell_eq hqv] at h0
      simp only [Found.handle.injEq] at h0
      have h2' : ptrAt s2.cells q.row.toNat q.col.toNat = some b0 := hpre.ext.keep _ _ _ h0
      have h3' := hext.keep _ _ b0 (by rw [store_cells]; exact h2')
      rw [hb] at h3'
      cases h3'
      refine ⟨rfl, ?_⟩
      obtain ⟨c0, hc0, _⟩ := hwf.live _ _ b h0
      have hb2 := hpre.deref b c0 hc0
      have hbs : self ≠ b := by
        rintro rfl
        exact hidx (hpre.wf.inj _ _ _ _ self hpre.here h2')
      obtain ⟨c1, hc1, hi1, _⟩ := hext.cell b c0 (by rw [deref_store_ne s2 _ hbs]; exact hb2)
      rw [getText_eq hc1, getText_eq hc0]
      exact getText_of_erased hi1

/-- C7, at a concrete input: on the sheet holding "5" at B1, `SetCell(A1, "=B1+C1")`
returns; B1 keeps its cell and text, C1 gets a new empty cell, and both have the cell at A1
among their dependents. -/
theorem C7_referenced_cells_materialized_witness :
    (Sheet.SetCell sampleParser A1 "=B1+C1".toList
      (Sheet.SetCell sampleParser B1 "5".toList State.empty).2).1 = .ok ∧
    ∃ self, Sheet.GetCell A1 (Sheet.SetCell sampleParser A1 "=B1+C1".toList
        (Sheet.SetCell sampleParser B1 "5".toList State.empty).2).2 = .handle (some self) ∧
      Cell.GetReferencedCells self (Sheet.SetCell sampleParser A1 "=B1+C1".toList
        (Sheet.SetCell sampleParser B1 "5".toList State.empty).2).2 = some [B1, C1] ∧
      ∀ q ∈ [B1, C1], q.IsValid = true ∧ q ≠ A1 ∧
        ∃ b, Sheet.GetCell q (Sheet.SetCell sampleParser A1 "=B1+C1".toList
            (Sheet.SetCell sampleParser B1 "5".toList State.empty).2).2 = .handle (some b) ∧
          self ∈ dependents (Sheet.SetCell sampleParser A1 "=B1+C1".toList
            (Sheet.SetCell sampleParser B1 "5".toList State.empty).2).2 b :=
  have hr : Reachable sampleParser (Sheet.SetCell sampleParser B1 "5".toList State.empty).2 :=
    reachable_runOps [.setCell B1 "5".toList] .empty (by decide)
  have h := C7_referenced_cells_materialized sampleParser hr A1 "=B1+C1".toList
    ⟨"B1+C1".toList, [B1, C1], sampleExec [B1, C1] 0⟩ (by decide) (by decide) rfl
    (by decide)
  ⟨by decide, h.choose, h.choose_spec.1, h.choose_spec.2.1, fun q hq =>
    ⟨(h.choose_spec.2.2 q hq).1, (h.choose_spec.2.2 q hq).2.1,
      (h.choose_spec.2.2 q hq).2.2.choose, (h.choose_spec.2.2 q hq).2.2.choose_spec.1,
      (h.choose_spec.2.2 q hq).2.2.choose_spec.2.1⟩⟩


/-! ## Stored reverse dependencies cover the references -/

theorem reachableNoClear_runOps {P : Parser} (ops : List Op) {s : State}
    (h : ReachableNoClear P s) (hc : noClear ops = true) (hr : allReturn P ops s = true) :
    ReachableNoClear P (runOps P ops s) := by
  induction ops generalizing s with
  | nil => exact h
  | cons op rest ih =>
    simp only [allReturn, Bool.and_eq_true] at hr
    simp only [noClear, List.all_cons, Bool.and_eq_true] at hc
    exact ih (.step op h hc.1 hr.1) (by simpa [noClear] using hc.2) hr.2

theorem backLinked_empty : BackLinked State.empty := by
  intro i j a c impl h
  simp [ptrAt, slot, State.empty] at h

theorem impl_of_erased {o o' : Option Impl} {impl' : Impl}
    (h : o'.map Impl.CacheInvalidate = o.map Impl.CacheInvalidate) (h' : o' = some impl') :
    ∃ impl, o = some impl ∧ impl.GetReferencedCells = impl'.GetReferencedCells := by
  subst h'
  cases o with
  | none => cases h
  | some impl =>
    refine ⟨impl, rfl, ?_⟩
    have := getReferencedCells_of_erased h
    simpa using this.symm

theorem backLinked_ext {s s' : State} (hwf : WF s) (hb : BackLinked s) (hext : Ext s s') :
    BackLinked s' := by
  intro i j a c' impl' hp hc' hi' q hq
  rcases hext.fresh i j a hp with h | ⟨_, c'', hc'', he⟩
  · obtain ⟨c0, hc0, _⟩ := hwf.live i j a h
    obtain ⟨c1, hc1, hi1, _⟩ := hext.cell a c0 hc0
    rw [hc'] at hc1
    cases hc1
    obtain ⟨impl0, hi0, hrefs⟩ := impl_of_erased hi1 hi'
    obtain ⟨hv, b, hbq, hab⟩ := hb i j a c0 impl0 h hc0 hi0 q (by rw [hrefs]; exact hq)
    exact ⟨hv, b, hext.keep _ _ _ hbq, ext_dependents hext b hab⟩
  · rw [hc'] at hc''
    cases hc''
    rw [hi'] at he
    cases he
    cases hq

theorem dependents_store_impl {s : State} {self : Nat} {obj : Cell} (hd : s.deref self = some obj)
    (i : Option Impl) (b : Nat) :
    dependents (s.store self { obj with impl := i }) b = dependents s b := by
  unfold dependents
  rw [deref_store s hd]
  by_cases h : self = b
  · subst h; rw [if_pos rfl, hd]
  · rw [if_neg h]

theorem backLinked_commit {s2 s' : State} {self : Addr} {obj : Cell} {temp : Impl}
    (hwf : WF s2) (hb : BackLinked s2) (hd : s2.deref self = some obj)
    (hext : Ext (s2.store self { obj with impl := some temp }) s')
    (hnew : ∀ q ∈ temp.GetReferencedCells, q.IsValid = true ∧
      ∃ b, ptrAt s'.cells q.row.toNat q.col.toNat = some b ∧ self ∈ dependents s' b) :
    BackLinked s' := by
  intro i j a c' impl' hp hc' hi' q hq
  rcases hext.fresh i j a hp with h | ⟨_, c'', hc'', he⟩
  · rw [store_cells] at h
    by_cases has : self = a
    · subst has
      obtain ⟨c1, hc1, hi1, _⟩ := hext.cell self _ (deref_store_self hd _)
      rw [hc'] at hc1
      cases hc1
      obtain ⟨impl0, hi0, hrefs⟩ := impl_of_erased hi1 hi'
      cases hi0
      exact hnew q (by rw [hrefs]; exact hq)
    · obtain ⟨c0, hc0, _⟩ := hwf.live i j a h
      obtain ⟨c1, hc1, hi1, _⟩ := hext.cell a c0 (by rw [deref_store_ne s2 _ has]; exact hc0)
      rw [hc'] at hc1
      cases hc1
      obtain ⟨impl0, hi0, hrefs⟩ := impl_of_erased hi1 hi'
      obtain ⟨hv, b, hbq, hab⟩ := hb i j a c0 impl0 h hc0 hi0 q (by rw [hrefs]; exact hq)
      refine ⟨hv, b, hext.keep _ _ _ (by rw [store_cells]; exact hbq), ext_dependents hext b ?_⟩
      rw [dependents_store_impl hd]
      exact hab
  · rw [hc'] at hc''
    cases hc''
    rw [hi'] at he
    cases he
    cases hq

theorem returns_cases {o : Outcome} (h : o.returns = true) : o = .ok ∨ o.throws = true := by
  cases o <;> simp [Outcome.returns, Outcome.throws] at h ⊢

theorem setCell_backLinked (P : Parser) {s : State} (hwf : WF s) (hb : BackLinked s)
    (pos : Position) (text : Str) (hr : (Sheet.SetCell P pos text s).1.returns = true) :
    BackLinked (Sheet.SetCell P pos text s).2 := by
  rcases returns_cases hr with hok | hth
  · obtain ⟨_, self, s2, temp, obj, hpre, _, hc, hd, _, hext, hmem⟩ := setCell_ok_spec P hwf hok
    exact backLinked_commit hpre.wf (backLinked_ext hwf hb hpre.ext) hd hext
      (fun q hq => ⟨checkCircular_ok_valid hc q hq, hmem q hq⟩)
  · rcases setCell_throws_spec P hwf pos text hth with ⟨_, hs⟩ | ⟨_, self, hpre⟩
    · rw [hs]; exact hb
    · exact backLinked_ext hwf hb hpre.ext

theorem reachableNoClear_backLinked {P : Parser} {s : State} (h : ReachableNoClear P s) :
    BackLinked s := by
  induction h with
  | empty => exact backLinked_empty
  | step op hprev ha hr ih =>
    have hwf := reachableVia_wf hprev
    cases op with
    | setCell pos text => exact setCell_backLinked P hwf ih pos text hr
    | clearCell pos => simp [Op.isClear] at ha
    | getValue pos => exact backLinked_ext hwf ih (cacheOnly_ext (getValue_run_cacheOnly P pos _))

/-- A `SetCell` that comes back never removes a member of a reverse-dependency set. -/
theorem setCell_dependents_mono (P : Parser) {s : State} (hwf : WF s) (pos : Position)
    (text : Str) (hr : (Sheet.SetCell P pos text s).1.returns = true) (a : Addr) :
    dependents s a ⊆ dependents (Sheet.SetCell P pos text s).2 a := by
  rcases returns_cases hr with hok | hth
  · obtain ⟨_, self, s2, temp, obj, hpre, _, _, hd, _, hext, _⟩ := setCell_ok_spec P hwf hok
    intro x hx
    apply ext_dependents hext a
    rw [dependents_store_impl hd]
    exact ext_dependents hpre.ext a hx
  · rcases setCell_throws_spec P hwf pos text hth with ⟨_, hs⟩ | ⟨_, self, hpre⟩
    · rw [hs]; exact fun _ hx => hx
    · exact ext_dependents hpre.ext a


/-- C8 (failing inputs).  After `SetCell(A1, "=B1")`, `SetCell(A1, "")` the cell at A1
(address 0) references nothing and is still in the reverse-dependency set of the cell at B1
(address 1): `Cell::Set` did not remove it.  After `SetCell(A1, "=B1")`, `ClearCell(B1)`,
`SetCell(B1, "")` the cell at A1 references B1 and is not in the reverse-dependency set of
the cell now at B1 (address 2). -/
theorem C8_stale_reverse_edge_after_replacement :
    (ReachableNoClear sampleParser (runOps sampleParser callsReplacingFormula State.empty) ∧
      Sheet.GetCell A1 (runOps sampleParser callsReplacingFormula State.empty)
        = .handle (some 0) ∧
      Sheet.GetCell B1 (runOps sampleParser callsReplacingFormula State.empty)
        = .handle (some 1) ∧
      0 ∈ dependents (runOps sampleParser callsReplacingFormula State.empty) 1 ∧
      Cell.GetReferencedCells 0 (runOps sampleParser callsReplacingFormula State.empty)
        = some []) ∧
    (Reachable sampleParser (runOps sampleParser callsRecreatingTarget State.empty) ∧
      Sheet.GetCell A1 (runOps sampleParser callsRecreatingTarget State.empty)
        = .handle (some 0) ∧
      Sheet.GetCell B1 (runOps sampleParser callsRecreatingTarget State.empty)
        = .handle (some 2) ∧
      Cell.GetReferencedCells 0 (runOps sampleParser callsRecreatingTarget State.empty)
        = some [B1] ∧
      0 ∉ dependents (runOps sampleParser callsRecreatingTarget State.empty) 2) :=
  ⟨⟨reachableNoClear_runOps _ .empty (by decide) (by decide), by decide, by decide, by decide,
      by decide⟩,
    ⟨reachable_runOps _ .empty (by decide), by decide, by decide, by decide, by decide⟩⟩

/-! ## What makes the cycle check throw -/

theorem mem_pushUnvisited {visited deps stack : List Addr} {x : Addr}
    (h : x ∈ pushUnvisited visited deps stack) : x ∈ deps ∨ x ∈ stack := by
  unfold pushUnvisited at h
  induction deps generalizing stack with
  | nil => exact Or.inr h
  | cons d ds ih =>
    simp only [List.foldl_cons] at h
    rcases ih h with h1 | h1
    · exact Or.inl (List.mem_cons_of_mem _ h1)
    · split at h1
      · exact Or.inr h1
      · rcases List.mem_cons.1 h1 with rfl | h2
        · exact Or.inl (List.mem_cons_self _ _)
        · exact Or.inr h2

/-- The traversal only ever holds cells that are reachable from its start along stored
reverse-dependency edges; so when it throws, a referenced cell is reachable. -/
theorem dfsLoop_circular {s : State} {refs : List (Option Addr)} {self : Addr} (n : Nat)
    (stack visited : List Addr)
    (hst : ∀ x ∈ stack, Relation.ReflTransGen (depEdge s) self x)
    (h : dfsLoop s refs n stack visited = .circularDependency) :
    ∃ c, some c ∈ refs ∧ Relation.ReflTransGen (depEdge s) self c := by
  induction n generalizing stack visited with
  | zero => simp [dfsLoop] at h
  | succ n ih =>
    cases stack with
    | nil => simp [dfsLoop] at h
    | cons curr rest =>
      unfold dfsLoop at h
      by_cases hin : some curr ∈ refs
      · exact ⟨curr, hin, hst curr (List.mem_cons_self _ _)⟩
      · rw [if_neg hin] at h
        cases hc : s.deref curr with
        | none => rw [hc] at h; cases h
        | some obj =>
          rw [hc] at h
          dsimp only at h
          apply ih _ _ _ h
          intro x hx
          rcases mem_pushUnvisited hx with h1 | h1
          · refine Relation.ReflTransGen.tail (hst curr (List.mem_cons_self _ _)) ?_
            unfold depEdge
            rw [dependents_eq hc]
            exact h1
          · exact hst x (List.mem_cons_of_mem _ h1)

theorem checkCircular_circular {self : Addr} {temp : Impl} {s : State}
    (h : Cell.CheckCircularDependendency self temp s = .circularDependency) :
    ∃ q c, q ∈ temp.GetReferencedCells ∧ Sheet.GetConcreteCell q s = .handle (some c) ∧
      Relation.ReflTransGen (depEdge s) self c := by
  unfold Cell.CheckCircularDependendency at h
  cases hr : referencedCellsSet s temp.GetReferencedCells with
  | none => rw [hr] at h; cases h
  | some refs =>
    rw [hr] at h
    dsimp only at h
    obtain ⟨c, hc, hpath⟩ := dfsLoop_circular _ [self] [] (fun x hx => by
      rw [List.mem_singleton] at hx
      rw [hx]) h
    obtain ⟨q, hq, hq'⟩ := referencedCellsSet_mem_inv hr hc
    exact ⟨q, c, hq, hq', hpath⟩

theorem cellSet_circular_inv {P : Parser} {inner : Position → State → Outcome × State}
    (hinner : ∀ p t, p.IsValid = true → (inner p t).1.throws = false)
    {self : Addr} {text : Str} {s : State}
    (h : (cellSet P inner self text s).1 = .circularDependency) :
    ∃ temp, makeImpl P text = some temp ∧
      Cell.CheckCircularDependendency self temp s = .circularDependency := by
  unfold cellSet at h
  cases hm : makeImpl P text with
  | none => rw [hm] at h; cases h
  | some temp =>
    rw [hm] at h
    dsimp only at h
    refine ⟨temp, rfl, ?_⟩
    cases hc : Cell.CheckCircularDependendency self temp s <;> rw [hc] at h <;>
      dsimp only at h <;> try cases h
    · exfalso
      cases hd : s.deref self with
      | none => rw [hd] at h; cases h
      | some obj =>
        rw [hd] at h
        dsimp only at h
        have := andThen_throws
          (linkReferenced_throws hinner self temp.GetReferencedCells
            (s.store self { obj with impl := some temp }) (checkCircular_ok_valid hc))
          (fun t => cacheInvalidate_throws self t)
        rw [h] at this; cases this

/-- The relation has a first step wherever it has a path. -/
theorem transGen_first {α : Type} {r : α → α → Prop} {a c : α}
    (h : Relation.TransGen r a c) : ∃ b, r a b := by
  induction h with
  | single h => exact ⟨_, h⟩
  | tail _ _ ih => exact ih

/-- C9 (failing input): after `SetCell(A1, "=B1")`, `SetCell(A1, "1")` the cell at A1
holds the text "1" and references nothing, so no path of references leads from A1 to B1
and the edit `SetCell(B1, "=A1")` would create no cycle; yet `Set` with "=A1" on the cell
at B1 (address 1), and so the `SetCell`, throws `CircularDependencyException`, because the
cell at A1 was never removed from the reverse-dependency set of the cell at B1. -/
theorem C9_spurious_circular_exception :
    ReachableNoClear sampleParser (runOps sampleParser callsLeavingStaleEdge State.empty) ∧
    Sheet.GetCell B1 (runOps sampleParser callsLeavingStaleEdge State.empty)
      = .handle (some 1) ∧
    (Cell.Set sampleParser 1 "=A1".toList
      (runOps sampleParser callsLeavingStaleEdge State.empty)).1 = .circularDependency ∧
    (Sheet.SetCell sampleParser B1 "=A1".toList
      (runOps sampleParser callsLeavingStaleEdge State.empty)).1 = .circularDependency ∧
    (makeImpl sampleParser "=A1".toList).map Impl.GetReferencedCells = some [A1] ∧
    ¬ (∃ q ∈ [A1], q = B1 ∨
      Relation.TransGen (references (runOps sampleParser callsLeavingStaleEdge State.empty))
        q B1) := by
  refine ⟨reachableNoClear_runOps _ .empty (by decide) (by decide), by decide, by decide,
    by decide, by decide, ?_⟩
  rintro ⟨q, hq, h⟩
  rw [List.mem_singleton] at hq
  subst hq
  rcases h with h | h
  · exact absurd h (by decide)
  · obtain ⟨b, a, refs, ha, hrefs, hb⟩ := transGen_first h
    have ha' : Sheet.GetCell A1 (runOps sampleParser callsLeavingStaleEdge State.empty)
        = .handle (some 0) := by decide
    rw [ha'] at ha
    simp only [Found.handle.injEq, Option.some.injEq] at ha
    subst ha
    have hr' : Cell.GetReferencedCells 0
        (runOps sampleParser callsLeavingStaleEdge State.empty) = some [] := by decide
    rw [hr'] at hrefs
    simp only [Option.some.injEq] at hrefs
    subst hrefs
    cases hb

/-! ## The traversal of the cycle check terminates -/

theorem pushUnvisited_eq (visited deps stack : List Addr) :
    pushUnvisited visited deps stack =
      (deps.filter (fun c => decide (c ∉ visited))).reverse ++ stack := by
  unfold pushUnvisited
  induction deps generalizing stack with
  | nil => rfl
  | cons d ds ih =>
    simp only [List.foldl_cons]
    rw [ih]
    by_cases hd : d ∈ visited
    · simp [hd, List.filter_cons]
    · simp [hd, List.filter_cons]

theorem unvisitedEdges_nil (h : List (Option Cell)) (i : Nat) :
    unvisitedEdges [] h i = (h.map degree).sum := by
  induction h generalizing i with
  | nil => rfl
  | cons e es ih => simp [unvisitedEdges, ih]

theorem edgeCount_eq (s : State) : edgeCount s = unvisitedEdges [] s.heap 0 := by
  rw [unvisitedEdges_nil]
  unfold edgeCount
  have : (fun e : Option Cell => match e with | some c => c.deps.length | none => 0) = degree := by
    funext e
    cases e <;> rfl
  rw [this]

theorem unvisitedEdges_of_lt {visited : List Addr} {curr : Nat} (h : List (Option Cell))
    (i : Nat) (hlt : curr < i) :
    unvisitedEdges (curr :: visited) h i = unvisitedEdges visited h i := by
  induction h generalizing i with
  | nil => rfl
  | cons e es ih =>
    simp only [unvisitedEdges]
    rw [ih (i + 1) (by omega)]
    have : (i ∈ curr :: visited) ↔ (i ∈ visited) := by
      simp only [List.mem_cons]
      constructor
      · rintro (h1 | h1)
        · omega
        · exact h1
      · exact Or.inr
    simp only [this]

theorem unvisitedEdges_of_mem {visited : List Addr} {curr : Nat} (hm : curr ∈ visited)
    (h : List (Option Cell)) (i : Nat) :
    unvisitedEdges (curr :: visited) h i = unvisitedEdges visited h i := by
  induction h generalizing i with
  | nil => rfl
  | cons e es ih =>
    simp only [unvisitedEdges]
    rw [ih (i + 1)]
    have : (i ∈ curr :: visited) ↔ (i ∈ visited) := by
      simp only [List.mem_cons]
      constructor
      · rintro (h1 | h1)
        · rw [h1]; exact hm
        · exact h1
      · exact Or.inr
    simp only [this]

theorem unvisitedEdges_cons {visited : List Addr} {curr : Nat} (hm : curr ∉ visited)
    (h : List (Option Cell)) (i : Nat) (hle : i ≤ curr) {e : Option Cell}
    (he : h[curr - i]? = some e) :
    unvisitedEdges (curr :: visited) h i + degree e = unvisitedEdges visited h i := by
  induction h generalizing i with
  | nil => simp at he
  | cons e0 es ih =>
    simp only [unvisitedEdges]
    by_cases hci : curr = i
    · subst hci
      simp only [Nat.sub_self, List.getElem?_cons_zero, Option.some.injEq] at he
      subst he
      rw [unvisitedEdges_of_lt es (curr + 1) (by omega)]
      simp only [List.mem_cons, true_or, if_true, hm, if_false]
      omega
    · have hlt : i < curr := by omega
      have he' : es[curr - (i + 1)]? = some e := by
        have : curr - i = (curr - (i + 1)) + 1 := by omega
        rw [this, List.getElem?_cons_succ] at he
        exact he
      have := ih (i + 1) (by omega) he'
      have hmem : (i ∈ curr :: visited) ↔ (i ∈ visited) := by
        simp only [List.mem_cons]
        constructor
        · rintro (h1 | h1)
          · omega
          · exact h1
        · exact Or.inr
      simp only [hmem]
      omega

theorem degree_of_deref {s : State} {a : Nat} {c : Cell} (h : s.deref a = some c) :
    s.heap[a - 0]? = some (some c) := by
  rw [deref_eq] at h
  simp only [Nat.sub_zero]
  cases hh : s.heap[a]? with
  | none => rw [hh] at h; cases h
  | some e =>
    rw [hh] at h
    cases e with
    | none => cases h
    | some c' => cases h; rfl

theorem stackInv_step {s : State} {curr : Addr} {rest visited : List Addr} {c : Cell}
    (hc : s.deref curr = some c) (hinv : StackInv s (curr :: rest) visited) :
    StackInv s (pushUnvisited (curr :: visited) c.deps rest) (curr :: visited) := by
  intro pre v post hsplit hv u hu
  rw [pushUnvisited_eq] at hsplit
  have hvF : v ∉ (c.deps.filter (fun x => decide (x ∉ curr :: visited))).reverse := by
    intro hin
    rw [List.mem_reverse, List.mem_filter] at hin
    simp only [decide_eq_true_eq] at hin
    exact hin.2 hv
  obtain ⟨pre', hpre, hrest⟩ : ∃ pre', pre =
      (c.deps.filter (fun x => decide (x ∉ curr :: visited))).reverse ++ pre' ∧
      rest = pre' ++ v :: post := by
    rcases List.append_eq_append_iff.1 hsplit with ⟨a', h1, h2⟩ | ⟨c', h1, h2⟩
    · exact ⟨a', h1, h2⟩
    · cases c' with
      | nil =>
        simp only [List.append_nil] at h1
        simp only [List.nil_append] at h2
        exact ⟨[], by rw [List.append_nil]; exact h1.symm, by rw [List.nil_append]; exact h2.symm⟩
      | cons x xs =>
        exfalso
        simp only [List.cons_append, List.cons.injEq] at h2
        apply hvF
        rw [h1, h2.1]
        simp
  by_cases hvc : v = curr
  · subst hvc
    rw [dependents_eq hc] at hu
    by_cases huv : u ∈ v :: visited
    · exact Or.inl huv
    · right
      rw [hpre]
      apply List.mem_append_left
      rw [List.mem_reverse, List.mem_filter]
      exact ⟨hu, by simpa using huv⟩
  · have hv' : v ∈ visited := by
      rcases List.mem_cons.1 hv with h | h
      · exact absurd h hvc
      · exact h
    have hold := hinv (curr :: pre') v post (by rw [hrest]; rfl) hv' u hu
    rcases hold with h | h
    · exact Or.inl (List.mem_cons_of_mem _ h)
    · rcases List.mem_cons.1 h with h | h
      · left; rw [h]; exact List.mem_cons_self _ _
      · right; rw [hpre]; exact List.mem_append_right _ h

/-- Each pass through the loop lowers the number of stack entries plus the number of edges
that leave unvisited cells; so the loop ends within that many passes. -/
theorem dfsLoop_terminates (s : State) (refs : List (Option Addr)) (n : Nat)
    (stack visited : List Addr) (hinv : StackInv s stack visited)
    (hn : stack.length + unvisitedEdges visited s.heap 0 < n) :
    dfsLoop s refs n stack visited ≠ .noTermination := by
  induction n generalizing stack visited with
  | zero => omega
  | succ n ih =>
    cases stack with
    | nil => simp [dfsLoop]
    | cons curr rest =>
      unfold dfsLoop
      split
      · simp
      · cases hc : s.deref curr with
        | none => simp
        | some c =>
          dsimp only
          apply ih _ _ (stackInv_step hc hinv)
          rw [pushUnvisited_eq, List.length_append, List.length_reverse]
          simp only [List.length_cons] at hn
          by_cases hv : curr ∈ visited
          · have hall : ∀ u ∈ c.deps, u ∈ visited := by
              intro u hu
              have := hinv [] curr rest rfl hv u (by rw [dependents_eq hc]; exact hu)
              simpa using this
            have hF : c.deps.filter (fun x => decide (x ∉ curr :: visited)) = [] := by
              rw [List.filter_eq_nil_iff]
              intro u hu
              simp only [decide_eq_true_eq, not_not]
              exact List.mem_cons_of_mem _ (hall u hu)
            rw [hF, unvisitedEdges_of_mem hv]
            simp only [List.length_nil]
            omega
          · have hle := List.length_filter_le (fun x => decide (x ∉ curr :: visited)) c.deps
            have hw := unvisitedEdges_cons hv s.heap 0 (Nat.zero_le _) (degree_of_deref hc)
            simp only [degree] at hw
            omega

theorem stackInv_init (s : State) (self : Addr) : StackInv s [self] [] := by
  intro pre v post _ hv
  cases hv

theorem checkCircular_terminates (self : Addr) (impl : Impl) (s : State) :
    Cell.CheckCircularDependendency self impl s ≠ .noTermination := by
  unfold Cell.CheckCircularDependendency
  split
  · simp
  · apply dfsLoop_terminates _ _ _ _ _ (stackInv_init s self)
    rw [← edgeCount_eq]
    simp only [List.length_singleton]
    omega


/-! ## The traversal finds every referenced cell it can reach -/

theorem dfsLoop_complete {s : State} {refs : List (Option Addr)} {start : Addr} (n : Nat)
    (stack visited : List Addr)
    (hv : ∀ v ∈ visited, some v ∉ refs)
    (hcl : ∀ v ∈ visited, ∀ u ∈ dependents s v, u ∈ visited ∨ u ∈ stack)
    (hst : start ∈ visited ∨ start ∈ stack)
    (h : dfsLoop s refs n stack visited = .ok) :
    ∀ c, Relation.ReflTransGen (depEdge s) start c → some c ∉ refs := by
  induction n generalizing stack visited with
  | zero => simp [dfsLoop] at h
  | succ n ih =>
    cases stack with
    | nil =>
      intro c hc
      apply hv
      induction hc with
      | refl => simpa using hst
      | tail _ hbc ihc => simpa using hcl _ ihc _ hbc
    | cons curr rest =>
      unfold dfsLoop at h
      by_cases hin : some curr ∈ refs
      · rw [if_pos hin] at h; cases h
      · rw [if_neg hin] at h
        cases hc : s.deref curr with
        | none => rw [hc] at h; cases h
        | some obj =>
          rw [hc] at h
          dsimp only at h
          apply ih _ _ _ _ _ h
          · intro v hv'
            rcases List.mem_cons.1 hv' with rfl | hv'
            · exact hin
            · exact hv v hv'
          · intro v hv' u hu
            rw [pushUnvisited_eq]
            by_cases huv : u ∈ curr :: visited
            · exact Or.inl huv
            · right
              rcases List.mem_cons.1 hv' with rfl | hv'
              · apply List.mem_append_left
                rw [List.mem_reverse, List.mem_filter]
                rw [dependents_eq hc] at hu
                exact ⟨hu, by simpa using huv⟩
              · rcases hcl v hv' u hu with h1 | h1
                · exact absurd (List.mem_cons_of_mem _ h1) huv
                · rcases List.mem_cons.1 h1 with h2 | h2
                  · exact absurd (by rw [h2]; exact List.mem_cons_self _ _) huv
                  · exact List.mem_append_right _ h2
          · rcases hst with h1 | h1
            · exact Or.inl (List.mem_cons_of_mem _ h1)
            · rcases List.mem_cons.1 h1 with h2 | h2
              · left; rw [h2]; exact List.mem_cons_self _ _
              · right; rw [pushUnvisited_eq]; exact List.mem_append_right _ h2

theorem dfsLoop_no_ub {s : State} {refs : List (Option Addr)} (hnd : NoDangling s) (n : Nat)
    (stack visited : List Addr) (hlive : ∀ x ∈ stack, ∃ c, s.deref x = some c) :
    dfsLoop s refs n stack visited ≠ .undefinedBehaviour := by
  induction n generalizing stack visited with
  | zero => simp [dfsLoop]
  | succ n ih =>
    cases stack with
    | nil => simp [dfsLoop]
    | cons curr rest =>
      unfold dfsLoop
      split
      · simp
      · obtain ⟨c, hc⟩ := hlive curr (List.mem_cons_self _ _)
        rw [hc]
        dsimp only
        apply ih
        intro x hx
        rcases mem_pushUnvisited hx with h1 | h1
        · exact hnd curr c hc x h1
        · exact hlive x (List.mem_cons_of_mem _ h1)

/-- With no dangling pointers the cycle check comes back: it returns or throws. -/
theorem checkCircular_returns {s : State} (hnd : NoDangling s) {self : Addr} {c : Cell}
    (hself : s.deref self = some c) (impl : Impl) :
    (Cell.CheckCircularDependendency self impl s).returns = true := by
  have h1 := checkCircular_terminates self impl s
  have h2 : Cell.CheckCircularDependendency self impl s ≠ .undefinedBehaviour := by
    unfold Cell.CheckCircularDependendency
    split
    · simp
    · apply dfsLoop_no_ub hnd
      intro x hx
      rw [List.mem_singleton] at hx
      rw [hx]; exact ⟨c, hself⟩
  cases h : Cell.CheckCircularDependendency self impl s <;> simp_all [Outcome.returns]

/-- A check that passes: no cell at a referenced position can be reached from the edited
cell along stored reverse-dependency edges. -/
theorem checkCircular_complete {self : Addr} {impl : Impl} {s : State}
    (h : Cell.CheckCircularDependendency self impl s = .ok) {q : Position}
    (hq : q ∈ impl.GetReferencedCells) {c : Addr}
    (hc : ptrAt s.cells q.row.toNat q.col.toNat = some c) :
    ¬ Relation.ReflTransGen (depEdge s) self c := by
  unfold Cell.CheckCircularDependendency at h
  cases hr : referencedCellsSet s impl.GetReferencedCells with
  | none => rw [hr] at h; cases h
  | some refs =>
    rw [hr] at h
    dsimp only at h
    intro hpath
    have hin := referencedCellsSet_mem hr hq
    rw [hc] at hin
    exact dfsLoop_complete _ [self] [] (fun v hv => by cases hv)
      (fun v hv => by cases hv) (Or.inr (List.mem_singleton_self _)) h c hpath hin

/-! ## Cache invalidation terminates on an acyclic graph -/

theorem nodup_length_le {l : List Nat} {L : Nat} (hnd : l.Nodup) (hlt : ∀ x ∈ l, x < L) :
    l.length ≤ L := by
  have h1 : l.toFinset ⊆ Finset.range L := by
    intro x hx
    rw [List.mem_toFinset] at hx
    exact Finset.mem_range.2 (hlt x hx)
  have h2 := Finset.card_le_card h1
  rw [List.toFinset_card_of_nodup hnd, Finset.card_range] at h2
  exact h2

theorem cacheInvalidateDepth_ok {s0 : State} (hwf : WF s0) (hnd : NoDangling s0)
    (hac : depAcyclic s0) (n : Nat) (anc : List Nat) (a : Nat) (s : State)
    (hco : CacheOnly s0 s) (hlive : ∃ c, s0.deref a = some c) (hanc : anc.Nodup)
    (hreach : ∀ x ∈ anc, x < s0.heap.length ∧ Relation.TransGen (depEdge s0) x a)
    (hn : s0.heap.length + 1 ≤ n + anc.length) :
    (Cell.CacheInvalidateDepth n a s).1 = .ok := by
  induction n generalizing anc a s with
  | zero =>
    have := nodup_length_le hanc (fun x hx => (hreach x hx).1)
    omega
  | succ n ih =>
    obtain ⟨c0, hc0⟩ := hlive
    obtain ⟨c, hc, hi, hd⟩ := cacheOnly_deref hco hc0
    obtain ⟨i0, j0, hown⟩ := hwf.owned a c0 hc0
    obtain ⟨c0', hc0', hne⟩ := hwf.live i0 j0 a hown
    rw [hc0] at hc0'
    cases hc0'
    unfold Cell.CacheInvalidateDepth
    rw [hc]
    dsimp only
    cases himpl : c.impl with
    | none =>
      exfalso
      rw [himpl] at hi
      cases h0 : c0.impl with
      | none => exact hne h0
      | some x => rw [h0] at hi; cases hi
    | some i =>
      dsimp only
      have key := foldl_andThen_ind (fun d t => Cell.CacheInvalidateDepth n d t)
        (fun r => r.1 = .ok ∧ CacheOnly s0 r.2) c.deps
        (.ok, s.store a { c with impl := some i.CacheInvalidate })
        ⟨rfl, cacheOnly_trans hco (cacheOnly_store hc (by simp [himpl, cacheInvalidate_idem]) rfl)⟩
        (by
          intro d t hdm ht
          have hdm0 : d ∈ c0.deps := by rw [← hd]; exact hdm
          have hedge : depEdge s0 a d := by
            unfold depEdge; rw [dependents_eq hc0]; exact hdm0
          refine ⟨ih (a :: anc) d t ht.2 (hnd a c0 hc0 d hdm0) ?_ ?_ ?_,
            cacheOnly_trans ht.2 (cacheInvalidateDepth_cacheOnly n d t)⟩
          · refine List.nodup_cons.2 ⟨?_, hanc⟩
            intro hmem
            exact hac a (hreach a hmem).2
          · intro x hx
            rcases List.mem_cons.1 hx with rfl | hx
            · exact ⟨deref_lt hc0, Relation.TransGen.single hedge⟩
            · exact ⟨(hreach x hx).1, Relation.TransGen.tail (hreach x hx).2 hedge⟩
          · simp only [List.length_cons]
            omega)
      exact key.1

theorem cacheInvalidate_ok {s : State} (hwf : WF s) (hnd : NoDangling s) (hac : depAcyclic s)
    {a : Nat} {c : Cell} (hlive : s.deref a = some c) : (Cell.CacheInvalidate a s).1 = .ok :=
  cacheInvalidateDepth_ok hwf hnd hac _ [] a s (cacheOnly_refl s) ⟨c, hlive⟩ List.nodup_nil
    (fun x hx => by cases hx) (by simp)


/-! ## Sound states -/

theorem depAcyclic_of_edges {s s' : State} (h : ∀ a d, depEdge s' a d → depEdge s a d)
    (hac : depAcyclic s) : depAcyclic s' :=
  fun a hcyc => hac a (Relation.TransGen.mono h hcyc)

theorem dependents_nil_of_dead {s : State} {a : Addr} (h : s.deref a = none) :
    dependents s a = [] := by
  unfold dependents; rw [h]

theorem live_of_mem_dependents {s : State} {a d : Addr} (h : d ∈ dependents s a) :
    ∃ c, s.deref a = some c := by
  cases hc : s.deref a with
  | none => rw [dependents_nil_of_dead hc] at h; cases h
  | some c => exact ⟨c, rfl⟩

theorem noDangling_iff (s : State) :
    NoDangling s ↔ ∀ a d, d ∈ dependents s a → ∃ cd, s.deref d = some cd := by
  constructor
  · intro h a d hd
    obtain ⟨c, hc⟩ := live_of_mem_dependents hd
    rw [dependents_eq hc] at hd
    exact h a c hc d hd
  · intro h a c hc d hd
    exact h a d (by rw [dependents_eq hc]; exact hd)

/-- A state with the same reverse-dependency sets and at least the same live cells. -/
theorem sound_of_same_dependents {s s' : State} (hs : Sound s) (hwf : WF s')
    (hdep : ∀ a, dependents s' a = dependents s a)
    (hlive : ∀ a c, s.deref a = some c → ∃ c', s'.deref a = some c') : Sound s' := by
  refine ⟨hwf, ?_, depAcyclic_of_edges (fun a d h => by
    unfold depEdge at h ⊢; rw [← hdep]; exact h) hs.acyclic⟩
  rw [noDangling_iff]
  intro a d hd
  rw [hdep] at hd
  obtain ⟨cd, hcd⟩ := (noDangling_iff s).1 hs.noDangling a d hd
  exact hlive d cd hcd

theorem prelude_dependents {s s2 : State} {pos : Position} {x : Addr}
    (hpre : Prelude s pos x s2) (a : Addr) : dependents s2 a = dependents s a := by
  cases h2 : s2.deref a with
  | none =>
    cases h1 : s.deref a with
    | none => rw [dependents_nil_of_dead h1, dependents_nil_of_dead h2]
    | some c => rw [hpre.deref a c h1] at h2; cases h2
  | some cb =>
    rcases hpre.only a cb h2 with h | h
    · rw [dependents_eq h2, dependents_eq h]
    · rw [dependents_eq h2, h]
      cases h1 : s.deref a with
      | none => rw [dependents_nil_of_dead h1]
      | some c =>
        have := hpre.deref a c h1
        rw [h2] at this
        cases this
        rw [dependents_eq h1, h]

theorem prelude_sound {s s2 : State} {pos : Position} {x : Addr} (hs : Sound s)
    (hpre : Prelude s pos x s2) : Sound s2 :=
  sound_of_same_dependents hs hpre.wf (prelude_dependents hpre)
    (fun a c hc => ⟨c, hpre.deref a c hc⟩)

theorem store_impl_sound {s : State} {self : Nat} {obj : Cell} (hs : Sound s)
    (hd : s.deref self = some obj) (temp : Impl) :
    Sound (s.store self { obj with impl := some temp }) := by
  refine sound_of_same_dependents hs (wf_store hs.wf hd (by simp))
    (fun a => dependents_store_impl hd _ a) ?_
  intro a c hc
  rw [deref_store s hd]
  split
  · exact ⟨_, rfl⟩
  · exact ⟨c, hc⟩

theorem cacheOnly_sound {s s' : State} (hs : Sound s) (h : CacheOnly s s') : Sound s' :=
  sound_of_same_dependents hs (cacheOnly_wf h hs.wf) (cacheOnly_dependents h)
    (fun a c hc => by
      obtain ⟨c', hc', _⟩ := cacheOnly_deref h hc
      exact ⟨c', hc'⟩)

theorem frame_sound {s s' : State} (hs : Sound s) (hc : s'.cells = s.cells)
    (hh : s'.heap = s.heap) : Sound s' :=
  sound_of_same_dependents hs (wf_of_frame hc hh hs.wf) (dependents_of_heap hh)
    (fun a c hac => ⟨c, by unfold State.deref at hac ⊢; rw [hh]; exact hac⟩)

theorem sound_empty : Sound State.empty := by
  refine ⟨wf_empty, ?_, ?_⟩
  · intro a c h
    simp [State.deref, State.empty] at h
  · intro a h
    obtain ⟨b, hb⟩ := transGen_first h
    unfold depEdge dependents at hb
    simp [State.deref, State.empty] at hb

/-! ## The nested `SetCell(pos, "")` -/

theorem dfsLoop_fresh {s : State} {self : Addr} {c : Cell} (hc : s.deref self = some c)
    (hd : c.deps = []) (n : Nat) : dfsLoop s [] (n + 2) [self] [] = .ok := by
  unfold dfsLoop
  simp only [List.not_mem_nil, if_false]
  rw [hc]
  simp only [hd, pushUnvisited, List.foldl_nil]
  unfold dfsLoop
  rfl

theorem cacheInvalidate_fresh {s : State} {self : Nat} {c : Cell} (hc : s.deref self = some c)
    (hd : c.deps = []) (hi : c.impl ≠ none) : (Cell.CacheInvalidate self s).1 = .ok := by
  unfold Cell.CacheInvalidate Cell.CacheInvalidateDepth
  rw [hc]
  dsimp only
  cases h : c.impl with
  | none => exact absurd h hi
  | some i => simp [hd]

theorem cellSet_nil_fresh (P : Parser) (inner : Position → State → Outcome × State)
    {s : State} {self : Nat} (hc : s.deref self = some ⟨some .empty, []⟩) :
    (cellSet P inner self [] s).1 = .ok ∧
    CacheOnly s (cellSet P inner self [] s).2 := by
  have hcheck : Cell.CheckCircularDependendency self .empty s = .ok := by
    show dfsLoop s [] (edgeCount s + 2) [self] [] = .ok
    exact dfsLoop_fresh hc rfl _
  have hstore : CacheOnly s (s.store self ⟨some .empty, []⟩) := cacheOnly_store hc rfl rfl
  have heq : cellSet P inner self [] s =
      Cell.CacheInvalidate self (s.store self ⟨some .empty, []⟩) := by
    unfold cellSet
    simp only [makeImpl_nil, hcheck, hc]
    rfl
  rw [heq]
  exact ⟨cacheInvalidate_fresh (deref_store_self hc _) rfl (by simp),
    cacheOnly_trans hstore (cacheInvalidate_cacheOnly _ _)⟩

theorem update_s_ok (pos : Position) (s : State) :
    (Sheet.UpdatePrintableSize pos 's' s).1 = .ok := by
  unfold Sheet.UpdatePrintableSize
  simp

/-- The nested call, made at a valid position that holds no cell, returns normally and
leaves every reverse-dependency set as it was. -/
theorem setCellDepth_nil_absent (P : Parser) (d : Nat) {t : State} (hwf : WF t)
    {q : Position} (hv : q.IsValid = true)
    (hnone : ptrAt t.cells q.row.toNat q.col.toNat = none) :
    (Sheet.SetCellDepth P (d + 1) q [] t).1 = .ok ∧
    (∀ a, dependents (Sheet.SetCellDepth P (d + 1) q [] t).2 a = dependents t a) ∧
    ∃ b, ptrAt (Sheet.SetCellDepth P (d + 1) q [] t).2.cells q.row.toNat q.col.toNat
      = some b := by
  simp only [Sheet.SetCellDepth]
  obtain ⟨self, s2, hpre, heq⟩ := sheetSetCell_prelude' hwf hv
  rw [heq]
  obtain ⟨hok, hco⟩ := cellSet_nil_fresh P (fun p t => Sheet.SetCellDepth P d p [] t)
    (hpre.new hnone).2
  rw [andThen_of_ok _ hok]
  have hfr := updatePrintableSize_frame q 's'
    (cellSet P (fun p t => Sheet.SetCellDepth P d p [] t) self [] s2).2
  refine ⟨update_s_ok _ _, fun a => ?_, self, ?_⟩
  · rw [dependents_of_heap hfr.2, cacheOnly_dependents hco, prelude_dependents hpre]
  · rw [hfr.1, hco.cells]; exact hpre.here


/-! ## Edges added by `Cell::Set` -/

theorem addDependent_ok {s : State} {c : Nat} {obj : Cell} (hc : s.deref c = some obj)
    (self : Addr) : (addDependent c self s).1 = .ok := by
  unfold addDependent; rw [hc]

theorem addDependent_dependents {s : State} {c : Nat} {obj : Cell} (hc : s.deref c = some obj)
    (self : Addr) (a : Nat) {d : Addr} (hd : d ∈ dependents (addDependent c self s).2 a) :
    d ∈ dependents s a ∨ (a = c ∧ d = self) := by
  unfold addDependent at hd
  rw [hc] at hd
  dsimp only at hd
  unfold dependents at hd ⊢
  rw [deref_store s hc] at hd
  by_cases hca : c = a
  · subst hca
    rw [if_pos rfl] at hd
    dsimp only at hd
    rw [hc]
    dsimp only
    rcases List.mem_insert_iff.1 hd with h | h
    · exact Or.inr ⟨rfl, h⟩
    · exact Or.inl h
  · rw [if_neg hca] at hd
    exact Or.inl hd

theorem edgesTracked_refl (self : Addr) (R : List Position) (s : State) :
    EdgesTracked self R s s := fun _ _ h => Or.inl h

theorem edgesTracked_of_same {self : Addr} {R : List Position} {s3 t t1 : State}
    (htr : EdgesTracked self R s3 t) (hext : Ext t t1)
    (hdep : ∀ a, dependents t1 a = dependents t a) : EdgesTracked self R s3 t1 := by
  intro a d hd
  rw [hdep] at hd
  rcases htr a d hd with h | ⟨h1, q, hq, hp⟩
  · exact Or.inl h
  · exact Or.inr ⟨h1, q, hq, hext.keep _ _ _ hp⟩

theorem addDependent_tracked {self : Addr} {R : List Position} {s3 t : State} (hwf : WF t)
    {q : Position} (hq : q ∈ R) {c : Addr}
    (hp : ptrAt t.cells q.row.toNat q.col.toNat = some c)
    (htr : EdgesTracked self R s3 t) :
    (addDependent c self t).1 = .ok ∧ EdgesTracked self R s3 (addDependent c self t).2 := by
  obtain ⟨obj, hobj, _⟩ := hwf.live _ _ c hp
  refine ⟨addDependent_ok hobj self, ?_⟩
  intro a d hd
  have hext := addDependent_ext c self t
  rcases addDependent_dependents hobj self a hd with h | ⟨h1, h2⟩
  · rcases htr a d h with h' | ⟨h1, q', hq', hp'⟩
    · exact Or.inl h'
    · exact Or.inr ⟨h1, q', hq', hext.keep _ _ _ hp'⟩
  · subst h1
    exact Or.inr ⟨h2, q, hq, hext.keep _ _ _ hp⟩

theorem linkStep_tracked (P : Parser) (self : Addr) (R : List Position) {s3 t : State}
    {q : Position} (hq : q ∈ R) (hv : q.IsValid = true) (hwf : WF t)
    (htr : EdgesTracked self R s3 t) :
    (linkStep (fun p t => Sheet.SetCellDepth P 1 p [] t) self q t).1 = .ok ∧
    EdgesTracked self R s3 (linkStep (fun p t => Sheet.SetCellDepth P 1 p [] t) self q t).2 := by
  unfold linkStep
  rw [getConcreteCell_eq hv t]
  cases hp : ptrAt t.cells q.row.toNat q.col.toNat with
  | some c => exact addDependent_tracked hwf hq hp htr
  | none =>
    obtain ⟨hok, hdep, b, hb⟩ := setCellDepth_nil_absent P 0 hwf hv hp
    obtain ⟨hwf1, hext1⟩ := cellSet_innerSpec P q t hwf hv hp
    rw [andThen_of_ok _ hok]
    dsimp only
    rw [getConcreteCell_eq hv, hb]
    exact addDependent_tracked hwf1 hq hb (edgesTracked_of_same htr hext1 hdep)

theorem linkReferenced_tracked (P : Parser) (self : Addr) (R : List Position) {s3 : State}
    (l : List Position) (hl : ∀ q ∈ l, q ∈ R ∧ q.IsValid = true) {t : State} (hwf : WF t)
    (htr : EdgesTracked self R s3 t) :
    (linkReferenced (fun p t => Sheet.SetCellDepth P 1 p [] t) self l t).1 = .ok ∧
    EdgesTracked self R s3
      (linkReferenced (fun p t => Sheet.SetCellDepth P 1 p [] t) self l t).2 := by
  induction l generalizing t with
  | nil => exact ⟨rfl, htr⟩
  | cons p ps ih =>
    unfold linkReferenced
    obtain ⟨hok, htr1⟩ := linkStep_tracked P self R (hl p (List.mem_cons_self _ _)).1
      (hl p (List.mem_cons_self _ _)).2 hwf htr
    obtain ⟨hwf1, _, _⟩ := linkStep_spec (cellSet_innerSpec P) self p hwf
    rw [andThen_of_ok _ hok]
    exact ih (fun q hq => hl q (List.mem_cons_of_mem _ hq)) hwf1 htr1

/-! ## Adding edges towards one node keeps a graph acyclic -/

theorem transGen_last_new {α : Type} {G G' : α → α → Prop} {t : α} {A : α → Prop}
    (hsub : ∀ x y, G' x y → G x y ∨ (y = t ∧ A x)) {x y : α}
    (h : Relation.TransGen G' x y) :
    Relation.TransGen G x y ∨ Relation.ReflTransGen G t y := by
  induction h with
  | single hxy =>
    rcases hsub _ _ hxy with h | ⟨h1, _⟩
    · exact Or.inl (Relation.TransGen.single h)
    · right; rw [h1]
  | tail _ hzy ih =>
    rcases hsub _ _ hzy with h | ⟨h1, _⟩
    · rcases ih with h1 | h1
      · exact Or.inl (Relation.TransGen.tail h1 h)
      · exact Or.inr (Relation.ReflTransGen.tail h1 h)
    · right; rw [h1]

theorem transGen_first_new {α : Type} {G G' : α → α → Prop} {t : α} {A : α → Prop}
    (hsub : ∀ x y, G' x y → G x y ∨ (y = t ∧ A x)) {x y : α}
    (h : Relation.TransGen G' x y) :
    Relation.TransGen G x y ∨ ∃ a, A a ∧ Relation.ReflTransGen G x a := by
  induction h using Relation.TransGen.head_induction_on with
  | base hxy =>
    rcases hsub _ _ hxy with h | ⟨_, h2⟩
    · exact Or.inl (Relation.TransGen.single h)
    · exact Or.inr ⟨_, h2, Relation.ReflTransGen.refl⟩
  | ih hab _ ih =>
    rcases hsub _ _ hab with h | ⟨_, h2⟩
    · rcases ih with h1 | ⟨a', hA, h1⟩
      · exact Or.inl (Relation.TransGen.head h h1)
      · exact Or.inr ⟨a', hA, Relation.ReflTransGen.head h h1⟩
    · exact Or.inr ⟨_, h2, Relation.ReflTransGen.refl⟩

theorem acyclic_add_edges_into {α : Type} {G G' : α → α → Prop} {t : α} {A : α → Prop}
    (hG : ∀ x, ¬ Relation.TransGen G x x)
    (hsub : ∀ x y, G' x y → G x y ∨ (y = t ∧ A x))
    (hA : ∀ a, A a → ¬ Relation.ReflTransGen G t a) :
    ∀ x, ¬ Relation.TransGen G' x x := by
  intro x hcyc
  rcases transGen_last_new hsub hcyc with h | h
  · exact hG x h
  · rcases transGen_first_new hsub hcyc with h' | ⟨a, ha, h'⟩
    · exact hG x h'
    · exact hA a ha (h.trans h')


/-! ## `SetCell` keeps states sound and comes back -/

theorem link_sound (P : Parser) {self : Nat} {temp : Impl} {s2 : State} {obj : Cell}
    (hs2 : Sound s2) (hd : s2.deref self = some obj)
    (hc : Cell.CheckCircularDependendency self temp s2 = .ok) :
    (linkReferenced (fun p t => Sheet.SetCellDepth P 1 p [] t) self temp.GetReferencedCells
      (s2.store self { obj with impl := some temp })).1 = .ok ∧
    Sound (linkReferenced (fun p t => Sheet.SetCellDepth P 1 p [] t) self
      temp.GetReferencedCells (s2.store self { obj with impl := some temp })).2 ∧
    ∃ c, (linkReferenced (fun p t => Sheet.SetCellDepth P 1 p [] t) self
      temp.GetReferencedCells (s2.store self { obj with impl := some temp })).2.deref self
        = some c := by
  have hs3 : Sound (s2.store self { obj with impl := some temp }) := store_impl_sound hs2 hd temp
  have hself3 : (s2.store self { obj with impl := some temp }).deref self =
      some { obj with impl := some temp } := deref_store_self hd _
  obtain ⟨hok, htr⟩ := linkReferenced_tracked P self temp.GetReferencedCells
    temp.GetReferencedCells (fun q hq => ⟨hq, checkCircular_ok_valid hc q hq⟩) hs3.wf
    (edgesTracked_refl _ _ _)
  obtain ⟨hwf4, hext, _⟩ := linkReferenced_spec (cellSet_innerSpec P) self
    temp.GetReferencedCells hs3.wf
  obtain ⟨c4, hc4, _, _⟩ := hext.cell self _ hself3
  refine ⟨hok, ⟨hwf4, ?_, ?_⟩, c4, hc4⟩
  · rw [noDangling_iff]
    intro a d hd4
    rcases htr a d hd4 with h | ⟨h, _⟩
    · obtain ⟨cd, hcd⟩ := (noDangling_iff _).1 hs3.noDangling a d h
      obtain ⟨cd', hcd', _, _⟩ := hext.cell d cd hcd
      exact ⟨cd', hcd'⟩
    · rw [h]; exact ⟨c4, hc4⟩
  · apply acyclic_add_edges_into hs3.acyclic htr
    rintro a ⟨q, hq, hp4⟩ hpath
    rcases hext.fresh _ _ a hp4 with hp3 | ⟨hdead, _⟩
    · rw [store_cells] at hp3
      refine checkCircular_complete hc hq hp3 (Relation.ReflTransGen.mono ?_ hpath)
      intro x y hxy
      unfold depEdge at hxy ⊢
      rw [dependents_store_impl hd] at hxy
      exact hxy
    · rcases Relation.ReflTransGen.cases_tail hpath with h | ⟨z, _, hz⟩
      · rw [h, hself3] at hdead; cases hdead
      · obtain ⟨ca, hca⟩ := (noDangling_iff _).1 hs3.noDangling z a hz
        rw [hca] at hdead; cases hdead

theorem returns_of_ok {o : Outcome} (h : o = .ok) : o.returns = true := by
  rw [h]; rfl

theorem cellSet_call_sound (P : Parser) {s2 : State} (hs2 : Sound s2) {self : Nat} {c : Cell}
    (hself : s2.deref self = some c) (text : Str) :
    (Cell.Set P self text s2).1.returns = true ∧ Sound (Cell.Set P self text s2).2 := by
  unfold Cell.Set cellSet
  cases hm : makeImpl P text with
  | none => exact ⟨rfl, hs2⟩
  | some temp =>
    dsimp only
    have hret := checkCircular_returns hs2.noDangling hself temp
    cases hc : Cell.CheckCircularDependendency self temp s2 <;> rw [hc] at hret <;>
      dsimp only <;> try exact ⟨rfl, hs2⟩
    · rw [hself]
      dsimp only
      obtain ⟨hok, hs4, c4, hc4⟩ := link_sound P hs2 hself hc
      rw [andThen_of_ok _ hok]
      exact ⟨returns_of_ok (cacheInvalidate_ok hs4.wf hs4.noDangling hs4.acyclic hc4),
        cacheOnly_sound hs4 (cacheInvalidate_cacheOnly _ _)⟩
    · cases hret
    · cases hret

/-- From a sound state, `SetCell` comes back to its caller (it returns or throws one of the
three exceptions) and leaves a sound state. -/
theorem setCell_sound (P : Parser) {s : State} (hs : Sound s) (pos : Position) (text : Str) :
    (Sheet.SetCell P pos text s).1.returns = true ∧ Sound (Sheet.SetCell P pos text s).2 := by
  rw [setCell_eq]
  cases hv : pos.IsValid with
  | false => rw [sheetSetCell_invalid _ hv]; exact ⟨rfl, hs⟩
  | true =>
    obtain ⟨self, s2, hpre, heq⟩ := sheetSetCell_prelude' hs.wf hv
    rw [heq]
    obtain ⟨c, hc, _⟩ := hpre.wf.live _ _ self hpre.here
    obtain ⟨hret, hsound⟩ := cellSet_call_sound P (prelude_sound hs hpre) hc text
    rcases andThen_cases (Cell.Set P self text s2) (Sheet.UpdatePrintableSize pos 's') with
      ⟨_, h2⟩ | ⟨_, h2⟩ <;> rw [h2]
    · have hfr := updatePrintableSize_frame pos 's' (Cell.Set P self text s2).2
      exact ⟨returns_of_ok (update_s_ok _ _), frame_sound hsound hfr.1 hfr.2⟩
    · exact ⟨hret, hsound⟩

theorem reachableNoClear_sound {P : Parser} {s : State} (h : ReachableNoClear P s) :
    Sound s := by
  induction h with
  | empty => exact sound_empty
  | step op _ ha _ ih =>
    cases op with
    | setCell pos text => exact (setCell_sound P ih pos text).2
    | clearCell pos => simp [Op.isClear] at ha
    | getValue pos => exact cacheOnly_sound ih (getValue_run_cacheOnly P pos _)

/-- In a state reached without `ClearCell`, every `SetCell` comes back to its caller. -/
theorem setCell_returns (P : Parser) {s : State} (h : ReachableNoClear P s) (pos : Position)
    (text : Str) : (Sheet.SetCell P pos text s).1.returns = true :=
  (setCell_sound P (reachableNoClear_sound h) pos text).1

theorem makeImpl_plain_refs (P : Parser) {t : Str} {temp : Impl}
    (hplain : t = [] ∨ t.head? ≠ some FORMULA_SIGN ∨ t = [FORMULA_SIGN])
    (hm : makeImpl P t = some temp) : temp.GetReferencedCells = [] := by
  rw [makeImpl_plain P t hplain] at hm
  simp only [Option.some.injEq] at hm
  rw [← hm]
  split <;> rfl

theorem cellSet_plain_throws (P : Parser) (inner : Position → State → Outcome × State)
    {t : Str} (hplain : t = [] ∨ t.head? ≠ some FORMULA_SIGN ∨ t = [FORMULA_SIGN])
    (self : Addr) (s : State) : (cellSet P inner self t s).1.throws = false := by
  unfold cellSet
  cases hm : makeImpl P t with
  | none => rw [makeImpl_plain P t hplain] at hm; cases hm
  | some temp =>
    dsimp only
    have hrefs := makeImpl_plain_refs P hplain hm
    have hc : Cell.CheckCircularDependendency self temp s =
        dfsLoop s [] (edgeCount s + 2) [self] [] := by
      unfold Cell.CheckCircularDependendency
      rw [hrefs]
      rfl
    rw [hc, hrefs]
    split
    · split
      · rfl
      · exact andThen_throws rfl (fun t => cacheInvalidate_throws self t)
    · exact (dfsLoop_nil s _ _ _).2

/-- A plain text never makes `SetCell` throw at a valid position. -/
theorem setCell_plain_throws (P : Parser) {t : Str}
    (hplain : t = [] ∨ t.head? ≠ some FORMULA_SIGN ∨ t = [FORMULA_SIGN])
    {pos : Position} (hv : pos.IsValid = true) (s : State) :
    (Sheet.SetCell P pos t s).1.throws = false := by
  rw [setCell_eq]
  exact sheetSetCell_throws (fun a u => cellSet_plain_throws P _ hplain a u) pos s hv

theorem ok_of_returns_not_throws {o : Outcome} (h1 : o.returns = true)
    (h2 : o.throws = false) : o = .ok := by
  cases o <;> simp [Outcome.returns, Outcome.throws] at h1 h2 ⊢


/-! ## Plain texts -/

/-- Plain texts where `SetCell` returns: in a reachable state, at a valid position, for a
text that is empty, does not start with the formula sign, or is that sign alone, `SetCell`
does not throw; if the state was reached without `ClearCell` it returns normally; and
whenever it returns normally,
`GetCell` gives a cell whose `GetText` is the text unmodified and whose `GetValue` is the
text without its first character if that is the escape sign, and the text itself
otherwise. -/
theorem setCell_plain_roundtrip (P : Parser) {s : State} (hr : Reachable P s) (p : Position)
    (hv : p.IsValid = true) (t : Str)
    (hplain : t = [] ∨ t.head? ≠ some FORMULA_SIGN ∨ t = [FORMULA_SIGN]) :
    (Sheet.SetCell P p t s).1.throws = false ∧
    (ReachableNoClear P s → (Sheet.SetCell P p t s).1 = .ok) ∧
    ((Sheet.SetCell P p t s).1 = .ok →
      ∃ a, Sheet.GetCell p (Sheet.SetCell P p t s).2 = .handle (some a) ∧
        Cell.GetText a (Sheet.SetCell P p t s).2 = some t ∧
        (Cell.GetValue a (Sheet.SetCell P p t s).2).map Prod.fst =
          some (.str (if t.head? = some ESCAPE_SIGN then t.tail else t))) := by
  have hth := setCell_plain_throws P hplain hv s
  refine ⟨hth, fun hnc => ok_of_returns_not_throws (setCell_returns P hnc p t) hth,
    fun hok => ?_⟩
  obtain ⟨_, self, s2, temp, obj, hpre, hm, _, hd, _, hext, _⟩ :=
    setCell_ok_spec P (reachableVia_wf hr) hok
  obtain ⟨hat, c', hc', hi, _⟩ := setCell_ok_self hpre hd hext
  rw [makeImpl_plain P t hplain] at hm
  refine ⟨self, by rw [getCell_eq hv, hat], ?_⟩
  by_cases ht : t = []
  · subst ht
    simp only [if_true, Option.some.injEq] at hm
    subst hm
    have hi' := cacheInvalidate_eq_empty hi
    refine ⟨?_, ?_⟩
    · rw [getText_eq hc', hi']; rfl
    · rw [getValue_empty hc' hi']; rfl
  · simp only [ht, if_false, Option.some.injEq] at hm
    subst hm
    have hi' := cacheInvalidate_eq_text hi
    refine ⟨?_, getValue_text hc' hi' ht⟩
    rw [getText_eq hc', hi']; rfl

/-- On the empty sheet `SetCell(A1, "'=not a formula")` returns, the text at A1 is
"'=not a formula" and the value is "=not a formula". -/
theorem setCell_plain_roundtrip_empty_sheet :
    (Sheet.SetCell sampleParser A1 "'=not a formula".toList State.empty).1 = .ok ∧
    ∃ a, Sheet.GetCell A1 (Sheet.SetCell sampleParser A1 "'=not a formula".toList State.empty).2
        = .handle (some a) ∧
      Cell.GetText a (Sheet.SetCell sampleParser A1 "'=not a formula".toList State.empty).2
        = some "'=not a formula".toList ∧
      (Cell.GetValue a (Sheet.SetCell sampleParser A1 "'=not a formula".toList
        State.empty).2).map Prod.fst = some (.str "=not a formula".toList) :=
  have h := setCell_plain_roundtrip sampleParser .empty A1 (by decide)
    "'=not a formula".toList (by decide)
  ⟨h.2.1 .empty, h.2.2 (h.2.1 .empty)⟩


/-! ## The unrolling of the nested `SetCell` is deep enough -/

theorem cellSet_nil_inner (P : Parser) (inner inner' : Position → State → Outcome × State)
    (self : Addr) (s : State) : cellSet P inner self [] s = cellSet P inner' self [] s := by
  unfold cellSet
  simp only [makeImpl_nil]
  rfl

theorem sheetSetCell_congr {set set' : Addr → Str → State → Outcome × State} {text : Str}
    (h : ∀ a t, set a text t = set' a text t) (pos : Position) (s : State) :
    sheetSetCell set pos text s = sheetSetCell set' pos text s := by
  unfold sheetSetCell
  split
  · dsimp only
    split
    · rfl
    · rw [h]
    · rw [h]
  · rfl

theorem setCellDepth_nil_succ (P : Parser) (d : Nat) (pos : Position) (s : State) :
    Sheet.SetCellDepth P (d + 1) pos [] s = Sheet.SetCellDepth P 1 pos [] s := by
  show sheetSetCell (cellSet P (fun p t => Sheet.SetCellDepth P d p [] t)) pos [] s =
    sheetSetCell (cellSet P (fun p t => Sheet.SetCellDepth P 0 p [] t)) pos [] s
  exact sheetSetCell_congr (fun a t => cellSet_nil_inner P _ _ a t) pos s

/-- Unrolling the recursion of `Sheet::SetCell` and `Cell::Set` further than two levels
changes nothing: the third level is never entered. -/
theorem setCellDepth_stable (P : Parser) (d : Nat) (pos : Position) (text : Str) (s : State) :
    Sheet.SetCellDepth P (d + 2) pos text s = Sheet.SetCell P pos text s := by
  show sheetSetCell (cellSet P (fun p t => Sheet.SetCellDepth P (d + 1) p [] t)) pos text s =
    sheetSetCell (cellSet P (fun p t => Sheet.SetCellDepth P 1 p [] t)) pos text s
  have : (fun p t => Sheet.SetCellDepth P (d + 1) p [] t) =
      (fun p t => Sheet.SetCellDepth P 1 p [] t) := by
    funext p t
    exact setCellDepth_nil_succ P d p t
  rw [this]


/-! ## Storage and printable area along `SetCell` -/

theorem shape_of_frame {s s' : State} (hc : s'.cells = s.cells)
    (hp : s'.printable = s.printable) : Shape s s' := by
  refine ⟨by rw [hc], by rw [hc], by rw [hp], by rw [hp], ?_, ?_, ?_, ?_, ?_⟩
  · intro i j a h; rw [hc]; exact h
  · intro h; unfold Bounded at *; rw [hc, hp]; exact h
  · intro h; rw [hc, hp]; exact h
  · intro h; rw [hc, hp]; exact h
  · intro i j a h1 h2; rw [hc, h2] at h1; cases h1

theorem shape_refl (s : State) : Shape s s := shape_of_frame rfl rfl

theorem shape_trans {s t u : State} (h1 : Shape s t) (h2 : Shape t u) : Shape s u := by
  refine ⟨Nat.le_trans h1.rows h2.rows, Nat.le_trans h1.cols h2.cols,
    Nat.le_trans h1.prows h2.prows, Nat.le_trans h1.pcols h2.pcols, ?_,
    fun h => h2.bounded (h1.bounded h), fun h => h2.lastRow (h1.lastRow h),
    fun h => h2.lastCol (h1.lastCol h), ?_⟩
  · intro i j a h; exact h2.keep _ _ _ (h1.keep _ _ _ h)
  · intro i j a hu hs
    cases ht : ptrAt t.cells i j with
    | none => exact h2.covers i j a hu ht
    | some b =>
      have h3 := h1.covers i j b ht hs
      exact ⟨Nat.lt_of_lt_of_le h3.1 h2.prows, Nat.lt_of_lt_of_le h3.2 h2.pcols⟩

theorem cacheOnly_shape {s s' : State} (h : CacheOnly s s') : Shape s s' :=
  shape_of_frame h.cells h.printable

theorem store_shape (s : State) (a : Addr) (c : Cell) : Shape s (s.store a c) :=
  shape_of_frame rfl rfl

theorem addDependent_shape (c self : Addr) (s : State) : Shape s (addDependent c self s).2 := by
  unfold addDependent
  split
  · exact shape_refl s
  · exact store_shape _ _ _

theorem update_s_eq {pos : Position} (hv : pos.IsValid = true) (s : State) :
    Sheet.UpdatePrintableSize pos 's' s = (.ok, { s with printable :=
      ⟨max s.printable.rows (pos.row.toNat + 1), max s.printable.cols (pos.col.toNat + 1)⟩ }) := by
  obtain ⟨h1, h2, _, _⟩ := (isValid_iff pos).1 hv
  unfold Sheet.UpdatePrintableSize
  simp only [if_true]
  have e1 : (if (s.printable.rows : Int) < pos.row + 1 then (pos.row + 1).toNat
      else s.printable.rows) = max s.printable.rows (pos.row.toNat + 1) := by
    split <;> omega
  have e2 : (if (s.printable.cols : Int) < pos.col + 1 then (pos.col + 1).toNat
      else s.printable.cols) = max s.printable.cols (pos.col.toNat + 1) := by
    split <;> omega
  rw [e1, e2]

theorem prelude_update_shape {s s2 s3 : State} {pos : Position} {x : Addr}
    (hv : pos.IsValid = true) (hpre : Prelude s pos x s2) (hsh : Shape s2 s3) :
    Shape s (Sheet.UpdatePrintableSize pos 's' s3).2 ∧
    pos.row.toNat < (Sheet.UpdatePrintableSize pos 's' s3).2.printable.rows ∧
    pos.col.toNat < (Sheet.UpdatePrintableSize pos 's' s3).2.printable.cols := by
  rw [update_s_eq hv]
  dsimp only
  have hhere := hsh.keep _ _ _ hpre.here
  have hpr := hsh.prows
  have hpc := hsh.pcols
  rw [hpre.printable] at hpr hpc
  refine ⟨⟨Nat.le_trans hpre.rows hsh.rows, Nat.le_trans hpre.cols hsh.cols, ?_, ?_, ?_, ?_, ?_,
    ?_, ?_⟩, ?_, ?_⟩
  · dsimp only; omega
  · dsimp only; omega
  · intro i j a h
    exact hsh.keep _ _ _ (hpre.ext.keep _ _ _ h)
  · intro hb
    have hb2 : Bounded s2 := by
      unfold Bounded at *
      rw [hpre.printable]
      exact ⟨Nat.le_trans hb.1 hpre.rows, Nat.le_trans hb.2 hpre.cols⟩
    have hb3 := hsh.bounded hb2
    have hr := hsh.rows
    have hc := hsh.cols
    have hin := hpre.inRange
    unfold Bounded at *
    dsimp only
    omega
  · intro hl
    have hl2 : LastRow s2.cells s2.printable := by
      intro h0
      rw [hpre.printable] at h0 ⊢
      obtain ⟨j, a, ha⟩ := hl h0
      exact ⟨j, a, hpre.ext.keep _ _ _ ha⟩
    have hl3 := hsh.lastRow hl2
    intro h0
    dsimp only at h0 ⊢
    by_cases hle : pos.row.toNat + 1 ≤ s3.printable.rows
    · rw [max_eq_left hle]
      exact hl3 (by omega)
    · rw [max_eq_right (by omega)]
      exact ⟨pos.col.toNat, x, hhere⟩
  · intro hl
    have hl2 : LastCol s2.cells s2.printable := by
      intro h0
      rw [hpre.printable] at h0 ⊢
      obtain ⟨j, a, ha⟩ := hl h0
      exact ⟨j, a, hpre.ext.keep _ _ _ ha⟩
    have hl3 := hsh.lastCol hl2
    intro h0
    dsimp only at h0 ⊢
    by_cases hle : pos.col.toNat + 1 ≤ s3.printable.cols
    · rw [max_eq_left hle]
      exact hl3 (by omega)
    · rw [max_eq_right (by omega)]
      exact ⟨pos.row.toNat, x, hhere⟩
  · intro i j a h3 h0
    dsimp only at h3 ⊢
    by_cases hij : pos.row.toNat = i ∧ pos.col.toNat = j
    · omega
    · have h2 : ptrAt s2.cells i j = none := by rw [hpre.others i j hij]; exact h0
      have := hsh.covers i j a h3 h2
      omega
  · omega
  · omega

theorem setCellDepth_innerShape (P : Parser) (d : Nat) :
    InnerShape (fun p t => Sheet.SetCellDepth P d p [] t) := by
  cases d with
  | zero => intro q t _ _ _; exact shape_refl t
  | succ d =>
    intro q t hwf hv hnone
    simp only [Sheet.SetCellDepth]
    obtain ⟨self, s2, hpre, heq⟩ := sheetSetCell_prelude' hwf hv
    rw [heq]
    obtain ⟨hok, hco⟩ := cellSet_nil_fresh P (fun p t => Sheet.SetCellDepth P d p [] t)
      (hpre.new hnone).2
    rw [andThen_of_ok _ hok]
    exact (prelude_update_shape hv hpre (cacheOnly_shape hco)).1

theorem linkStep_shape {inner : Position → State → Outcome × State} (hsh : InnerShape inner)
    (self : Addr) (q : Position) {t : State} (hwf : WF t) :
    Shape t (linkStep inner self q t).2 := by
  unfold linkStep
  cases hv : q.IsValid with
  | false =>
    rw [(getConcreteCell_throws_iff q t).2 hv]
    exact shape_refl t
  | true =>
    rw [getConcreteCell_eq hv t]
    cases hp : ptrAt t.cells q.row.toNat q.col.toNat with
    | some c => exact addDependent_shape c self t
    | none =>
      have h0 := hsh q t hwf hv hp
      rcases andThen_cases (inner q t) (fun s1 =>
          match Sheet.GetConcreteCell q s1 with
          | .throwsInvalidPosition => (.invalidPosition, s1)
          | .handle (some c) => addDependent c self s1
          | .handle none => (.undefinedBehaviour, s1)) with ⟨_, h2⟩ | ⟨_, h2⟩
      · rw [h2]
        simp only
        rw [getConcreteCell_eq hv]
        cases hp1 : ptrAt (inner q t).2.cells q.row.toNat q.col.toNat with
        | some c =>
          simp only
          exact shape_trans h0 (addDependent_shape c self _)
        | none =>
          simp only
          exact h0
      · rw [h2]
        exact h0

theorem linkReferenced_shape {inner : Position → State → Outcome × State}
    (hin : InnerSpec inner) (hsh : InnerShape inner) (self : Addr) (l : List Position)
    {t : State} (hwf : WF t) : Shape t (linkReferenced inner self l t).2 := by
  induction l generalizing t with
  | nil => exact shape_refl t
  | cons p ps ih =>
    unfold linkReferenced
    have h1 := linkStep_shape hsh self p hwf
    rcases andThen_cases (linkStep inner self p t) (linkReferenced inner self ps) with
      ⟨_, h2⟩ | ⟨_, h2⟩
    · rw [h2]
      exact shape_trans h1 (ih (linkStep_spec hin self p hwf).1)
    · rw [h2]
      exact h1

theorem cellSet_shape {P : Parser} {inner : Position → State → Outcome × State}
    (hin : InnerSpec inner) (hsh : InnerShape inner) {s : State} (hwf : WF s) (self : Addr)
    (text : Str) : Shape s (cellSet P inner self text s).2 := by
  unfold cellSet
  cases hm : makeImpl P text with
  | none => exact shape_refl s
  | some temp =>
    dsimp only
    cases hc : Cell.CheckCircularDependendency self temp s <;> dsimp only <;>
      try exact shape_refl s
    cases hd : s.deref self with
    | none => exact shape_refl s
    | some obj =>
      dsimp only
      have hwf3 : WF (s.store self { obj with impl := some temp }) :=
        wf_store hwf hd (by simp)
      have hL := linkReferenced_shape hin hsh self temp.GetReferencedCells hwf3
      rcases andThen_cases
          (linkReferenced inner self temp.GetReferencedCells
            (s.store self { obj with impl := some temp }))
          (Cell.CacheInvalidate self) with ⟨_, h2⟩ | ⟨_, h2⟩
      · rw [h2]
        exact shape_trans (shape_trans (store_shape _ _ _) hL)
          (cacheOnly_shape (cacheInvalidate_cacheOnly self _))
      · rw [h2]
        exact shape_trans (store_shape _ _ _) hL

/-- A `SetCell` that returns normally shrinks nothing, keeps every cell in its slot, and
leaves the edited position and every cell it created inside the printable area. -/
theorem setCell_ok_shape (P : Parser) {s : State} (hwf : WF s) {pos : Position} {text : Str}
    (hok : (Sheet.SetCell P pos text s).1 = .ok) :
    Shape s (Sheet.SetCell P pos text s).2 ∧
    pos.row.toNat < (Sheet.SetCell P pos text s).2.printable.rows ∧
    pos.col.toNat < (Sheet.SetCell P pos text s).2.printable.cols := by
  cases hv : pos.IsValid with
  | false =>
    rw [setCell_eq, sheetSetCell_invalid _ hv] at hok
    cases hok
  | true =>
    obtain ⟨self, s2, hpre, heq⟩ := sheetSetCell_prelude' hwf hv
    rw [setCell_eq, heq] at hok ⊢
    rcases andThen_cases (Cell.Set P self text s2) (Sheet.UpdatePrintableSize pos 's') with
      ⟨_, h2⟩ | ⟨h1, h2⟩
    · rw [h2]
      exact prelude_update_shape hv hpre
        (cellSet_shape (cellSet_innerSpec P) (setCellDepth_innerShape P 1) hpre.wf self text)
    · rw [h2] at hok
      exact absurd hok h1


/-! ## The scans of `UpdatePrintableSize` -/

theorem ptrAt_of_slot_none {cells : List (List (Option Addr))} {i j : Nat}
    (h : slot cells i j = some none) : ptrAt cells i j = none := by
  unfold ptrAt; rw [h]; rfl

theorem ptrAt_of_slot_some {cells : List (List (Option Addr))} {i j : Nat} {a : Addr}
    (h : slot cells i j = some (some a)) : ptrAt cells i j = some a := by
  unfold ptrAt; rw [h]; rfl

theorem scanRowInner_spec (cells : List (List (Option Addr))) (i n : Nat) :
    (scanRowInner cells i n = .found → ∃ j, j < n ∧ ∃ a, ptrAt cells i j = some a) ∧
    (scanRowInner cells i n = .corner → i = 0 ∧ 0 < n ∧ ∀ j, j < n → ptrAt cells i j = none) ∧
    (scanRowInner cells i n = .nothing →
      (∀ j, j < n → ptrAt cells i j = none) ∧ (i = 0 → n = 0)) ∧
    ((∀ j, j < n → ∃ v, slot cells i j = some v) → scanRowInner cells i n ≠ .outOfRange) := by
  induction n with
  | zero =>
    refine ⟨fun h => (by cases h), fun h => (by cases h), fun _ => ⟨fun j hj => (by omega), fun _ => rfl⟩,
      fun _ h => (by cases h)⟩
  | succ n ih =>
    obtain ⟨ih1, ih2, ih3, ih4⟩ := ih
    unfold scanRowInner
    cases hs : slot cells i n with
    | none =>
      refine ⟨fun h => (by cases h), fun h => (by cases h), fun h => (by cases h), fun hin _ => ?_⟩
      obtain ⟨v, hv⟩ := hin n (by omega)
      rw [hs] at hv; cases hv
    | some v =>
      cases v with
      | some a =>
        refine ⟨fun _ => ⟨n, by omega, a, ptrAt_of_slot_some hs⟩, fun h => (by cases h),
          fun h => (by cases h), fun _ h => (by cases h)⟩
      | none =>
        dsimp only
        have hp := ptrAt_of_slot_none hs
        by_cases hc : i = 0 ∧ n = 0
        · rw [if_pos hc]
          refine ⟨fun h => (by cases h), fun _ => ⟨hc.1, by omega, fun j hj => ?_⟩,
            fun h => (by cases h), fun _ h => (by cases h)⟩
          have : j = n := by omega
          rw [this]; exact hp
        · rw [if_neg hc]
          refine ⟨fun h => ?_, fun h => ?_, fun h => ?_, fun hin => ?_⟩
          · obtain ⟨j, hj, a, ha⟩ := ih1 h
            exact ⟨j, by omega, a, ha⟩
          · obtain ⟨h1, h2, h3⟩ := ih2 h
            refine ⟨h1, by omega, fun j hj => ?_⟩
            by_cases hjn : j = n
            · rw [hjn]; exact hp
            · exact h3 j (by omega)
          · obtain ⟨h1, h2⟩ := ih3 h
            refine ⟨fun j hj => ?_, fun h0 => ?_⟩
            · by_cases hjn : j = n
              · rw [hjn]; exact hp
              · exact h1 j (by omega)
            · exact absurd ⟨h0, h2 h0⟩ hc
          · exact ih4 (fun j hj => hin j (by omega))

theorem scanRows_spec (cells : List (List (Option Addr))) (cols n : Nat) :
    (∀ k, scanRows cells cols n = .rows k → 0 < k ∧ k ≤ n ∧
      (∃ j, j < cols ∧ ∃ a, ptrAt cells (k - 1) j = some a) ∧
      ∀ i j, k ≤ i → i < n → j < cols → ptrAt cells i j = none) ∧
    (scanRows cells cols n = .cleared → 0 < cols ∧
      ∀ i j, i < n → j < cols → ptrAt cells i j = none) ∧
    (scanRows cells cols n = .unchanged →
      (∀ i j, i < n → j < cols → ptrAt cells i j = none) ∧ (0 < n → cols = 0)) ∧
    ((∀ i j, i < n → j < cols → ∃ v, slot cells i j = some v) →
      scanRows cells cols n ≠ .outOfRange) := by
  induction n with
  | zero =>
    refine ⟨fun k h => (by cases h), fun h => (by cases h),
      fun _ => ⟨fun i j hi _ => (by omega), fun h => (by omega)⟩, fun _ h => (by cases h)⟩
  | succ n ih =>
    obtain ⟨ih1, ih2, ih3, ih4⟩ := ih
    obtain ⟨in1, in2, in3, in4⟩ := scanRowInner_spec cells n cols
    unfold scanRows
    cases hs : scanRowInner cells n cols with
    | found =>
      dsimp only
      refine ⟨fun k h => ?_, fun h => (by cases h), fun h => (by cases h), fun _ h => (by cases h)⟩
      cases h
      obtain ⟨j, hj, a, ha⟩ := in1 hs
      exact ⟨by omega, Nat.le_refl _, ⟨j, hj, a, ha⟩, fun i j h1 h2 _ => (by omega)⟩
    | corner =>
      dsimp only
      refine ⟨fun k h => (by cases h), fun _ => ?_, fun h => (by cases h), fun _ h => (by cases h)⟩
      obtain ⟨h0, hc, hall⟩ := in2 hs
      refine ⟨hc, fun i j hi hj => ?_⟩
      have : i = n := by omega
      rw [this]; exact hall j hj
    | nothing =>
      dsimp only
      obtain ⟨hall, h0⟩ := in3 hs
      refine ⟨fun k h => ?_, fun h => ?_, fun h => ?_, fun hin => ?_⟩
      · obtain ⟨h1, h2, h3, h4⟩ := ih1 k h
        refine ⟨h1, by omega, h3, fun i j hi1 hi2 hj => ?_⟩
        by_cases hin : i = n
        · rw [hin]; exact hall j hj
        · exact h4 i j hi1 (by omega) hj
      · obtain ⟨h1, h2⟩ := ih2 h
        refine ⟨h1, fun i j hi hj => ?_⟩
        by_cases hin : i = n
        · rw [hin]; exact hall j hj
        · exact h2 i j (by omega) hj
      · obtain ⟨h1, h2⟩ := ih3 h
        refine ⟨fun i j hi hj => ?_, fun _ => ?_⟩
        · by_cases hin : i = n
          · rw [hin]; exact hall j hj
          · exact h1 i j (by omega) hj
        · by_cases hn : n = 0
          · exact h0 hn
          · exact h2 (by omega)
      · exact ih4 (fun i j hi hj => hin i j (by omega) hj)
    | outOfRange =>
      dsimp only
      refine ⟨fun k h => (by cases h), fun h => (by cases h), fun h => (by cases h), fun hin _ => ?_⟩
      exact in4 (fun j hj => hin n j (by omega) hj) hs

theorem scanColInner_spec (cells : List (List (Option Addr))) (j n : Nat) :
    (scanColInner cells j n = .found → ∃ i, i < n ∧ ∃ a, ptrAt cells i j = some a) ∧
    (scanColInner cells j n ≠ .found → scanColInner cells j n ≠ .outOfRange →
      ∀ i, i < n → ptrAt cells i j = none) ∧
    ((∀ i, i < n → ∃ v, slot cells i j = some v) → scanColInner cells j n ≠ .outOfRange) := by
  induction n with
  | zero =>
    exact ⟨fun h => (by cases h), fun _ _ i hi => (by omega), fun _ h => (by cases h)⟩
  | succ n ih =>
    obtain ⟨ih1, ih2, ih3⟩ := ih
    unfold scanColInner
    cases hs : slot cells n j with
    | none =>
      refine ⟨fun h => (by cases h), fun _ h => absurd rfl h, fun hin _ => ?_⟩
      obtain ⟨v, hv⟩ := hin n (by omega)
      rw [hs] at hv; cases hv
    | some v =>
      cases v with
      | some a =>
        exact ⟨fun _ => ⟨n, by omega, a, ptrAt_of_slot_some hs⟩, fun h => absurd rfl h,
          fun _ h => (by cases h)⟩
      | none =>
        dsimp only
        have hp := ptrAt_of_slot_none hs
        refine ⟨fun h => ?_, fun h1 h2 i hi => ?_, fun hin => ?_⟩
        · obtain ⟨i, hi, a, ha⟩ := ih1 h
          exact ⟨i, by omega, a, ha⟩
        · by_cases hin : i = n
          · rw [hin]; exact hp
          · exact ih2 h1 h2 i (by omega)
        · exact ih3 (fun i hi => hin i (by omega))

theorem scanCols_spec (cells : List (List (Option Addr))) (rows n : Nat) :
    (∀ k, scanCols cells rows n = some (some k) → 0 < k ∧ k ≤ n ∧
      (∃ i, i < rows ∧ ∃ a, ptrAt cells i (k - 1) = some a) ∧
      ∀ i j, i < rows → k ≤ j → j < n → ptrAt cells i j = none) ∧
    (scanCols cells rows n = some none →
      ∀ i j, i < rows → j < n → ptrAt cells i j = none) ∧
    ((∀ i j, i < rows → j < n → ∃ v, slot cells i j = some v) →
      scanCols cells rows n ≠ none) := by
  induction n with
  | zero =>
    exact ⟨fun k h => (by cases h), fun _ i j _ hj => (by omega), fun _ h => (by cases h)⟩
  | succ n ih =>
    obtain ⟨ih1, ih2, ih3⟩ := ih
    obtain ⟨in1, in2, in3⟩ := scanColInner_spec cells n rows
    unfold scanCols
    cases hs : scanColInner cells n rows with
    | found =>
      dsimp only
      refine ⟨fun k h => ?_, fun h => (by cases h), fun _ h => (by cases h)⟩
      cases h
      obtain ⟨i, hi, a, ha⟩ := in1 hs
      exact ⟨by omega, Nat.le_refl _, ⟨i, hi, a, ha⟩, fun i j _ h1 h2 => (by omega)⟩
    | outOfRange =>
      dsimp only
      refine ⟨fun k h => (by cases h), fun h => (by cases h), fun hin _ => ?_⟩
      exact in3 (fun i hi => hin i n hi (by omega)) hs
    | corner =>
      dsimp only
      have hall := in2 (by rw [hs]; intro h; cases h) (by rw [hs]; intro h; cases h)
      refine ⟨fun k h => ?_, fun h => ?_, fun hin => ?_⟩
      · obtain ⟨h1, h2, h3, h4⟩ := ih1 k h
        refine ⟨h1, by omega, h3, fun i j hi hj1 hj2 => ?_⟩
        by_cases hjn : j = n
        · rw [hjn]; exact hall i hi
        · exact h4 i j hi hj1 (by omega)
      · intro i j hi hj
        by_cases hjn : j = n
        · rw [hjn]; exact hall i hi
        · exact ih2 h i j hi (by omega)
      · exact ih3 (fun i j hi hj => hin i j hi (by omega))
    | nothing =>
      dsimp only
      have hall := in2 (by rw [hs]; intro h; cases h) (by rw [hs]; intro h; cases h)
      refine ⟨fun k h => ?_, fun h => ?_, fun hin => ?_⟩
      · obtain ⟨h1, h2, h3, h4⟩ := ih1 k h
        refine ⟨h1, by omega, h3, fun i j hi hj1 hj2 => ?_⟩
        by_cases hjn : j = n
        · rw [hjn]; exact hall i hi
        · exact h4 i j hi hj1 (by omega)
      · intro i j hi hj
        by_cases hjn : j = n
        · rw [hjn]; exact hall i hi
        · exact ih2 h i j hi (by omega)
      · exact ih3 (fun i j hi hj => hin i j hi (by omega))


theorem bounded_slot {cells : List (List (Option Addr))} (hrect : Rect cells) {rows cols : Nat}
    (hr : rows ≤ cells.length) (hc : cols ≤ width cells) :
    ∀ i j, i < rows → j < cols → ∃ v, slot cells i j = some v :=
  fun _ _ hi hj => slot_of_lt hrect (by omega) (by omega)

theorem updateCols_spec (pos : Position) {s : State} (hrect : Rect s.cells)
    (hr : s.printable.rows ≤ s.cells.length) (hc : s.printable.cols ≤ width s.cells) :
    (updateCols pos s).1 = .ok ∧
    (updateCols pos s).2.printable.rows = s.printable.rows ∧
    (updateCols pos s).2.printable.cols ≤ s.printable.cols ∧
    (((s.printable.cols : Int) ≠ pos.col + 1 ∧
        (updateCols pos s).2.printable.cols = s.printable.cols) ∨
     ((s.printable.cols : Int) = pos.col + 1 ∧ 0 < (updateCols pos s).2.printable.cols ∧
        (∃ i, i < s.printable.rows ∧ ∃ a,
          ptrAt s.cells i ((updateCols pos s).2.printable.cols - 1) = some a) ∧
        ∀ i j, i < s.printable.rows → (updateCols pos s).2.printable.cols ≤ j →
          j < s.printable.cols → ptrAt s.cells i j = none) ∨
     ((s.printable.cols : Int) = pos.col + 1 ∧
        (updateCols pos s).2.printable.cols = s.printable.cols ∧
        ∀ i j, i < s.printable.rows → j < s.printable.cols → ptrAt s.cells i j = none)) := by
  obtain ⟨h1, h2, h3⟩ := scanCols_spec s.cells s.printable.rows s.printable.cols
  unfold updateCols
  by_cases hif : (s.printable.cols : Int) = pos.col + 1
  · rw [if_pos hif]
    cases hsc : scanCols s.cells s.printable.rows s.printable.cols with
    | none => exact absurd hsc (h3 (bounded_slot hrect hr hc))
    | some o =>
      cases o with
      | none =>
        dsimp only
        exact ⟨rfl, rfl, Nat.le_refl _, Or.inr (Or.inr ⟨hif, rfl, h2 hsc⟩)⟩
      | some k =>
        dsimp only
        obtain ⟨k1, k2, k3, k4⟩ := h1 k hsc
        exact ⟨rfl, rfl, k2, Or.inr (Or.inl ⟨hif, k1, k3, k4⟩)⟩
  · rw [if_neg hif]
    exact ⟨rfl, rfl, Nat.le_refl _, Or.inl ⟨hif, rfl⟩⟩

theorem updateCols_cover (pos : Position) {s : State} (hrect : Rect s.cells)
    (hr : s.printable.rows ≤ s.cells.length) (hc : s.printable.cols ≤ width s.cells) :
    ∀ i j a, ptrAt s.cells i j = some a → i < s.printable.rows → j < s.printable.cols →
      j < (updateCols pos s).2.printable.cols := by
  intro i j a ha hi hj
  obtain ⟨_, _, _, h | h | h⟩ := updateCols_spec pos hrect hr hc
  · rw [h.2]; exact hj
  · by_contra hlt
    have := h.2.2.2 i j hi (by omega) hj
    rw [this] at ha; cases ha
  · rw [h.2.1]; exact hj

theorem updateCols_box (pos : Position) {s : State} (hrect : Rect s.cells)
    (hr : s.printable.rows ≤ s.cells.length) (hc : s.printable.cols ≤ width s.cells)
    (hcov : ∀ i j a, ptrAt s.cells i j = some a → i < s.printable.rows ∧ j < s.printable.cols)
    (hlr : LastRow s.cells s.printable)
    (hlc : (s.printable.cols : Int) ≠ pos.col + 1 → LastCol s.cells s.printable)
    (hpos : 0 < s.printable.cols → 0 < s.printable.rows) :
    IsBoundingBox s.cells (updateCols pos s).2.printable := by
  obtain ⟨_, hrows, _, hcase⟩ := updateCols_spec pos hrect hr hc
  refine ⟨fun i j a ha => ?_, ?_, ?_⟩
  · obtain ⟨hi, hj⟩ := hcov i j a ha
    rw [hrows]
    exact ⟨hi, updateCols_cover pos hrect hr hc i j a ha hi hj⟩
  · intro h0
    rw [hrows] at h0 ⊢
    exact hlr h0
  · intro h0
    rcases hcase with h | h | h
    · rw [h.2] at h0 ⊢
      exact hlc h.1 h0
    · obtain ⟨i, _, a, ha⟩ := h.2.2.1
      exact ⟨i, a, ha⟩
    · rw [h.2.1] at h0
      obtain ⟨j, a, ha⟩ := hlr (hpos h0)
      have hj := (hcov _ _ _ ha).2
      have := h.2.2 _ j (hcov _ _ _ ha).1 hj
      rw [this] at ha; cases ha

/-- The mode c branch of `UpdatePrintableSize` on a rectangular storage that contains the
printable area: it returns normally, the area does not grow, no cell inside the old area
falls outside the new one, and if the area was the tight bounding box before the cell at
`pos` was removed, it is the tight bounding box of the cells that remain. -/
theorem update_c_spec (pos : Position) (hv : pos.IsValid = true) {s : State}
    (hrect : Rect s.cells) (hb : Bounded s) :
    (Sheet.UpdatePrintableSize pos 'c' s).1 = .ok ∧
    (Sheet.UpdatePrintableSize pos 'c' s).2.printable.rows ≤ s.printable.rows ∧
    (Sheet.UpdatePrintableSize pos 'c' s).2.printable.cols ≤ s.printable.cols ∧
    (∀ i j a, ptrAt s.cells i j = some a → i < s.printable.rows → j < s.printable.cols →
      i < (Sheet.UpdatePrintableSize pos 'c' s).2.printable.rows ∧
      j < (Sheet.UpdatePrintableSize pos 'c' s).2.printable.cols) ∧
    (∀ cells0, IsBoundingBox cells0 s.printable →
      (∀ i j, ptrAt s.cells i j =
        if pos.row.toNat = i ∧ pos.col.toNat = j then none else ptrAt cells0 i j) →
      IsBoundingBox s.cells (Sheet.UpdatePrintableSize pos 'c' s).2.printable) := by
  obtain ⟨hv1, hv2, _, _⟩ := (isValid_iff pos).1 hv
  obtain ⟨hbr, hbc⟩ := hb
  have hsub : ∀ cells0, (∀ i j, ptrAt s.cells i j =
        if pos.row.toNat = i ∧ pos.col.toNat = j then none else ptrAt cells0 i j) →
      ∀ i j a, ptrAt s.cells i j = some a → ptrAt cells0 i j = some a := by
    intro cells0 hrem i j a ha
    rw [hrem] at ha
    split at ha
    · cases ha
    · exact ha
  have hlast : ∀ cells0, IsBoundingBox cells0 s.printable → (∀ i j, ptrAt s.cells i j =
        if pos.row.toNat = i ∧ pos.col.toNat = j then none else ptrAt cells0 i j) →
      ((s.printable.rows : Int) ≠ pos.row + 1 → LastRow s.cells s.printable) ∧
      ((s.printable.cols : Int) ≠ pos.col + 1 → LastCol s.cells s.printable) ∧
      (0 < s.printable.cols → 0 < s.printable.rows) ∧
      (0 < s.printable.rows → 0 < s.printable.cols) := by
    intro cells0 hbox hrem
    refine ⟨fun hne h0 => ?_, fun hne h0 => ?_, fun h0 => ?_, fun h0 => ?_⟩
    · obtain ⟨j, a, ha⟩ := hbox.lastRow h0
      refine ⟨j, a, ?_⟩
      rw [hrem, if_neg (by omega)]
      exact ha
    · obtain ⟨i, a, ha⟩ := hbox.lastCol h0
      refine ⟨i, a, ?_⟩
      rw [hrem, if_neg (by omega)]
      exact ha
    · obtain ⟨i, a, ha⟩ := hbox.lastCol h0
      have := (hbox.covers _ _ _ ha).1
      omega
    · obtain ⟨j, a, ha⟩ := hbox.lastRow h0
      have := (hbox.covers _ _ _ ha).2
      omega
  obtain ⟨r1, r2, r3, r4⟩ := scanRows_spec s.cells s.printable.cols s.printable.rows
  unfold Sheet.UpdatePrintableSize
  rw [if_neg (by decide), if_pos rfl]
  by_cases hif : (s.printable.rows : Int) = pos.row + 1
  · rw [if_pos hif]
    cases hsr : scanRows s.cells s.printable.cols s.printable.rows with
    | outOfRange => exact absurd hsr (r4 (bounded_slot hrect hbr hbc))
    | cleared =>
      dsimp only
      obtain ⟨_, hall⟩ := r2 hsr
      refine ⟨rfl, Nat.zero_le _, Nat.zero_le _, fun i j a ha hi hj => ?_,
        fun cells0 hbox hrem => ⟨fun i j a ha => ?_, fun h0 => (by cases h0),
          fun h0 => (by cases h0)⟩⟩
      · rw [hall i j hi hj] at ha; cases ha
      · obtain ⟨hi, hj⟩ := hbox.covers i j a (hsub cells0 hrem i j a ha)
        rw [hall i j hi hj] at ha; cases ha
    | unchanged =>
      dsimp only
      obtain ⟨hall, h0⟩ := r3 hsr
      have hc0 : s.printable.cols = 0 := h0 (by omega)
      obtain ⟨u1, u2, u3, _⟩ := updateCols_spec pos hrect hbr hbc
      refine ⟨u1, Nat.le_of_eq u2, u3, fun i j a ha hi hj => ?_, fun cells0 hbox hrem => ?_⟩
      · omega
      · have := (hlast cells0 hbox hrem).2.2.2 (by omega)
        omega
    | rows k =>
      dsimp only
      obtain ⟨k1, k2, ⟨j0, hj0, a0, ha0⟩, k4⟩ := r1 k hsr
      have hrect1 : Rect ({ s with printable := { s.printable with rows := k } } : State).cells :=
        hrect
      have hr1 : ({ s with printable := { s.printable with rows := k } } : State).printable.rows ≤
          ({ s with printable := { s.printable with rows := k } } : State).cells.length :=
        Nat.le_trans k2 hbr
      have hc1 : ({ s with printable := { s.printable with rows := k } } : State).printable.cols ≤
          width ({ s with printable := { s.printable with rows := k } } : State).cells := hbc
      obtain ⟨u1, u2, u3, _⟩ := updateCols_spec pos hrect1 hr1 hc1
      have hcovA : ∀ i j a, ptrAt s.cells i j = some a → i < s.printable.rows →
          j < s.printable.cols → i < k := by
        intro i j a ha hi hj
        by_contra hlt
        rw [k4 i j (by omega) hi hj] at ha; cases ha
      refine ⟨u1, ?_, u3, fun i j a ha hi hj => ?_, fun cells0 hbox hrem => ?_⟩
      · rw [u2]; exact k2
      · have hik := hcovA i j a ha hi hj
        rw [u2]
        exact ⟨hik, updateCols_cover pos hrect1 hr1 hc1 i j a ha hik hj⟩
      · apply updateCols_box pos hrect1 hr1 hc1
        · intro i j a ha
          obtain ⟨hi, hj⟩ := hbox.covers i j a (hsub cells0 hrem i j a ha)
          exact ⟨hcovA i j a ha hi hj, hj⟩
        · intro _
          exact ⟨j0, a0, ha0⟩
        · exact (hlast cells0 hbox hrem).2.1
        · intro _; exact k1
  · rw [if_neg hif]
    obtain ⟨u1, u2, u3, _⟩ := updateCols_spec pos hrect hbr hbc
    refine ⟨u1, Nat.le_of_eq u2, u3, fun i j a ha hi hj => ?_, fun cells0 hbox hrem => ?_⟩
    · rw [u2]
      exact ⟨hi, updateCols_cover pos hrect hbr hbc i j a ha hi hj⟩
    · obtain ⟨l1, l2, l3, _⟩ := hlast cells0 hbox hrem
      exact updateCols_box pos hrect hbr hbc
        (fun i j a ha => hbox.covers i j a (hsub cells0 hrem i j a ha)) (l1 hif) l2 l3


/-! ## `ClearCell`, the storage and the printable area -/

theorem deref_of_heap {s s' : State} (h : s'.heap = s.heap) (b : Addr) :
    s'.deref b = s.deref b := by
  rw [deref_eq, deref_eq, h]

theorem bounded_of_dims {s s' : State} (hb : Bounded s) (hl : s.cells.length ≤ s'.cells.length)
    (hw : width s.cells ≤ width s'.cells) (hr : s'.printable.rows ≤ s.printable.rows)
    (hc : s'.printable.cols ≤ s.printable.cols) : Bounded s' := by
  unfold Bounded at *
  omega

theorem live_of_wf {s : State} (hwf : WF s) :
    ∀ i j a, ptrAt s.cells i j = some a → ∃ c, s.deref a = some c := by
  intro i j a h
  obtain ⟨c, hc, _⟩ := hwf.live i j a h
  exact ⟨c, hc⟩

/-- The effect of `ClearCell` at a valid position of a state whose storage is rectangular,
holds pointers to live cells only and contains the printable area: it returns normally, the storage keeps its dimensions, the
slot of the position is null and every other slot is as before, the cell that was at the
position is destroyed and every other cell is untouched, the printable area does not
grow, no remaining cell inside the old area falls outside the new one, and a tight
bounding box stays one. -/
theorem clearCell_spec {pos : Position} (hv : pos.IsValid = true) {s : State}
    (hrect0 : Rect s.cells)
    (hlive : ∀ i j a, ptrAt s.cells i j = some a → ∃ c, s.deref a = some c)
    (hb : Bounded s) :
    (Sheet.ClearCell pos s).1 = .ok ∧
    (Sheet.ClearCell pos s).2.cells.length = s.cells.length ∧
    width (Sheet.ClearCell pos s).2.cells = width s.cells ∧
    (∀ i j, ptrAt (Sheet.ClearCell pos s).2.cells i j =
      if pos.row.toNat = i ∧ pos.col.toNat = j then none else ptrAt s.cells i j) ∧
    (∀ b, ptrAt s.cells pos.row.toNat pos.col.toNat ≠ some b →
      (Sheet.ClearCell pos s).2.deref b = s.deref b) ∧
    (Sheet.ClearCell pos s).2.printable.rows ≤ s.printable.rows ∧
    (Sheet.ClearCell pos s).2.printable.cols ≤ s.printable.cols ∧
    (∀ i j a, ptrAt (Sheet.ClearCell pos s).2.cells i j = some a → i < s.printable.rows →
      j < s.printable.cols → i < (Sheet.ClearCell pos s).2.printable.rows ∧
        j < (Sheet.ClearCell pos s).2.printable.cols) ∧
    (Tight s → Tight (Sheet.ClearCell pos s).2) := by
  unfold Sheet.ClearCell
  rw [if_pos hv]
  by_cases hin : pos.row < (s.cells.length : Int) ∧
      pos.col < (((s.cells.get? pos.row.toNat).getD []).length : Int)
  · rw [if_pos hin]
    cases hp : ptrAt s.cells pos.row.toNat pos.col.toNat with
    | some a =>
      have hp' : (slot s.cells pos.row.toNat pos.col.toNat).join = some a := hp
      rw [hp']
      dsimp only
      obtain ⟨obj, hobj⟩ := hlive _ _ a hp
      have hclear : Cell.Clear a s = (.ok, s.store a { obj with impl := none }) := by
        unfold Cell.Clear; rw [hobj]
      rw [hclear, andThen_ok]
      have hcells : (destroy pos.row.toNat pos.col.toNat a
          (s.store a { obj with impl := none })).cells =
          setSlot s.cells pos.row.toNat pos.col.toNat none := rfl
      have hrect : Rect (destroy pos.row.toNat pos.col.toNat a
          (s.store a { obj with impl := none })).cells := by
        rw [hcells]; exact rect_setSlot hrect0 _ _ _
      have hbt : Bounded (destroy pos.row.toNat pos.col.toNat a
          (s.store a { obj with impl := none })) := by
        unfold Bounded
        rw [hcells, length_setSlot, width_setSlot]
        exact hb
      have hrem : ∀ i j, ptrAt (destroy pos.row.toNat pos.col.toNat a
          (s.store a { obj with impl := none })).cells i j =
          if pos.row.toNat = i ∧ pos.col.toNat = j then none else ptrAt s.cells i j := by
        intro i j
        rw [hcells]
        exact ptrAt_setSlot_none _ _ _ _ _
      obtain ⟨u1, u2, u3, u4, u5⟩ := update_c_spec pos hv hrect hbt
      obtain ⟨f1, f2⟩ := updatePrintableSize_frame pos 'c'
        (destroy pos.row.toNat pos.col.toNat a (s.store a { obj with impl := none }))
      refine ⟨u1, ?_, ?_, ?_, ?_, u2, u3, ?_, ?_⟩
      · rw [f1, hcells, length_setSlot]
      · rw [f1, hcells, width_setSlot]
      · intro i j
        rw [f1]; exact hrem i j
      · intro b hne
        rw [deref_of_heap f2, deref_destroy, if_neg (fun h => hne (by rw [h])),
          deref_store_ne _ _ (fun h => hne (by rw [h]))]
      · intro i j a' ha' hi hj
        rw [f1] at ha'
        exact u4 i j a' ha' hi hj
      · intro ht
        unfold Tight
        rw [f1]
        exact u5 s.cells ht hrem
    | none =>
      have hp' : (slot s.cells pos.row.toNat pos.col.toNat).join = none := hp
      rw [hp']
      dsimp only
      have hrem : ∀ i j, ptrAt s.cells i j =
          if pos.row.toNat = i ∧ pos.col.toNat = j then none else ptrAt s.cells i j := by
        intro i j
        split
        · next h => rw [← h.1, ← h.2]; exact hp
        · rfl
      obtain ⟨u1, u2, u3, u4, u5⟩ := update_c_spec pos hv hrect0 hb
      obtain ⟨f1, f2⟩ := updatePrintableSize_frame pos 'c' s
      refine ⟨u1, by rw [f1], by rw [f1], ?_, ?_, u2, u3, ?_, ?_⟩
      · intro i j
        rw [f1]; exact hrem i j
      · intro b _
        exact deref_of_heap f2 b
      · intro i j a' ha' hi hj
        rw [f1] at ha'
        exact u4 i j a' ha' hi hj
      · intro ht
        unfold Tight
        rw [f1]
        exact u5 s.cells ht hrem
  · rw [if_neg hin]
    have hp : ptrAt s.cells pos.row.toNat pos.col.toNat = none :=
      ptrAt_none_of_not_inRange _ _ _ (fun h => hin ((inRange_iff pos hv s.cells).2 h))
    refine ⟨rfl, rfl, rfl, ?_, fun _ _ => rfl, Nat.le_refl _, Nat.le_refl _,
      fun i j a _ hi hj => ⟨hi, hj⟩, fun h => h⟩
    intro i j
    split
    · next h => rw [← h.1, ← h.2]; exact hp
    · rfl

theorem clearCell_invalid {pos : Position} (hv : pos.IsValid = false) (s : State) :
    Sheet.ClearCell pos s = (.invalidPosition, s) := by
  unfold Sheet.ClearCell
  simp [hv]

theorem clearCell_nonEmptyCovered {pos : Position} (hv : pos.IsValid = true) {s : State}
    (hwf : WF s) (hb : Bounded s) (hne : NonEmptyCovered s) :
    NonEmptyCovered (Sheet.ClearCell pos s).2 := by
  obtain ⟨_, _, _, hptr, hderef, _, _, hcov, _⟩ := clearCell_spec hv hwf.rect (live_of_wf hwf) hb
  intro i j a t ha ht htne
  have ha0 : ptrAt s.cells i j = some a := by
    rw [hptr] at ha
    split at ha
    · cases ha
    · exact ha
  have hnot : ¬ (pos.row.toNat = i ∧ pos.col.toNat = j) := by
    intro h
    rw [hptr, if_pos h] at ha
    cases ha
  have hd : (Sheet.ClearCell pos s).2.deref a = s.deref a := by
    apply hderef
    intro h
    exact hnot (hwf.inj _ _ _ _ a h ha0)
  rw [getText_of_deref hd] at ht
  obtain ⟨hi, hj⟩ := hne i j a t ha0 ht htne
  exact hcov i j a ha hi hj

/-! ## Invariants of the reachable states -/

theorem bounded_empty : Bounded State.empty := by
  unfold Bounded State.empty
  simp

theorem prelude_bounded {s s2 : State} {pos : Position} {x : Addr} (hpre : Prelude s pos x s2)
    (hb : Bounded s) : Bounded s2 := by
  unfold Bounded at *
  rw [hpre.printable]
  exact ⟨Nat.le_trans hb.1 hpre.rows, Nat.le_trans hb.2 hpre.cols⟩

/-- A call that comes back to the caller does not shrink the storage and keeps the
printable area inside it. -/
theorem op_run_dims (P : Parser) (op : Op) {s : State} (hwf : WF s) (hb : Bounded s)
    (hret : (op.run P s).1.returns = true) :
    Bounded (op.run P s).2 ∧ s.cells.length ≤ (op.run P s).2.cells.length ∧
    width s.cells ≤ width (op.run P s).2.cells := by
  cases op with
  | setCell pos text =>
    simp only [Op.run] at hret ⊢
    rcases returns_cases hret with hok | hth
    · have h := (setCell_ok_shape P hwf hok).1
      exact ⟨h.bounded hb, h.rows, h.cols⟩
    · rcases setCell_throws_spec P hwf pos text hth with ⟨_, h⟩ | ⟨_, self, hpre⟩
      · rw [h]; exact ⟨hb, Nat.le_refl _, Nat.le_refl _⟩
      · exact ⟨prelude_bounded hpre hb, hpre.rows, hpre.cols⟩
  | clearCell pos =>
    simp only [Op.run] at hret ⊢
    cases hv : pos.IsValid with
    | false => rw [clearCell_invalid hv]; exact ⟨hb, Nat.le_refl _, Nat.le_refl _⟩
    | true =>
      obtain ⟨_, h1, h2, _, _, h3, h4, _, _⟩ := clearCell_spec hv hwf.rect (live_of_wf hwf) hb
      exact ⟨bounded_of_dims hb (Nat.le_of_eq h1.symm) (Nat.le_of_eq h2.symm) h3 h4,
        Nat.le_of_eq h1.symm, Nat.le_of_eq h2.symm⟩
  | getValue pos =>
    have h := cacheOnly_shape (getValue_run_cacheOnly P pos s)
    exact ⟨h.bounded hb, h.rows, h.cols⟩

theorem reachable_bounded {P : Parser} {s : State} (h : Reachable P s) : Bounded s := by
  induction h with
  | empty => exact bounded_empty
  | step op hs _ hret ih => exact (op_run_dims P op (reachableVia_wf hs) ih hret).1


theorem shape_tight {s s' : State} (h : Shape s s') (ht : Tight s) : Tight s' := by
  refine ⟨fun i j a ha => ?_, h.lastRow ht.lastRow, h.lastCol ht.lastCol⟩
  cases h0 : ptrAt s.cells i j with
  | none => exact h.covers i j a ha h0
  | some b =>
    obtain ⟨hi, hj⟩ := ht.covers i j b h0
    exact ⟨Nat.lt_of_lt_of_le hi h.prows, Nat.lt_of_lt_of_le hj h.pcols⟩

theorem tight_empty : Tight State.empty := by
  refine ⟨fun i j a ha => ?_, fun h => ?_, fun h => ?_⟩
  · have : ptrAt State.empty.cells i j = none := by
      unfold ptrAt slot State.empty; simp
    rw [this] at ha; cases ha
  · exact absurd h (by decide)
  · exact absurd h (by decide)

theorem reachableOk_reachable {P : Parser} {s : State} (h : ReachableOk P s) :
    Reachable P s := by
  induction h with
  | empty => exact .empty
  | step op _ hok ih => exact .step op ih rfl (returns_of_ok hok)

theorem reachableOk_tight {P : Parser} {s : State} (h : ReachableOk P s) : Tight s := by
  induction h with
  | empty => exact tight_empty
  | @step s op hs hok ih =>
    have hr := reachableOk_reachable hs
    have hwf : WF s := reachableVia_wf hr
    cases op with
    | setCell pos text =>
      simp only [Op.run] at hok ⊢
      exact shape_tight (setCell_ok_shape P hwf hok).1 ih
    | clearCell pos =>
      simp only [Op.run] at hok ⊢
      cases hv : pos.IsValid with
      | false => rw [clearCell_invalid hv] at hok; cases hok
      | true =>
        exact (clearCell_spec hv hwf.rect (live_of_wf hwf) (reachable_bounded hr)).2.2.2.2.2.2.2.2 ih
    | getValue pos =>
      exact shape_tight (cacheOnly_shape (getValue_run_cacheOnly P pos s)) ih

theorem ext_getText {s s' : State} (h : Ext s s') {a : Addr} {c : Cell}
    (hc : s.deref a = some c) : Cell.GetText a s' = Cell.GetText a s := by
  obtain ⟨c', hc', hi, _⟩ := h.cell a c hc
  rw [getText_eq hc', getText_eq hc]
  exact getText_of_erased hi

theorem getText_some {s : State} {a : Addr} {t : Str} (h : Cell.GetText a s = some t) :
    ∃ c, s.deref a = some c := by
  unfold Cell.GetText at h
  cases hc : s.deref a with
  | none => rw [hc] at h; cases h
  | some c => exact ⟨c, rfl⟩

theorem nonEmptyCovered_empty : NonEmptyCovered State.empty := by
  intro i j a t ha
  have : ptrAt State.empty.cells i j = none := by
    unfold ptrAt slot State.empty; simp
  rw [this] at ha; cases ha

theorem cacheOnly_nonEmptyCovered {s s' : State} (h : CacheOnly s s')
    (hne : NonEmptyCovered s) : NonEmptyCovered s' := by
  intro i j a t ha ht htne
  obtain ⟨c', hc'⟩ := getText_some ht
  have htxt := ext_getText (cacheOnly_ext (cacheOnly_symm h)) hc'
  rw [h.cells] at ha
  rw [h.printable]
  exact hne i j a t ha (by rw [htxt]; exact ht) htne

theorem prelude_nonEmptyCovered {s s2 : State} {pos : Position} {x : Addr}
    (hpre : Prelude s pos x s2) (hne : NonEmptyCovered s) : NonEmptyCovered s2 := by
  intro i j a t ha ht htne
  obtain ⟨cb, hcb⟩ := getText_some ht
  rcases hpre.only a cb hcb with h0 | h0
  · have hp : ptrAt s.cells i j = some a := by
      rcases hpre.ext.fresh i j a ha with h1 | ⟨h1, _⟩
      · exact h1
      · rw [h0] at h1; cases h1
    have htxt : Cell.GetText a s = some t := by
      rw [← ht, getText_eq h0, getText_eq hcb]
    rw [hpre.printable]
    exact hne i j a t hp htxt htne
  · rw [getText_eq hcb, h0] at ht
    cases ht
    exact absurd rfl htne

theorem setCell_nonEmptyCovered (P : Parser) {s : State} (hwf : WF s) (pos : Position)
    (text : Str) (hret : (Sheet.SetCell P pos text s).1.returns = true)
    (hne : NonEmptyCovered s) : NonEmptyCovered (Sheet.SetCell P pos text s).2 := by
  rcases returns_cases hret with hok | hth
  · obtain ⟨hsh, hpr, hpc⟩ := setCell_ok_shape P hwf hok
    obtain ⟨hv, self, s2, temp, obj, hpre, _, _, hd, hwf', hext, _⟩ := setCell_ok_spec P hwf hok
    intro i j a t ha ht htne
    by_cases hij : pos.row.toNat = i ∧ pos.col.toNat = j
    · rw [← hij.1, ← hij.2]; exact ⟨hpr, hpc⟩
    · cases h0 : ptrAt s.cells i j with
      | none => exact hsh.covers i j a ha h0
      | some b =>
        have hb := hsh.keep _ _ _ h0
        rw [ha] at hb
        cases hb
        obtain ⟨c, hc, _⟩ := hwf.live _ _ _ h0
        have hc2 := hpre.deref _ _ hc
        have hne_self : self ≠ a := by
          intro h
          have h2 := hpre.ext.keep _ _ _ h0
          rw [← h] at h2
          exact hij (hpre.wf.inj _ _ _ _ self hpre.here h2)
        have hc3 : (s2.store self { obj with impl := some temp }).deref a = some c := by
          rw [deref_store_ne _ _ hne_self]; exact hc2
        have htxt : Cell.GetText a s = some t := by
          rw [← ht, ext_getText hext hc3, getText_eq hc3, getText_eq hc]
        obtain ⟨hi, hj⟩ := hne i j a t h0 htxt htne
        exact ⟨Nat.lt_of_lt_of_le hi hsh.prows, Nat.lt_of_lt_of_le hj hsh.pcols⟩
  · rcases setCell_throws_spec P hwf pos text hth with ⟨_, h⟩ | ⟨_, self, hpre⟩
    · rw [h]; exact hne
    · exact prelude_nonEmptyCovered hpre hne

theorem reachable_nonEmptyCovered {P : Parser} {s : State} (h : Reachable P s) :
    NonEmptyCovered s := by
  induction h with
  | empty => exact nonEmptyCovered_empty
  | @step s op hs _ hret ih =>
    have hwf : WF s := reachableVia_wf hs
    cases op with
    | setCell pos text =>
      simp only [Op.run] at hret ⊢
      exact setCell_nonEmptyCovered P hwf pos text hret ih
    | clearCell pos =>
      simp only [Op.run] at hret ⊢
      cases hv : pos.IsValid with
      | false => rw [clearCell_invalid hv]; exact ih
      | true => exact clearCell_nonEmptyCovered hv hwf (reachable_bounded hs) ih
    | getValue pos =>
      exact cacheOnly_nonEmptyCovered (getValue_run_cacheOnly P pos s) ih


/-! ## `SetCell` followed by `ClearCell` -/

/-- C11: in a reachable state, if `SetCell(p, t)` returns normally then `p` is valid, the
`ClearCell(p)` that follows returns normally, `GetCell(p)` is then a null handle, and at
every other position `GetCell` answers what it answered after the `SetCell`; a cell found
there has a text, and the same one as after the `SetCell`. -/
theorem C11_setCell_then_clearCell (P : Parser) {s : State} (h : Reachable P s) (p : Position)
    (t : Str) (hok : (Sheet.SetCell P p t s).1 = .ok) :
    p.IsValid = true ∧
    (Sheet.ClearCell p (Sheet.SetCell P p t s).2).1 = .ok ∧
    Sheet.GetCell p (Sheet.ClearCell p (Sheet.SetCell P p t s).2).2 = .handle none ∧
    ∀ q, q ≠ p →
      Sheet.GetCell q (Sheet.ClearCell p (Sheet.SetCell P p t s).2).2 =
        Sheet.GetCell q (Sheet.SetCell P p t s).2 ∧
      ∀ a, Sheet.GetCell q (Sheet.SetCell P p t s).2 = .handle (some a) →
        ∃ txt, Cell.GetText a (Sheet.SetCell P p t s).2 = some txt ∧
          Cell.GetText a (Sheet.ClearCell p (Sheet.SetCell P p t s).2).2 = some txt := by
  have hmid : Reachable P (Sheet.SetCell P p t s).2 :=
    ReachableVia.step (.setCell p t) h rfl (returns_of_ok hok)
  have hwf : WF (Sheet.SetCell P p t s).2 := reachableVia_wf hmid
  have hv : p.IsValid = true := (setCell_ok_spec P (reachableVia_wf h) hok).1
  obtain ⟨c1, _, _, hptr, hderef, _⟩ :=
    clearCell_spec hv hwf.rect (live_of_wf hwf) (reachable_bounded hmid)
  refine ⟨hv, c1, ?_, fun q hq => ?_⟩
  · rw [getCell_eq hv, hptr, if_pos ⟨rfl, rfl⟩]
  · cases hqv : q.IsValid with
    | false =>
      rw [getCell_invalid hqv, getCell_invalid hqv]
      exact ⟨rfl, fun a ha => by cases ha⟩
    | true =>
      have hne := toNat_ne_of_ne hv hqv hq
      rw [getCell_eq hqv, getCell_eq hqv, hptr, if_neg hne]
      refine ⟨rfl, fun a ha => ?_⟩
      have ha' : ptrAt (Sheet.SetCell P p t s).2.cells q.row.toNat q.col.toNat = some a :=
        Found.handle.inj ha
      obtain ⟨c, hc, himpl⟩ := hwf.live _ _ _ ha'
      have hd : (Sheet.ClearCell p (Sheet.SetCell P p t s).2).2.deref a =
          (Sheet.SetCell P p t s).2.deref a := by
        apply hderef
        intro h0
        exact hne (hwf.inj _ _ _ _ a h0 ha')
      cases hi : c.impl with
      | none => exact absurd hi himpl
      | some impl =>
        refine ⟨impl.GetText, ?_, ?_⟩
        · rw [getText_eq hc, hi]; rfl
        · rw [getText_of_deref hd, getText_eq hc, hi]; rfl

/-- C11 on the empty sheet with the position A1 and the text "1": both calls return
normally, A1 is then absent, and B1 is absent before and after. -/
theorem C11_setCell_then_clearCell_witness :
    (Sheet.SetCell sampleParser A1 "1".toList State.empty).1 = .ok ∧
    (Sheet.ClearCell A1 (Sheet.SetCell sampleParser A1 "1".toList State.empty).2).1 = .ok ∧
    Sheet.GetCell A1 (Sheet.ClearCell A1
      (Sheet.SetCell sampleParser A1 "1".toList State.empty).2).2 = .handle none ∧
    Sheet.GetCell B1 (Sheet.ClearCell A1
      (Sheet.SetCell sampleParser A1 "1".toList State.empty).2).2 =
      Sheet.GetCell B1 (Sheet.SetCell sampleParser A1 "1".toList State.empty).2 :=
  have h := C11_setCell_then_clearCell sampleParser .empty A1 "1".toList (by decide)
  ⟨by decide, h.2.1, h.2.2.1, (h.2.2.2 B1 (by decide)).1⟩

/-! ## The printable size as a bounding box -/

theorem tight_zero_iff {s : State} (ht : Tight s) :
    s.printable = ⟨0, 0⟩ ↔ ∀ i j, ptrAt s.cells i j = none := by
  constructor
  · intro h i j
    cases hp : ptrAt s.cells i j with
    | none => rfl
    | some a =>
      have := (ht.covers i j a hp).1
      rw [h] at this
      exact absurd this (Nat.not_lt_zero _)
  · intro h
    have hr : s.printable.rows = 0 := by
      by_contra h0
      obtain ⟨j, a, ha⟩ := ht.lastRow (Nat.pos_of_ne_zero h0)
      rw [h] at ha; cases ha
    have hc : s.printable.cols = 0 := by
      by_contra h0
      obtain ⟨i, a, ha⟩ := ht.lastCol (Nat.pos_of_ne_zero h0)
      rw [h] at ha; cases ha
    cases hsz : s.printable with
    | mk r c =>
      rw [hsz] at hr hc
      simp only at hr hc
      rw [hr, hc]

theorem reachableOk_runOps {P : Parser} (ops : List Op) {s : State} (h : ReachableOk P s)
    (hok : allOk P ops s = true) : ReachableOk P (runOps P ops s) := by
  induction ops generalizing s with
  | nil => exact h
  | cons op rest ih =>
    simp only [allOk, Bool.and_eq_true, decide_eq_true_eq] at hok
    exact ih (.step op h hok.1) hok.2

/-- C13 (counterexample): after `SetCell(A1, "")` on the empty sheet no cell has a
non-empty text, yet the printable size is (1, 1); and after `SetCell(A1, "=B1")` the
printable size is (1, 2) although the text at B1, created for the reference, is empty. -/
theorem C13_empty_cell_enlarges_counterexample :
    Reachable sampleParser (Sheet.SetCell sampleParser A1 [] State.empty).2 ∧
    (∀ a t, Cell.GetText a (Sheet.SetCell sampleParser A1 [] State.empty).2 = some t →
      t = []) ∧
    Sheet.GetPrintableSize (Sheet.SetCell sampleParser A1 [] State.empty).2 = ⟨1, 1⟩ ∧
    Reachable sampleParser sheetA1refB1 ∧
    Sheet.readText B1 sheetA1refB1 = some [] ∧
    Sheet.GetPrintableSize sheetA1refB1 = ⟨1, 2⟩ := by
  refine ⟨reachable_runOps [.setCell A1 []] .empty (by decide), fun a t ht => ?_, by decide,
    reachable_runOps [.setCell A1 "=B1".toList] .empty (by decide), by decide, by decide⟩
  obtain ⟨c, hc⟩ := getText_some ht
  have hlt := deref_lt hc
  have hl : (Sheet.SetCell sampleParser A1 [] State.empty).2.heap.length = 1 := by decide
  rw [hl] at hlt
  have ha : a = 0 := Nat.lt_one_iff.1 hlt
  subst ha
  have h0 : Cell.GetText 0 (Sheet.SetCell sampleParser A1 [] State.empty).2 = some [] := by
    decide
  rw [h0] at ht
  cases ht
  rfl

/-- C13, amended: in every reachable state, a position whose cell has a non-empty text is
valid and lies inside the printable size.  (The printable size can be larger: a cell with
empty text enlarges it as any other cell does.) -/
theorem C13_nonempty_text_inside_printable (P : Parser) {s : State} (h : Reachable P s)
    (p : Position) (t : Str) (ht : Sheet.readText p s = some t) (hne : t ≠ []) :
    p.IsValid = true ∧ p.row.toNat < (Sheet.GetPrintableSize s).rows ∧
    p.col.toNat < (Sheet.GetPrintableSize s).cols := by
  unfold Sheet.readText at ht
  cases hv : p.IsValid with
  | false => rw [getCell_invalid hv] at ht; cases ht
  | true =>
    rw [getCell_eq hv] at ht
    cases hp : ptrAt s.cells p.row.toNat p.col.toNat with
    | none => rw [hp] at ht; cases ht
    | some a =>
      rw [hp] at ht
      exact ⟨rfl, reachable_nonEmptyCovered h _ _ a t hp ht hne⟩

/-- C13, amended, after `SetCell(A1, "=B1")`: the text at A1 is "=B1" and A1 lies inside
the printable size (1, 2). -/
theorem C13_nonempty_text_inside_printable_witness :
    Sheet.readText A1 sheetA1refB1 = some "=B1".toList ∧
    A1.row.toNat < (Sheet.GetPrintableSize sheetA1refB1).rows ∧
    A1.col.toNat < (Sheet.GetPrintableSize sheetA1refB1).cols :=
  ⟨by decide,
    (C13_nonempty_text_inside_printable sampleParser
      (reachable_runOps [.setCell A1 "=B1".toList] .empty (by decide)) A1 "=B1".toList
      (by decide) (by decide)).2⟩

/-- C16: on a storage that is rectangular, holds pointers to live cells only (as owning
pointers do) and contains the printable area, if the printable size is the tight bounding
box of the cells, then `ClearCell` at a valid position returns normally, empties the slot
of the position and no other, and leaves the printable size the tight bounding box of the
cells that remain; it is (0, 0) exactly when none remains. -/
theorem C16_clearCell_keeps_bounding_box {pos : Position} (hv : pos.IsValid = true)
    {s : State} (hrect : Rect s.cells)
    (hlive : ∀ i j a, ptrAt s.cells i j = some a → ∃ c, s.deref a = some c)
    (hb : Bounded s) (ht : IsBoundingBox s.cells s.printable) :
    (Sheet.ClearCell pos s).1 = .ok ∧
    (∀ i j, ptrAt (Sheet.ClearCell pos s).2.cells i j =
      if pos.row.toNat = i ∧ pos.col.toNat = j then none else ptrAt s.cells i j) ∧
    IsBoundingBox (Sheet.ClearCell pos s).2.cells (Sheet.ClearCell pos s).2.printable ∧
    ((Sheet.ClearCell pos s).2.printable = ⟨0, 0⟩ ↔
      ∀ i j, ptrAt (Sheet.ClearCell pos s).2.cells i j = none) := by
  obtain ⟨h1, _, _, h4, _, _, _, _, h9⟩ := clearCell_spec hv hrect hlive hb
  exact ⟨h1, h4, h9 ht, tight_zero_iff (h9 ht)⟩

/-- C16 after `SetCell(A1, "1")` and `SetCell(B1, "2")`: `ClearCell(B1)`, on the last
printable column, returns normally and the printable size shrinks from (1, 2) to
(1, 1). -/
theorem C16_clearCell_keeps_bounding_box_witness :
    (runOps sampleParser [.setCell A1 "1".toList, .setCell B1 "2".toList]
      State.empty).printable = ⟨1, 2⟩ ∧
    (Sheet.ClearCell B1 (runOps sampleParser [.setCell A1 "1".toList, .setCell B1 "2".toList]
      State.empty)).2.printable = ⟨1, 1⟩ ∧
    IsBoundingBox
      (Sheet.ClearCell B1 (runOps sampleParser [.setCell A1 "1".toList, .setCell B1 "2".toList]
        State.empty)).2.cells
      (Sheet.ClearCell B1 (runOps sampleParser [.setCell A1 "1".toList, .setCell B1 "2".toList]
        State.empty)).2.printable :=
  have hr : ReachableOk sampleParser
      (runOps sampleParser [.setCell A1 "1".toList, .setCell B1 "2".toList] State.empty) :=
    reachableOk_runOps _ .empty (by decide)
  have hwf := reachableVia_wf (reachableOk_reachable hr)
  ⟨by decide, by decide,
    (@C16_clearCell_keeps_bounding_box B1 (by decide) _ hwf.rect (live_of_wf hwf)
      (reachable_bounded (reachableOk_reachable hr)) (reachableOk_tight hr)).2.2.1⟩


/-! ## Indices read while printing -/

theorem printRow_inRange {α : Type} {get : Addr → State → Option (α × State)} (blank : α)
    (hget : ∀ a t r, get a t = some r → r.2.cells = t.cells ∧ r.2.printable = t.printable)
    (i : Nat) (js : List Nat) (s : State)
    (hin : ∀ j ∈ js, ∃ v, slot s.cells i j = some v) :
    printRow get blank i js s ≠ .outOfRange ∧
    ∀ out s1, printRow get blank i js s = .done out s1 →
      s1.cells = s.cells ∧ s1.printable = s.printable := by
  induction js generalizing s with
  | nil =>
    unfold printRow
    exact ⟨fun h => (by cases h), fun out s1 h => (by cases h; exact ⟨rfl, rfl⟩)⟩
  | cons j js ih =>
    unfold printRow
    obtain ⟨v, hv⟩ := hin j (List.mem_cons_self _ _)
    rw [hv]
    cases v with
    | none =>
      dsimp only
      obtain ⟨h1, h2⟩ := ih s (fun j' hj' => hin j' (List.mem_cons_of_mem _ hj'))
      cases hr : printRow get blank i js s with
      | done out s1 =>
        dsimp only
        exact ⟨fun h => (by cases h), fun out' s1' h => (by cases h; exact h2 out s1 hr)⟩
      | outOfRange => exact absurd hr h1
      | noValue =>
        dsimp only
        exact ⟨fun h => (by cases h), fun _ _ h => (by cases h)⟩
    | some a =>
      dsimp only
      cases hg : get a s with
      | none =>
        dsimp only
        exact ⟨fun h => (by cases h), fun _ _ h => (by cases h)⟩
      | some r =>
        obtain ⟨v1, s1⟩ := r
        dsimp only
        obtain ⟨e1, e2⟩ := hget a s _ hg
        dsimp only at e1 e2
        obtain ⟨h1, h2⟩ := ih s1 (fun j' hj' => by
          rw [e1]; exact hin j' (List.mem_cons_of_mem _ hj'))
        cases hr : printRow get blank i js s1 with
        | done out s2 =>
          dsimp only
          refine ⟨fun h => (by cases h), fun out' s2' h => ?_⟩
          cases h
          obtain ⟨f1, f2⟩ := h2 out s2 hr
          exact ⟨f1.trans e1, f2.trans e2⟩
        | outOfRange => exact absurd hr h1
        | noValue =>
          dsimp only
          exact ⟨fun h => (by cases h), fun _ _ h => (by cases h)⟩

theorem printRows_inRange {α : Type} {get : Addr → State → Option (α × State)} (blank : α)
    (hget : ∀ a t r, get a t = some r → r.2.cells = t.cells ∧ r.2.printable = t.printable)
    (is : List Nat) (s : State) (hrect : Rect s.cells)
    (hrows : ∀ i ∈ is, i < s.cells.length) (hcols : s.printable.cols ≤ width s.cells) :
    printRows get blank is s ≠ .outOfRange := by
  induction is generalizing s with
  | nil => unfold printRows; exact fun h => (by cases h)
  | cons i is ih =>
    unfold printRows
    have hi := hrows i (List.mem_cons_self _ _)
    obtain ⟨h1, h2⟩ := printRow_inRange blank hget i (List.range s.printable.cols) s
      (fun j hj => slot_of_lt hrect hi (Nat.lt_of_lt_of_le (List.mem_range.1 hj) hcols))
    cases hr : printRow get blank i (List.range s.printable.cols) s with
    | done row s1 =>
      dsimp only
      obtain ⟨e1, e2⟩ := h2 row s1 hr
      have h3 := ih s1 (by rw [e1]; exact hrect)
        (fun i' hi' => by rw [e1]; exact hrows i' (List.mem_cons_of_mem _ hi'))
        (by rw [e1, e2]; exact hcols)
      cases hr2 : printRows get blank is s1 with
      | done out s2 => dsimp only; exact fun h => (by cases h)
      | outOfRange => exact absurd hr2 h3
      | noValue => dsimp only; exact fun h => (by cases h)
    | outOfRange => exact absurd hr h1
    | noValue => dsimp only; exact fun h => (by cases h)

theorem printRow_texts (i : Nat) (js : List Nat) {s : State} (hwf : WF s)
    (hin : ∀ j ∈ js, ∃ v, slot s.cells i j = some v) :
    ∃ out, printRow (fun a t => (Cell.GetText a t).map (fun x => (x, t))) [] i js s =
      .done out s := by
  induction js with
  | nil => exact ⟨[], by unfold printRow; rfl⟩
  | cons j js ih =>
    obtain ⟨out, hout⟩ := ih (fun j' hj' => hin j' (List.mem_cons_of_mem _ hj'))
    obtain ⟨v, hv⟩ := hin j (List.mem_cons_self _ _)
    unfold printRow
    rw [hv]
    cases v with
    | none =>
      dsimp only
      rw [hout]
      exact ⟨_, rfl⟩
    | some a =>
      dsimp only
      obtain ⟨c, hc, himpl⟩ := hwf.live i j a (ptrAt_of_slot_some hv)
      cases hi : c.impl with
      | none => exact absurd hi himpl
      | some impl =>
        have ht : Cell.GetText a s = some impl.GetText := by
          rw [getText_eq hc, hi]; rfl
        rw [ht]
        dsimp only [Option.map_some']
        rw [hout]
        exact ⟨_, rfl⟩

theorem printRows_texts (is : List Nat) {s : State} (hwf : WF s)
    (hrows : ∀ i ∈ is, i < s.cells.length) (hcols : s.printable.cols ≤ width s.cells) :
    ∃ out, printRows (fun a t => (Cell.GetText a t).map (fun x => (x, t))) [] is s =
      .done out s := by
  induction is with
  | nil => exact ⟨[], by unfold printRows; rfl⟩
  | cons i is ih =>
    obtain ⟨out, hout⟩ := ih (fun i' hi' => hrows i' (List.mem_cons_of_mem _ hi'))
    have hi := hrows i (List.mem_cons_self _ _)
    obtain ⟨row, hrow⟩ := printRow_texts i (List.range s.printable.cols) hwf
      (fun j hj => slot_of_lt hwf.rect hi (Nat.lt_of_lt_of_le (List.mem_range.1 hj) hcols))
    unfold printRows
    rw [hrow]
    dsimp only
    rw [hout]
    exact ⟨_, rfl⟩

theorem getValue_frame (a : Addr) (t : State) (r : CellValue × State)
    (h : Cell.GetValue a t = some r) : r.2.cells = t.cells ∧ r.2.printable = t.printable := by
  have hco := getValueDepth_cacheOnly _ a t r h
  exact ⟨hco.cells, hco.printable⟩

theorem updatePrintableSize_ok {pos : Position} (hv : pos.IsValid = true) (mode : Char)
    {s : State} (hrect : Rect s.cells) (hb : Bounded s) :
    (Sheet.UpdatePrintableSize pos mode s).1 = .ok := by
  by_cases hs : mode = 's'
  · rw [hs]; exact update_s_ok pos s
  · by_cases hc : mode = 'c'
    · rw [hc]; exact (update_c_spec pos hv hrect hb).1
    · unfold Sheet.UpdatePrintableSize
      rw [if_neg hs, if_neg hc]

/-- C20: in every reachable state the storage is rectangular, no call that comes back to
the caller shrinks it, and the printable area lies inside it; for a valid position the
two growth steps of `SetCell` leave a storage that has a row zero and in which the
position is in range.  So every element `cells_[i][j]` read by the printing loops is in
range (`PrintValues` never reads out of range and `PrintTexts` prints the whole area),
and so is every element read by `UpdatePrintableSize` and `ClearCell`, which return
normally. -/
theorem C20_storage_indices_in_bounds (P : Parser) {s : State} (h : Reachable P s) :
    Rect s.cells ∧
    (∀ op : Op, (op.run P s).1.returns = true →
      s.cells.length ≤ (op.run P s).2.cells.length ∧
      width s.cells ≤ width (op.run P s).2.cells) ∧
    (s.printable.rows ≤ s.cells.length ∧ s.printable.cols ≤ width s.cells) ∧
    (∀ pos : Position, pos.IsValid = true →
      0 < (growRows s.cells pos.row.toNat).length ∧
      pos.row.toNat < (growCols (growRows s.cells pos.row.toNat) pos.col.toNat).length ∧
      pos.col.toNat < width (growCols (growRows s.cells pos.row.toNat) pos.col.toNat) ∧
      ∃ v, slot (growCols (growRows s.cells pos.row.toNat) pos.col.toNat)
        pos.row.toNat pos.col.toNat = some v) ∧
    (∀ i j, i < s.printable.rows → j < s.printable.cols → ∃ v, slot s.cells i j = some v) ∧
    Sheet.PrintValues s ≠ .outOfRange ∧
    (∃ out, Sheet.PrintTexts s = .done out s) ∧
    (∀ pos mode, pos.IsValid = true → (Sheet.UpdatePrintableSize pos mode s).1 = .ok) ∧
    (∀ pos, pos.IsValid = true → (Sheet.ClearCell pos s).1 = .ok) := by
  have hwf : WF s := reachableVia_wf h
  have hb : Bounded s := reachable_bounded h
  refine ⟨hwf.rect, fun op hret => (op_run_dims P op hwf hb hret).2, hb, fun pos _ => ?_,
    bounded_slot hwf.rect hb.1 hb.2, ?_, ?_, fun pos mode hv => ?_, fun pos hv => ?_⟩
  · obtain ⟨v, hv⟩ := slot_grow_isSome hwf.rect pos.row.toNat pos.col.toNat
    have hlt := slot_lt (rect_grow hwf.rect pos.row.toNat pos.col.toNat) hv
    exact ⟨Nat.lt_of_le_of_lt (Nat.zero_le _) (length_growRows s.cells pos.row.toNat),
      hlt.1, hlt.2, v, hv⟩
  · exact printRows_inRange _ getValue_frame _ s hwf.rect
      (fun i hi => Nat.lt_of_lt_of_le (List.mem_range.1 hi) hb.1) hb.2
  · obtain ⟨out, hout⟩ := printRows_texts (List.range s.printable.rows) hwf
      (fun i hi => Nat.lt_of_lt_of_le (List.mem_range.1 hi) hb.1) hb.2
    unfold Sheet.PrintTexts
    rw [hout]
    exact ⟨_, rfl⟩
  · exact updatePrintableSize_ok hv mode hwf.rect hb
  · exact (clearCell_spec hv hwf.rect (live_of_wf hwf) hb).1

/-- C20 after `SetCell(A1, "=B1")`: the storage has two rows of two slots, the printable
size is (1, 2), and `PrintTexts` writes "=B1", a tab, an empty field and a newline. -/
theorem C20_storage_indices_in_bounds_witness :
    sheetA1refB1.cells.length = 2 ∧ width sheetA1refB1.cells = 2 ∧
    sheetA1refB1.printable = ⟨1, 2⟩ ∧ Rect sheetA1refB1.cells ∧
    (∃ out, Sheet.PrintTexts sheetA1refB1 = .done out sheetA1refB1) ∧
    (Sheet.PrintTexts sheetA1refB1).output = some "=B1\t\n".toList :=
  have h := C20_storage_indices_in_bounds sampleParser
    (reachable_runOps [.setCell A1 "=B1".toList] .empty (by decide))
  ⟨by decide, by decide, by decide, h.1, h.2.2.2.2.2.2.1, by decide⟩


/-! ## The referenced cells of a formula -/

theorem position_lt_iff (p q : Position) :
    p.lt q = true ↔ p.row < q.row ∨ (p.row = q.row ∧ p.col < q.col) := by
  unfold Position.lt
  simp

theorem position_lt_irrefl (p : Position) : p.lt p = false := by
  cases h : p.lt p with
  | false => rfl
  | true => rw [position_lt_iff] at h; omega

theorem position_lt_trans {p q r : Position} (h1 : p.lt q = true) (h2 : q.lt r = true) :
    p.lt r = true := by
  rw [position_lt_iff] at *
  omega

theorem position_eq_of_not_lt {p q : Position} (h1 : p.lt q = false) (h2 : q.lt p = false) : p = q := by
  have h1' : ¬ (p.row < q.row ∨ (p.row = q.row ∧ p.col < q.col)) := by
    rw [← position_lt_iff, h1]; simp
  have h2' : ¬ (q.row < p.row ∨ (q.row = p.row ∧ q.col < p.col)) := by
    rw [← position_lt_iff, h2]; simp
  cases p with
  | mk pr pc =>
    cases q with
    | mk qr qc =>
      simp only at h1' h2'
      have hr : pr = qr := by omega
      have hc : pc = qc := by omega
      rw [hr, hc]

theorem mem_setInsert (p x : Position) (l : List Position) :
    x ∈ setInsert p l ↔ x = p ∨ x ∈ l := by
  induction l with
  | nil => simp [setInsert]
  | cons q r ih =>
    unfold setInsert
    cases h1 : p.lt q with
    | true => simp
    | false =>
      cases h2 : q.lt p with
      | true =>
        simp only [Bool.false_eq_true, if_false, if_true, List.mem_cons, ih]
        tauto
      | false =>
        have hpq := position_eq_of_not_lt h1 h2
        simp only [Bool.false_eq_true, if_false, List.mem_cons, hpq]
        tauto

theorem sorted_setInsert (p : Position) {l : List Position}
    (h : l.Pairwise (fun a b => a.lt b = true)) :
    (setInsert p l).Pairwise (fun a b => a.lt b = true) := by
  induction l with
  | nil => simp [setInsert]
  | cons q r ih =>
    rw [List.pairwise_cons] at h
    unfold setInsert
    cases h1 : p.lt q with
    | true =>
      simp only [if_true]
      rw [List.pairwise_cons, List.pairwise_cons]
      refine ⟨fun x hx => ?_, h⟩
      rcases List.mem_cons.1 hx with rfl | hx
      · exact h1
      · exact position_lt_trans h1 (h.1 x hx)
    | false =>
      cases h2 : q.lt p with
      | true =>
        simp only [Bool.false_eq_true, if_false, if_true]
        rw [List.pairwise_cons]
        refine ⟨fun x hx => ?_, ih h.2⟩
        rcases (mem_setInsert p x r).1 hx with rfl | hx
        · exact h2
        · exact h.1 x hx
      | false =>
        simp only [Bool.false_eq_true, if_false]
        rw [List.pairwise_cons]
        exact h

theorem foldl_setInsert (l acc : List Position)
    (h : acc.Pairwise (fun a b => a.lt b = true)) :
    (l.foldl (fun acc p => setInsert p acc) acc).Pairwise (fun a b => a.lt b = true) ∧
    ∀ x, x ∈ l.foldl (fun acc p => setInsert p acc) acc ↔ x ∈ acc ∨ x ∈ l := by
  induction l generalizing acc with
  | nil => exact ⟨h, fun x => by simp⟩
  | cons p ps ih =>
    simp only [List.foldl_cons]
    obtain ⟨h1, h2⟩ := ih (setInsert p acc) (sorted_setInsert p h)
    refine ⟨h1, fun x => ?_⟩
    rw [h2, mem_setInsert, List.mem_cons]
    tauto

/-- C14: for every parsed formula the list returned by `Formula::GetReferencedCells` is
strictly increasing in the order of `Position` (row first, then column), hence has no
repetition, and holds exactly the positions of the list returned by `GetCells`. -/
theorem C14_referenced_cells_sorted_unique (h : Handle) :
    (Formula.GetReferencedCells h).Pairwise (fun a b => a.lt b = true) ∧
    (Formula.GetReferencedCells h).Pairwise
      (fun a b => a.row < b.row ∨ (a.row = b.row ∧ a.col < b.col)) ∧
    (Formula.GetReferencedCells h).Nodup ∧
    ∀ x, x ∈ Formula.GetReferencedCells h ↔ x ∈ h.cells := by
  obtain ⟨h1, h2⟩ := foldl_setInsert h.cells [] List.Pairwise.nil
  refine ⟨h1, h1.imp (fun hab => (position_lt_iff _ _).1 hab), ?_, fun x => ?_⟩
  · unfold List.Nodup
    refine h1.imp (fun hab heq => ?_)
    rw [heq, position_lt_irrefl] at hab
    cases hab
  · have := h2 x
    simp only [List.not_mem_nil, false_or] at this
    exact this


/-! ## Dangling members of reverse-dependency sets -/

/-- C15 (failing input): after `SetCell(A1, "=B1")` and `ClearCell(A1)`, which both return
normally, the cell at B1 still has the destroyed cell that was at A1 in its
reverse-dependency set: that cell is on no slot of the storage and its object is gone.
The next `SetCell(B1, "1")` follows the dangling pointer. -/
theorem C15_cleared_cell_stays_in_dependents :
    allOk sampleParser callsClearingFormula State.empty = true ∧
    Reachable sampleParser (runOps sampleParser callsClearingFormula State.empty) ∧
    Sheet.GetCell A1 (runOps sampleParser callsClearingFormula State.empty) = .handle none ∧
    Sheet.GetCell B1 (runOps sampleParser callsClearingFormula State.empty)
      = .handle (some 1) ∧
    dependents (runOps sampleParser callsClearingFormula State.empty) 1 = [0] ∧
    ((runOps sampleParser callsClearingFormula State.empty).deref 0).isNone = true ∧
    (∀ i j, ptrAt (runOps sampleParser callsClearingFormula State.empty).cells i j ≠ some 0) ∧
    (Sheet.SetCell sampleParser B1 "1".toList
      (runOps sampleParser callsClearingFormula State.empty)).1 = .undefinedBehaviour := by
  have hr : Reachable sampleParser (runOps sampleParser callsClearingFormula State.empty) :=
    reachable_runOps callsClearingFormula .empty (by decide)
  refine ⟨by decide, hr, by decide, by decide, by decide, by decide, fun i j h => ?_, by decide⟩
  obtain ⟨c, hc, _⟩ := (reachableVia_wf hr).live i j 0 h
  have h0 : ((runOps sampleParser callsClearingFormula State.empty).deref 0).isNone = true := by
    decide
  rw [hc] at h0
  cases h0

/-! ## The traversal of the cycle check -/

theorem dfsLoop_none (s : State) (refs : List (Option Addr)) (n : Nat)
    (stack visited : List Addr) :
    dfsLoop s (none :: refs) n stack visited = dfsLoop s refs n stack visited := by
  induction n generalizing stack visited with
  | zero => rfl
  | succ n ih =>
    cases stack with
    | nil => rfl
    | cons curr rest =>
      unfold dfsLoop
      have hiff : some curr ∈ none :: refs ↔ some curr ∈ refs := by simp
      by_cases hin : some curr ∈ refs
      · rw [if_pos hin, if_pos (hiff.2 hin)]
      · rw [if_neg hin, if_neg (fun h => hin (hiff.1 h))]
        cases s.deref curr with
        | none => rfl
        | some c => exact ih _ _

theorem dfsLoop_result {s : State} (hnd : NoDangling s) {X : Addr} {cx : Cell}
    (hX : s.deref X = some cx) (refs : List (Option Addr)) :
    (dfsLoop s refs (edgeCount s + 2) [X] [] = .ok ∨
      dfsLoop s refs (edgeCount s + 2) [X] [] = .circularDependency) ∧
    (dfsLoop s refs (edgeCount s + 2) [X] [] = .circularDependency ↔
      ∃ c, some c ∈ refs ∧ Relation.ReflTransGen (depEdge s) X c) := by
  have h1 : dfsLoop s refs (edgeCount s + 2) [X] [] ≠ .noTermination := by
    apply dfsLoop_terminates _ _ _ _ _ (stackInv_init s X)
    rw [← edgeCount_eq]
    simp only [List.length_singleton]
    omega
  have h2 : dfsLoop s refs (edgeCount s + 2) [X] [] ≠ .undefinedBehaviour := by
    apply dfsLoop_no_ub hnd
    intro x hx
    rw [List.mem_singleton] at hx
    rw [hx]; exact ⟨cx, hX⟩
  have h3 := dfsLoop_throws s refs (edgeCount s + 2) [X] []
  have hcases : dfsLoop s refs (edgeCount s + 2) [X] [] = .ok ∨
      dfsLoop s refs (edgeCount s + 2) [X] [] = .circularDependency := by
    cases h : dfsLoop s refs (edgeCount s + 2) [X] [] with
    | ok => exact Or.inl rfl
    | circularDependency => exact Or.inr rfl
    | invalidPosition => rw [h] at h3; exact absurd (h3 rfl) (by simp)
    | formulaException => rw [h] at h3; exact absurd (h3 rfl) (by simp)
    | undefinedBehaviour => exact absurd h h2
    | noTermination => exact absurd h h1
  refine ⟨hcases, fun h => ?_, fun ⟨c, hc, hpath⟩ => ?_⟩
  · apply dfsLoop_circular _ [X] [] _ h
    intro x hx
    rw [List.mem_singleton] at hx
    rw [hx]
  · rcases hcases with hok | hcirc
    · exact absurd hc (dfsLoop_complete _ [X] [] (fun v hv => by cases hv)
        (fun v hv => by cases hv) (Or.inr (List.mem_singleton_self _)) hok c hpath)
    · exact hcirc

theorem referencedCellsSet_some (s : State) {l : List Position}
    (h : ∀ q ∈ l, q.IsValid = true) : ∃ refs, referencedCellsSet s l = some refs := by
  induction l with
  | nil => exact ⟨[], rfl⟩
  | cons p ps ih =>
    obtain ⟨r, hr⟩ := ih (fun q hq => h q (List.mem_cons_of_mem _ hq))
    unfold referencedCellsSet
    rw [getConcreteCell_eq (h p (List.mem_cons_self _ _)), hr]
    exact ⟨_, rfl⟩

/-- C17: on a state whose reverse-dependency sets hold live cells only (the relation on
them is arbitrary, cycles included), the traversal started at a live cell `X` with the
set `refs` of handles ends within the iterations allowed, with a normal return or with
`CircularDependencyException`; it throws exactly when a cell of `refs` is `X` or can be
reached from `X` along reverse-dependency edges; a null handle in `refs` changes nothing.
Hence `CheckCircularDependendency` on a candidate whose referenced positions are valid
throws exactly when one of these positions holds such a cell. -/
theorem C17_cycle_check_traversal {s : State} (hnd : NoDangling s) {X : Addr} {cx : Cell}
    (hX : s.deref X = some cx) (refs : List (Option Addr)) :
    (dfsLoop s refs (edgeCount s + 2) [X] [] = .ok ∨
      dfsLoop s refs (edgeCount s + 2) [X] [] = .circularDependency) ∧
    (dfsLoop s refs (edgeCount s + 2) [X] [] = .circularDependency ↔
      ∃ c, some c ∈ refs ∧ Relation.ReflTransGen (depEdge s) X c) ∧
    dfsLoop s (none :: refs) (edgeCount s + 2) [X] [] =
      dfsLoop s refs (edgeCount s + 2) [X] [] ∧
    ∀ impl : Impl, (∀ q ∈ impl.GetReferencedCells, q.IsValid = true) →
      (Cell.CheckCircularDependendency X impl s = .ok ∨
        Cell.CheckCircularDependendency X impl s = .circularDependency) ∧
      (Cell.CheckCircularDependendency X impl s = .circularDependency ↔
        ∃ q ∈ impl.GetReferencedCells, ∃ c, Sheet.GetConcreteCell q s = .handle (some c) ∧
          Relation.ReflTransGen (depEdge s) X c) := by
  refine ⟨(dfsLoop_result hnd hX refs).1, (dfsLoop_result hnd hX refs).2,
    dfsLoop_none s refs _ _ _, fun impl hv => ?_⟩
  obtain ⟨r, hr⟩ := referencedCellsSet_some s hv
  unfold Cell.CheckCircularDependendency
  rw [hr]
  dsimp only
  refine ⟨(dfsLoop_result hnd hX r).1, ?_⟩
  rw [(dfsLoop_result hnd hX r).2]
  constructor
  · rintro ⟨c, hc, hpath⟩
    obtain ⟨q, hq, hg⟩ := referencedCellsSet_mem_inv hr hc
    exact ⟨q, hq, c, hg, hpath⟩
  · rintro ⟨q, hq, c, hg, hpath⟩
    refine ⟨c, ?_, hpath⟩
    have hm := referencedCellsSet_mem hr hq
    rw [getConcreteCell_eq (hv q hq)] at hg
    rw [Found.handle.inj hg] at hm
    exact hm

/-- C17 after `SetCell(A1, "=B1")`: the cell at A1 (address 0) is a dependent of the cell
at B1 (address 1), so the traversal from B1 with the cell at A1 referenced throws, and
with nothing but a null handle referenced it returns. -/
theorem C17_cycle_check_traversal_witness :
    dfsLoop sheetA1refB1 [some 0] (edgeCount sheetA1refB1 + 2) [1] [] = .circularDependency ∧
    dfsLoop sheetA1refB1 [none] (edgeCount sheetA1refB1 + 2) [1] [] = .ok ∧
    ∃ c, some c ∈ [some 0] ∧ Relation.ReflTransGen (depEdge sheetA1refB1) 1 c := by
  have hr : ReachableNoClear sampleParser sheetA1refB1 :=
    reachableNoClear_runOps [.setCell A1 "=B1".toList] .empty (by decide) (by decide)
  obtain ⟨c, hc, _⟩ := (reachableVia_wf hr).live 0 1 1 (by decide)
  have h := C17_cycle_check_traversal (reachableNoClear_sound hr).noDangling hc [some 0]
  exact ⟨by decide, by decide, h.2.1.1 (by decide)⟩


/-! ## What cache invalidation clears -/

theorem cacheOf_eq {s : State} {a : Addr} {c : Cell} (h : s.deref a = some c) :
    cacheOf s a = c.impl.bind Impl.cache := by
  unfold cacheOf; rw [h]

theorem cache_cacheInvalidate (i : Impl) : i.CacheInvalidate.cache = none := by
  cases i <;> rfl

theorem depEdge_cacheOnly {s s' : State} (h : CacheOnly s s') : depEdge s' = depEdge s := by
  funext a b
  unfold depEdge
  rw [cacheOnly_dependents h]

theorem foldl_andThen_of_ne {α : Type} (g : α → State → Outcome × State) (l : List α)
    (r0 : Outcome × State) (h : r0.1 ≠ .ok) :
    l.foldl (fun r d => andThen r (g d)) r0 = r0 := by
  induction l with
  | nil => rfl
  | cons d l ih =>
    simp only [List.foldl_cons]
    rw [andThen_of_ne _ h]
    exact ih

/-- The loop of `CacheInvalidate` over the dependents, given what the nested calls do. -/
theorem foldl_cacheInvalidate_caches (s0 : State) (n : Nat)
    (ih : ∀ a s, CacheOnly s0 s →
      (∀ b, cacheOf (Cell.CacheInvalidateDepth n a s).2 b = none ∨
        cacheOf (Cell.CacheInvalidateDepth n a s).2 b = cacheOf s b) ∧
      (∀ b, ¬ Relation.ReflTransGen (depEdge s0) a b →
        cacheOf (Cell.CacheInvalidateDepth n a s).2 b = cacheOf s b) ∧
      ((Cell.CacheInvalidateDepth n a s).1 = .ok →
        ∀ b, Relation.ReflTransGen (depEdge s0) a b →
          cacheOf (Cell.CacheInvalidateDepth n a s).2 b = none))
    (l : List Addr) (t : State) (hco : CacheOnly s0 t) :
    (∀ b, cacheOf (l.foldl (fun r d => andThen r (Cell.CacheInvalidateDepth n d)) (.ok, t)).2 b
        = none ∨
      cacheOf (l.foldl (fun r d => andThen r (Cell.CacheInvalidateDepth n d)) (.ok, t)).2 b
        = cacheOf t b) ∧
    (∀ b, (∀ d ∈ l, ¬ Relation.ReflTransGen (depEdge s0) d b) →
      cacheOf (l.foldl (fun r d => andThen r (Cell.CacheInvalidateDepth n d)) (.ok, t)).2 b
        = cacheOf t b) ∧
    ((l.foldl (fun r d => andThen r (Cell.CacheInvalidateDepth n d)) (.ok, t)).1 = .ok →
      ∀ d ∈ l, ∀ b, Relation.ReflTransGen (depEdge s0) d b →
        cacheOf (l.foldl (fun r d => andThen r (Cell.CacheInvalidateDepth n d)) (.ok, t)).2 b
          = none) := by
  induction l generalizing t with
  | nil =>
    exact ⟨fun b => Or.inr rfl, fun _ _ => rfl, fun _ d hd => (by cases hd)⟩
  | cons d l ihl =>
    simp only [List.foldl_cons, andThen_ok]
    obtain ⟨n1, n2, n3⟩ := ih d t hco
    have hco1 : CacheOnly s0 (Cell.CacheInvalidateDepth n d t).2 :=
      cacheOnly_trans hco (cacheInvalidateDepth_cacheOnly n d t)
    cases hr : Cell.CacheInvalidateDepth n d t with
    | mk o t1 =>
      rw [hr] at n1 n2 n3 hco1
      dsimp only at n1 n2 n3 hco1
      by_cases ho : o = .ok
      · subst ho
        obtain ⟨l1, l2, l3⟩ := ihl t1 hco1
        refine ⟨fun b => ?_, fun b hb => ?_, fun hok d' hd' b hpath => ?_⟩
        · rcases l1 b with h | h
          · exact Or.inl h
          · rw [h]; exact n1 b
        · rw [l2 b (fun d' hd' => hb d' (List.mem_cons_of_mem _ hd')),
            n2 b (hb d (List.mem_cons_self _ _))]
        · rcases List.mem_cons.1 hd' with rfl | hd'
          · rcases l1 b with h | h
            · exact h
            · rw [h]; exact n3 rfl b hpath
          · exact l3 hok d' hd' b hpath
      · rw [foldl_andThen_of_ne _ _ _ ho]
        exact ⟨n1, fun b hb => n2 b (hb d (List.mem_cons_self _ _)),
          fun h => absurd h ho⟩

theorem cacheInvalidateDepth_caches (s0 : State) (n : Nat) (a : Addr) (s : State)
    (hco : CacheOnly s0 s) :
    (∀ b, cacheOf (Cell.CacheInvalidateDepth n a s).2 b = none ∨
      cacheOf (Cell.CacheInvalidateDepth n a s).2 b = cacheOf s b) ∧
    (∀ b, ¬ Relation.ReflTransGen (depEdge s0) a b →
      cacheOf (Cell.CacheInvalidateDepth n a s).2 b = cacheOf s b) ∧
    ((Cell.CacheInvalidateDepth n a s).1 = .ok →
      ∀ b, Relation.ReflTransGen (depEdge s0) a b →
        cacheOf (Cell.CacheInvalidateDepth n a s).2 b = none) := by
  induction n generalizing a s with
  | zero =>
    exact ⟨fun b => Or.inr rfl, fun _ _ => rfl, fun h => (by cases h)⟩
  | succ n ih =>
    unfold Cell.CacheInvalidateDepth
    cases hc : s.deref a with
    | none => exact ⟨fun b => Or.inr rfl, fun _ _ => rfl, fun h => (by cases h)⟩
    | some c =>
      dsimp only
      cases hi : c.impl with
      | none => exact ⟨fun b => Or.inr rfl, fun _ _ => rfl, fun h => (by cases h)⟩
      | some i =>
        dsimp only
        have hst : CacheOnly s (s.store a { c with impl := some i.CacheInvalidate }) := by
          apply cacheOnly_store hc
          · simp [hi, cacheInvalidate_idem]
          · rfl
        have hself : cacheOf (s.store a { c with impl := some i.CacheInvalidate }) a = none := by
          rw [cacheOf_eq (deref_store_self hc _)]
          exact cache_cacheInvalidate i
        have hother : ∀ b, b ≠ a →
            cacheOf (s.store a { c with impl := some i.CacheInvalidate }) b = cacheOf s b := by
          intro b hb
          unfold cacheOf
          rw [deref_store_ne _ _ (fun h => hb h.symm)]
        have hdeps : ∀ d, d ∈ c.deps ↔ depEdge s0 a d := by
          intro d
          unfold depEdge
          rw [← cacheOnly_dependents hco a, dependents_eq hc]
        obtain ⟨f1, f2, f3⟩ := foldl_cacheInvalidate_caches s0 n
          (fun a' s' h' => ih a' s' h') c.deps _ (cacheOnly_trans hco hst)
        refine ⟨fun b => ?_, fun b hb => ?_, fun hok b hpath => ?_⟩
        · rcases f1 b with h | h
          · exact Or.inl h
          · by_cases hba : b = a
            · left; rw [h, hba]; exact hself
            · right; rw [h]; exact hother b hba
        · have hba : b ≠ a := fun h => hb (by rw [h])
          rw [f2 b (fun d hd hpath => hb (Relation.ReflTransGen.head ((hdeps d).1 hd) hpath))]
          exact hother b hba
        · rcases Relation.ReflTransGen.cases_head hpath with h | ⟨d, hd, hpath'⟩
          · rcases f1 b with h1 | h1
            · exact h1
            · rw [h1, ← h]; exact hself
          · exact f3 hok d ((hdeps d).2 hd) b hpath'

theorem cacheOnly_getText {s s' : State} (h : CacheOnly s s') (a : Addr) :
    Cell.GetText a s' = Cell.GetText a s := by
  cases hc : s.deref a with
  | some c => exact ext_getText (cacheOnly_ext h) hc
  | none =>
    have h1 := h.cell a
    rw [hc] at h1
    unfold Cell.GetText
    rw [hc]
    cases hc' : s'.deref a with
    | none => rfl
    | some c' => rw [hc'] at h1; cases h1

theorem cacheOnly_getReferencedCells {s s' : State} (h : CacheOnly s s') (a : Addr) :
    Cell.GetReferencedCells a s' = Cell.GetReferencedCells a s := by
  cases hc : s.deref a with
  | some c =>
    obtain ⟨c', hc', hi, _⟩ := cacheOnly_deref h hc
    rw [getReferencedCells_eq hc', getReferencedCells_eq hc]
    exact getReferencedCells_of_erased hi
  | none =>
    have h1 := h.cell a
    rw [hc] at h1
    unfold Cell.GetReferencedCells
    rw [hc]
    cases hc' : s'.deref a with
    | none => rfl
    | some c' => rw [hc'] at h1; cases h1

/-- C18: on a well-formed state without dangling pointers whose stored
reverse-dependency graph is acyclic, `CacheInvalidate` on a live cell `X` returns
normally within the depth allowed; afterwards the cache of `X` and of every cell
reachable from `X` along reverse-dependency edges is empty, the cache of every other
cell is what it was, and the text, the referenced cells and the reverse-dependency set of
every cell, the storage and the printable size are unchanged. -/
theorem C18_cacheInvalidate_effect {s : State} (hs : Sound s) {X : Addr} {cx : Cell}
    (hX : s.deref X = some cx) :
    (Cell.CacheInvalidate X s).1 = .ok ∧
    (∀ a, Relation.ReflTransGen (depEdge s) X a →
      cacheOf (Cell.CacheInvalidate X s).2 a = none) ∧
    (∀ a, ¬ Relation.ReflTransGen (depEdge s) X a →
      cacheOf (Cell.CacheInvalidate X s).2 a = cacheOf s a) ∧
    (∀ a, Cell.GetText a (Cell.CacheInvalidate X s).2 = Cell.GetText a s ∧
      Cell.GetReferencedCells a (Cell.CacheInvalidate X s).2 = Cell.GetReferencedCells a s ∧
      dependents (Cell.CacheInvalidate X s).2 a = dependents s a) ∧
    (Cell.CacheInvalidate X s).2.cells = s.cells ∧
    (Cell.CacheInvalidate X s).2.printable = s.printable := by
  have hok := cacheInvalidate_ok hs.wf hs.noDangling hs.acyclic hX
  have hco := cacheInvalidate_cacheOnly X s
  obtain ⟨_, h2, h3⟩ := cacheInvalidateDepth_caches s (s.heap.length + 1) X s (cacheOnly_refl s)
  exact ⟨hok, fun a ha => h3 hok a ha, h2,
    fun a => ⟨cacheOnly_getText hco a, cacheOnly_getReferencedCells hco a,
      cacheOnly_dependents hco a⟩, hco.cells, hco.printable⟩


/-- C18 after `SetCell(B1, "5")`, `SetCell(A1, "=B1")` and a read of the value at A1: the
cell at A1 (address 1) holds the cache 5 and is a dependent of the cell at B1 (address 0);
`CacheInvalidate` on the cell at B1 returns normally and empties the cache at A1. -/
theorem C18_cacheInvalidate_effect_witness :
    cacheOf (runOps sampleParser
      [.setCell B1 "5".toList, .setCell A1 "=B1".toList, .getValue A1] State.empty) 1
      = some (.number 5) ∧
    (Cell.CacheInvalidate 0 (runOps sampleParser
      [.setCell B1 "5".toList, .setCell A1 "=B1".toList, .getValue A1] State.empty)).1 = .ok ∧
    cacheOf (Cell.CacheInvalidate 0 (runOps sampleParser
      [.setCell B1 "5".toList, .setCell A1 "=B1".toList, .getValue A1] State.empty)).2 1
      = none := by
  have hr : ReachableNoClear sampleParser (runOps sampleParser
      [.setCell B1 "5".toList, .setCell A1 "=B1".toList, .getValue A1] State.empty) :=
    reachableNoClear_runOps _ .empty (by decide) (by decide)
  obtain ⟨c, hc, _⟩ := (reachableVia_wf hr).live 0 1 0 (by decide)
  have h := C18_cacheInvalidate_effect (reachableNoClear_sound hr) hc
  exact ⟨by decide, h.1,
    h.2.1 1 (Relation.ReflTransGen.single (by unfold depEdge; decide))⟩

/-! ## The forward-reference graph without `ClearCell` -/

theorem references_backLinked {s : State} (hwf : WF s) (hbl : BackLinked s) {p q : Position}
    (h : references s p q) :
    q.IsValid = true ∧ ∃ a b, Sheet.GetCell p s = .handle (some a) ∧
      Sheet.GetCell q s = .handle (some b) ∧ a ∈ dependents s b := by
  obtain ⟨a, refs, ha, hrefs, hq⟩ := h
  have hpv : p.IsValid = true := by
    cases hv : p.IsValid with
    | true => rfl
    | false => rw [getCell_invalid hv] at ha; cases ha
  have ha' : ptrAt s.cells p.row.toNat p.col.toNat = some a := by
    rw [getCell_eq hpv] at ha
    exact Found.handle.inj ha
  obtain ⟨c, hc, _⟩ := hwf.live _ _ a ha'
  rw [getReferencedCells_eq hc] at hrefs
  cases hi : c.impl with
  | none => rw [hi] at hrefs; cases hrefs
  | some impl =>
    rw [hi] at hrefs
    simp only [Option.map_some', Option.some.injEq] at hrefs
    obtain ⟨hqv, b, hb, hab⟩ := hbl _ _ a c impl ha' hc hi q (by rw [hrefs]; exact hq)
    exact ⟨hqv, a, b, ha, by rw [getCell_eq hqv, hb], hab⟩

theorem forward_path_reversed {s : State} (hwf : WF s) (hbl : BackLinked s) {p q : Position}
    (h : Relation.TransGen (references s) p q) :
    ∃ a b, Sheet.GetCell p s = .handle (some a) ∧ Sheet.GetCell q s = .handle (some b) ∧
      Relation.TransGen (depEdge s) b a := by
  induction h with
  | single h1 =>
    obtain ⟨_, a, b, ha, hb, hab⟩ := references_backLinked hwf hbl h1
    exact ⟨a, b, ha, hb, Relation.TransGen.single hab⟩
  | tail _ h2 ih =>
    obtain ⟨a, m, ha, hm, hpath⟩ := ih
    obtain ⟨_, m', b, hm', hb, hmb⟩ := references_backLinked hwf hbl h2
    rw [hm] at hm'
    have hmm : m = m' := Option.some.inj (Found.handle.inj hm')
    rw [← hmm] at hmb
    exact ⟨a, b, ha, hb, Relation.TransGen.head hmb hpath⟩

theorem forwardAcyclic_of_backLinked {s : State} (hwf : WF s) (hbl : BackLinked s)
    (hac : depAcyclic s) : forwardAcyclic s := by
  intro p hp
  obtain ⟨a, b, ha, hb, hpath⟩ := forward_path_reversed hwf hbl hp
  rw [ha] at hb
  have hab : a = b := Option.some.inj (Found.handle.inj hb)
  rw [← hab] at hpath
  exact hac a hpath

theorem reachableNoClear_forwardAcyclic {P : Parser} {s : State} (h : ReachableNoClear P s) :
    forwardAcyclic s :=
  forwardAcyclic_of_backLinked (reachableVia_wf h) (reachableNoClear_backLinked h)
    (reachableNoClear_sound h).acyclic

/-- C19: in every state reached from the empty sheet without `ClearCell`, by `SetCell`
calls that returned or threw (and value reads), (a) whenever the cell at `p` references
the position `q`, `q` is valid and holds a cell whose reverse-dependency set contains the
cell at `p`; (b) the stored reverse-dependency graph has no cycle; hence the
forward-reference graph has no cycle, and every further `SetCell` comes back to the caller
and leaves it without a cycle. -/
theorem C19_setCell_only_invariants (P : Parser) {s : State} (h : ReachableNoClear P s) :
    (∀ p q, references s p q → q.IsValid = true ∧
      ∃ a b, Sheet.GetCell p s = .handle (some a) ∧ Sheet.GetCell q s = .handle (some b) ∧
        a ∈ dependents s b) ∧
    depAcyclic s ∧ forwardAcyclic s ∧
    ∀ pos text, (Sheet.SetCell P pos text s).1.returns = true ∧
      forwardAcyclic (Sheet.SetCell P pos text s).2 := by
  refine ⟨fun p q hpq => references_backLinked (reachableVia_wf h)
      (reachableNoClear_backLinked h) hpq, (reachableNoClear_sound h).acyclic,
    reachableNoClear_forwardAcyclic h, fun pos text => ?_⟩
  have hret := setCell_returns P h pos text
  exact ⟨hret, reachableNoClear_forwardAcyclic (ReachableVia.step (.setCell pos text) h rfl hret)⟩

/-- C19 after `SetCell(A1, "=B1")`: the forward-reference graph has no cycle, the edit
`SetCell(B1, "=A1")` that would close one throws `CircularDependencyException`, and the
graph is still without a cycle afterwards. -/
theorem C19_setCell_only_invariants_witness :
    forwardAcyclic sheetA1refB1 ∧
    (Sheet.SetCell sampleParser B1 "=A1".toList sheetA1refB1).1 = .circularDependency ∧
    forwardAcyclic (Sheet.SetCell sampleParser B1 "=A1".toList sheetA1refB1).2 :=
  have h := C19_setCell_only_invariants sampleParser
    (reachableNoClear_runOps [.setCell A1 "=B1".toList] .empty (by decide) (by decide))
  ⟨h.2.2.1, by decide, (h.2.2.2 B1 "=A1".toList).2⟩


/-! ## A plain text after `ClearCell` -/

/-- C6 (failing input): `SetCell(A1, "=B1")` and `ClearCell(A1)` return normally and leave
the destroyed cell that was at A1 (address 0) in the reverse-dependency set of the cell at
B1 (address 1).  The position B1 is valid and the text "1" is plain, yet `SetCell(B1, "1")`
does not come back to the caller: the traversal of the cycle check follows the dangling
pointer.  So there is no state after the call in which the text at B1 is "1". -/
theorem C6_plain_text_setCell_after_clearCell :
    allOk sampleParser callsClearingFormula State.empty = true ∧
    Reachable sampleParser (runOps sampleParser callsClearingFormula State.empty) ∧
    B1.IsValid = true ∧
    ("1".toList = [] ∨ "1".toList.head? ≠ some FORMULA_SIGN ∨ "1".toList = [FORMULA_SIGN]) ∧
    Sheet.GetCell B1 (runOps sampleParser callsClearingFormula State.empty)
      = .handle (some 1) ∧
    dependents (runOps sampleParser callsClearingFormula State.empty) 1 = [0] ∧
    ((runOps sampleParser callsClearingFormula State.empty).deref 0).isNone = true ∧
    (Sheet.SetCell sampleParser B1 "1".toList
      (runOps sampleParser callsClearingFormula State.empty)).1 = .undefinedBehaviour ∧
    (Sheet.SetCell sampleParser B1 "1".toList
      (runOps sampleParser callsClearingFormula State.empty)).1.returns = false :=
  ⟨by decide, reachable_runOps callsClearingFormula .empty (by decide), by decide,
    Or.inr (Or.inl (by decide)), by decide, by decide, by decide, by decide, by decide⟩

end Spreadsheet
